import Mathlib

/-!
# Progress tracking: Task, TaskStack and the notifications sent to Progress

Shallow embedding of `llvm/include/llvm/Support/Progress.h` and
`llvm/lib/Support/Progress.cpp`.

* A `Task` object lives at an address; here the objects of one thread are the
  cells of `World.Heap` and a `Task *` is the position of the cell (`TaskId`).
* `CurrentStack` (the `thread_local TaskStack`) is `World.Stack`.
* Every call of `Progress::handleNewTask`, `Progress::handleTaskCompleted` and
  `Progress::handleTaskAdvancement` is recorded, in call order, in `World.Log`,
  together with the contents of `Tasks` at the moment of the call.
* `assert` is a fatal contract violation: the operation returns
  `Except.error` naming the assertion that failed.
* `int64_t StepIndex` is an `Int`: the only arithmetic is `StepIndex + 1`, whose
  signed overflow is undefined in C++ and needs `2^63` calls of `advance`.
  `unsigned SuspendRequests` is a `Nat` reduced modulo `2^32`, and so is the
  `unsigned Count` of the constructor of `TaskOnSet`.
* `Progress` is its registry and the identity of the primary thread; the
  listeners are addresses, and the three `Progress::handle...` methods return the
  listener callbacks they make, in order.
* A `TaskOnSet` is its base `Task` (an object of the heap) with the set
  `Predicted` and the flag `Suspended`; the calls it makes to
  `suspendTracking` and `resumeTracking` are recorded in `TrackingCalls`.
* Two threads are a `Process`: one `World` for each thread, the shared
  `Progress`, and the listener callbacks in the order they are made, for an
  interleaving that takes one call of one thread at a time.
* `SystemZInstPrinter` (`llvm/lib/Target/SystemZ/MCTargetDesc/SystemZInstPrinter.cpp`):
  a printing function returns the text it writes to the stream `O`; the
  generated `getRegisterName` is a parameter.
-/

namespace llvm

/-- A `Task *`: the position of the object in `World.Heap`. -/
abbrev TaskId := Nat

/-- The assertions of the source, one constructor for each. -/
inductive Violation where
  /-- Failure of `assert(NewStepIndex < *TotalSteps)` in `Task::advance`. -/
  | stepBound
  /-- Failure of `assert(not Tasks.back()->subtaskCreated())` in `TaskStack::registerTask`. -/
  | singleSubtask
  /-- Failure of `assert(Tasks.back() == T)` in `TaskStack::unregisterTask`. -/
  | notTop
  /-- Call of `Tasks.back()` on an empty `SmallVector` (it asserts `!empty()`). -/
  | emptyStack
  /-- Failure of `assert(isSuspended())` in `TaskStack::resumeTracking`. -/
  | notSuspended
  /-- A `Task *` that designates no object is dereferenced. -/
  | invalidTask
  /-- Failure of `assert(isMainThread())` in `Progress::registerListener`. -/
  | notMainThread
  /-- Failure of `assert(TotalSteps == Count)` in the constructor of `TaskOnSet`. -/
  | totalStepsMismatch
  /-- Failure of `assert(It != End)` in `Task::index`. -/
  | notInStack
  /-- The call `llvm_unreachable("Invalid operand")` in
  `SystemZInstPrinter::printOperand`. -/
  | invalidOperand
  /-- Failure of `assert(isUInt<N>(Value))` or `assert(isInt<N>(Value))` in the
  immediate printers of `SystemZInstPrinter`. -/
  | invalidImmediate
  deriving DecidableEq, Repr

/-- The data members of `class Task`, with their default member initialisers.
The back-reference `Stack` is always `CurrentStack`, the stack of the world. -/
structure Task where
  StepIndex : Int := -1
  TotalSteps : Option Int
  TaskName : String
  StepName : String := ""
  SubtaskCreated : Bool := false
  Completed : Bool := false
  CurrentStepHasSingleSubtask : Bool := false
  deriving DecidableEq, Repr

/-- The data members of `class TaskStack` (`Parent` is the one `Progress`). -/
structure TaskStack where
  SuspendRequests : Nat := 0
  Tasks : List TaskId := []
  deriving DecidableEq, Repr

/-- The three calls a `TaskStack` makes to `Progress`. -/
inductive Event where
  | NewTask (T : TaskId)
  | TaskCompleted (T : TaskId)
  | TaskAdvancement (T : TaskId) (PreviousStepName : String)
  deriving DecidableEq, Repr

/-- One recorded call to `Progress`, with `Tasks` as it is during the call. -/
structure Notification where
  event : Event
  Tasks : List TaskId
  deriving DecidableEq, Repr

/-- The objects of one thread: its `Task`s, its `TaskStack`, and the calls it
has made to `Progress` so far (oldest first). -/
structure World where
  Heap : List Task := []
  Stack : TaskStack := {}
  Log : List Notification := []
  deriving DecidableEq, Repr

/-- A thread that has not created any `Task` yet. -/
def World.init : World := {}

/-- Assignment to the members of the object `T` points to. -/
def World.setTask (w : World) (T : TaskId) (t : Task) : World :=
  { w with Heap := w.Heap.set T t }

/-- The function `Tasks.push_back(T)`. -/
def World.pushTask (w : World) (T : TaskId) : World :=
  { w with Stack := { w.Stack with Tasks := w.Stack.Tasks ++ [T] } }

/-- The function `Tasks.pop_back()`. -/
def World.popTask (w : World) : World :=
  { w with Stack := { w.Stack with Tasks := w.Stack.Tasks.dropLast } }

/-- The method `TaskStack::isSuspended`: `SuspendRequests > 0`. -/
def TaskStack.isSuspended (S : TaskStack) : Bool :=
  decide (S.SuspendRequests > 0)

/-- The method `TaskStack::suspendTracking`: `++SuspendRequests` on an `unsigned`. -/
def TaskStack.suspendTracking (w : World) : World :=
  { w with Stack := { w.Stack with SuspendRequests := (w.Stack.SuspendRequests + 1) % 2 ^ 32 } }

/-- The method `TaskStack::resumeTracking`: `assert(isSuspended()); --SuspendRequests`. -/
def TaskStack.resumeTracking (w : World) : Except Violation World :=
  if w.Stack.isSuspended then
    .ok { w with Stack := { w.Stack with SuspendRequests := w.Stack.SuspendRequests - 1 } }
  else .error .notSuspended

/-- The method `Progress::handleNewTask`, as the stack sees it: the call is recorded. -/
def Progress.handleNewTask (w : World) (T : TaskId) : World :=
  { w with Log := w.Log ++ [⟨.NewTask T, w.Stack.Tasks⟩] }

/-- The method `Progress::handleTaskCompleted`, as the stack sees it. -/
def Progress.handleTaskCompleted (w : World) (T : TaskId) : World :=
  { w with Log := w.Log ++ [⟨.TaskCompleted T, w.Stack.Tasks⟩] }

/-- The method `Progress::handleTaskAdvancement`, as the stack sees it. -/
def Progress.handleTaskAdvancement (w : World) (T : TaskId) (PreviousStepName : String) : World :=
  { w with Log := w.Log ++ [⟨.TaskAdvancement T PreviousStepName, w.Stack.Tasks⟩] }

/-- The method `TaskStack::registerTask(Task *T)`. The single-subtask assertion is guarded
by `T->currentStepHasSingleSubtask()`, the flag of the task being registered. -/
def TaskStack.registerTask (w : World) (T : TaskId) : Except Violation World :=
  if w.Stack.isSuspended then .ok w
  else
    match w.Stack.Tasks.getLast? with
    | none => .ok (Progress.handleNewTask (w.pushTask T) T)
    | some B =>
      match w.Heap[T]?, w.Heap[B]? with
      | some t, some b =>
        if t.CurrentStepHasSingleSubtask && b.SubtaskCreated then .error .singleSubtask
        else
          .ok (Progress.handleNewTask
            ((w.setTask B { b with SubtaskCreated := true }).pushTask T) T)
      | _, _ => .error .invalidTask

/-- The method `TaskStack::unregisterTask(Task *T)`. -/
def TaskStack.unregisterTask (w : World) (T : TaskId) : Except Violation World :=
  if w.Stack.isSuspended then .ok w
  else
    match w.Stack.Tasks.getLast? with
    | none => .error .emptyStack
    | some B =>
      if B = T then .ok (Progress.handleTaskCompleted w T).popTask
      else .error .notTop

/-- The method `TaskStack::advanceTask(Task *T, StringRef PreviousStepName)`. -/
def TaskStack.advanceTask (w : World) (T : TaskId) (PreviousStepName : String) : World :=
  if w.Stack.isSuspended then w
  else Progress.handleTaskAdvancement w T PreviousStepName

/-- The constructor `Task::Task(TotalSteps, TaskName)`: the object is laid out with its default
member initialisers, then `Stack.registerTask(this)`. Returns the new `this`. -/
def Task.create (w : World) (TotalSteps : Option Int) (TaskName : String) :
    Except Violation (TaskId × World) :=
  let T := w.Heap.length
  match TaskStack.registerTask
      { w with Heap := w.Heap ++ [{ TotalSteps := TotalSteps, TaskName := TaskName }] } T with
  | .ok w1 => .ok (T, w1)
  | .error e => .error e

/-- The method `Task::complete()`. -/
def Task.complete (w : World) (T : TaskId) : Except Violation World :=
  match w.Heap[T]? with
  | none => .error .invalidTask
  | some t =>
    if t.Completed then .ok w
    else TaskStack.unregisterTask (w.setTask T { t with Completed := true }) T

/-- The destructor `Task::~Task()`: `complete()`. -/
def Task.destroy (w : World) (T : TaskId) : Except Violation World :=
  Task.complete w T

/-- The method `Task::advance(NewStepName, SingleSubtask)`. -/
def Task.advance (w : World) (T : TaskId) (NewStepName : String) (SingleSubtask : Bool) :
    Except Violation World :=
  match w.Heap[T]? with
  | none => .error .invalidTask
  | some t =>
    let NewStepIndex := t.StepIndex + 1
    let advanced : Except Violation World :=
      .ok (TaskStack.advanceTask
        (w.setTask T { t with StepIndex := NewStepIndex, StepName := NewStepName,
                              SubtaskCreated := false,
                              CurrentStepHasSingleSubtask := SingleSubtask })
        T t.StepName)
    match t.TotalSteps with
    | some Total => if NewStepIndex < Total then advanced else .error .stepBound
    | none => advanced

/-- The method `Task::setSubtaskCreated()`. -/
def Task.setSubtaskCreated (w : World) (T : TaskId) : Except Violation World :=
  match w.Heap[T]? with
  | none => .error .invalidTask
  | some t => .ok (w.setTask T { t with SubtaskCreated := true })

/-- The value of `Task::stepIndex()` of the object `T` points to. -/
def World.stepIndex (w : World) (T : TaskId) : Option Int :=
  (w.Heap[T]?).map (·.StepIndex)

/-- The calls a thread can make on its `Task`s and on its `TaskStack`. -/
inductive Op where
  /-- Construct a `Task`: `Task T(TotalSteps, TaskName)`. -/
  | create (TotalSteps : Option Int) (TaskName : String)
  /-- The call `T->advance(NewStepName, SingleSubtask)`. -/
  | advance (T : TaskId) (NewStepName : String) (SingleSubtask : Bool)
  /-- The call `T->complete()`, explicit or made by the destructor `~Task`. -/
  | complete (T : TaskId)
  /-- The call `T->setSubtaskCreated()`. -/
  | setSubtaskCreated (T : TaskId)
  /-- The call `stack().suspendTracking()`. -/
  | suspendTracking
  /-- The call `stack().resumeTracking()`. -/
  | resumeTracking
  deriving DecidableEq, Repr

/-- One call, on the world it finds. -/
def step (w : World) : Op → Except Violation World
  | .create TotalSteps TaskName =>
    match Task.create w TotalSteps TaskName with
    | .ok (_, w1) => .ok w1
    | .error e => .error e
  | .advance T NewStepName SingleSubtask => Task.advance w T NewStepName SingleSubtask
  | .complete T => Task.complete w T
  | .setSubtaskCreated T => Task.setSubtaskCreated w T
  | .suspendTracking => .ok (TaskStack.suspendTracking w)
  | .resumeTracking => TaskStack.resumeTracking w

/-- A sequence of calls, in program order; the first violation aborts. -/
def run (w : World) : List Op → Except Violation World
  | [] => .ok w
  | op :: ops =>
    match step w op with
    | .ok w1 => run w1 ops
    | .error e => .error e

/-- Consecutive calls `T->advance(name, single)`, one for each element. -/
def advances (T : TaskId) (args : List (String × Bool)) : List Op :=
  args.map (fun a => Op.advance T a.1 a.2)

/-- The object `Task::advance` leaves behind. -/
def Task.advanced (t : Task) (NewStepName : String) (SingleSubtask : Bool) : Task :=
  { t with StepIndex := t.StepIndex + 1, StepName := NewStepName,
           SubtaskCreated := false, CurrentStepHasSingleSubtask := SingleSubtask }

/-- The end-to-end scenario: Task "build" with total 2, `advance("compile")`, a
nested Task "compile-unit" with total 1, `advance("parse")` on it, its
destruction, then `advance("link")` on the outer Task. The outer Task is object
`0`, the nested one object `1`. -/
def buildScenario : List Op :=
  [.create (some 2) "build", .advance 0 "compile" false,
   .create (some 1) "compile-unit", .advance 1 "parse" false,
   .complete 1, .advance 0 "link" false]

/-- A step declared single-subtask that sees two nested Tasks: Task "parent"
(object `0`) starts a step with `SingleSubtask = true`, a first nested Task
(object `1`) is created and destroyed, then a second one is created. -/
def twoSubtasksScenario : List Op :=
  [.create none "parent", .advance 0 "step" true,
   .create none "first", .complete 1, .create none "second"]

/-- The number of calls of `Progress::handleTaskCompleted` made for `T`. -/
def completions (T : TaskId) (log : List Notification) : Nat :=
  log.countP (fun n => n.event = Event.TaskCompleted T)

/-- A Task created and destroyed while tracking is suspended: Task "outer"
(object `0`) is created, its stack is suspended, then Task "inner" (object `1`)
is created and destroyed. -/
def suspendedChildScenario : List Op :=
  [.create none "outer", .suspendTracking, .create none "inner", .complete 1]

/-- Each Task has at most one completion notification in the log, and a Task
that has one is marked completed. -/
def completedOnce (w : World) : Prop :=
  ∀ T, completions T w.Log ≤ 1 ∧
    (1 ≤ completions T w.Log → ∃ t, w.Heap[T]? = some t ∧ t.Completed = true)

/-- The number of Tasks created on the thread and not yet completed. -/
def liveCount (w : World) : Nat :=
  w.Heap.countP (fun t => !t.Completed)

/-- Whether the call is one of `suspendTracking` and `resumeTracking`. -/
def Op.touchesSuspension : Op → Bool
  | .suspendTracking => true
  | .resumeTracking => true
  | _ => false

/-- Whether the call is a Task creation, an `advance` or a `complete`. -/
def Op.isLifecycle : Op → Bool
  | .create _ _ => true
  | .advance _ _ _ => true
  | .complete _ => true
  | _ => false

/-- Whether the notification reports a Task registered directly on top of `T`:
a new-task call during which `T` is the element of `Tasks` just below the last. -/
def Notification.registersOnTopOf (n : Notification) (T : TaskId) : Bool :=
  match n.event with
  | .NewTask _ => decide (n.Tasks.dropLast.getLast? = some T)
  | _ => false

/-- Whether the notification reports an advancement of `T`. -/
def Notification.advances (n : Notification) (T : TaskId) : Bool :=
  match n.event with
  | .TaskAdvancement T1 _ => decide (T1 = T)
  | _ => false

/-- Whether, according to the log, a nested Task has been registered directly on
top of `T` since the last advancement of `T` (since its creation if it never
advanced): some notification registers a Task on top of `T` and no later one is
an advancement of `T`. -/
def nestedSinceLastAdvance (T : TaskId) : List Notification → Bool
  | [] => false
  | n :: rest =>
    (n.registersOnTopOf T && !rest.any (fun m => m.advances T))
      || nestedSinceLastAdvance T rest

/-- The stack is not suspended, `Tasks` and the logged copies of `Tasks` point to
existing objects, and the flag `SubtaskCreated` of each object is what the log
says. -/
def flagsMatchLog (w : World) : Prop :=
  w.Stack.SuspendRequests = 0 ∧
  (∀ i ∈ w.Stack.Tasks, i < w.Heap.length) ∧
  (∀ n ∈ w.Log, ∀ i ∈ n.Tasks, i < w.Heap.length) ∧
  (∀ (T : TaskId) (t : Task), w.Heap[T]? = some t →
    t.SubtaskCreated = nestedSinceLastAdvance T w.Log)

/-! ## Progress: the listener registry -/

/-- The struct `Progress::RegistryEntry`; the `unique_ptr<ProgressListener>` is
the address of the listener object. -/
structure RegistryEntry where
  AllThreads : Bool := false
  Listener : Nat
  deriving DecidableEq, Repr

/-- The data members of `class Progress`. -/
structure Progress where
  MainThreadID : Nat
  Registry : List RegistryEntry := []
  deriving DecidableEq, Repr

/-- One invocation of a `ProgressListener` callback: the listener object and the
callback with its arguments. -/
structure ListenerCall where
  Listener : Nat
  event : Event
  deriving DecidableEq, Repr

/-- The constructor `Progress::Progress()`, run by the thread `thread`
(the value of `get_threadid()` there). -/
def Progress.create (thread : Nat) : Progress :=
  { MainThreadID := thread }

/-- The method `Progress::isMainThread`, called by the thread `thread`. -/
def Progress.isMainThread (P : Progress) (thread : Nat) : Bool :=
  P.MainThreadID == thread

/-- The method `Progress::registerListener<T>(Args...)`, called by the thread
`thread`; `AllThreads` is `T::AllThreads` and `Listener` the address of the
object `make_unique<T>(Args...)` makes. -/
def Progress.registerListener (P : Progress) (thread : Nat) (AllThreads : Bool)
    (Listener : Nat) : Except Violation Progress :=
  if P.isMainThread thread then
    .ok { P with Registry := P.Registry ++ [{ AllThreads := AllThreads, Listener := Listener }] }
  else .error .notMainThread

/-- The loop shared by the three `Progress::handle...` methods, called by the
thread `thread`: the listener callbacks it makes, in the order it makes them. -/
def Progress.notify (P : Progress) (thread : Nat) (event : Event) : List ListenerCall :=
  let IsMainThread := P.isMainThread thread
  P.Registry.foldl
    (fun calls entry =>
      if IsMainThread || entry.AllThreads then calls ++ [⟨entry.Listener, event⟩] else calls)
    []

/-- The listener callbacks made by `Progress::handleNewTask(T)`. -/
def Progress.handleNewTaskCalls (P : Progress) (thread : Nat) (T : TaskId) :
    List ListenerCall :=
  P.notify thread (.NewTask T)

/-- The listener callbacks made by `Progress::handleTaskCompleted(T)`. -/
def Progress.handleTaskCompletedCalls (P : Progress) (thread : Nat) (T : TaskId) :
    List ListenerCall :=
  P.notify thread (.TaskCompleted T)

/-- The listener callbacks made by
`Progress::handleTaskAdvancement(T, PreviousStepName)`. -/
def Progress.handleTaskAdvancementCalls (P : Progress) (thread : Nat) (T : TaskId)
    (PreviousStepName : String) : List ListenerCall :=
  P.notify thread (.TaskAdvancement T PreviousStepName)

/-- The entries whose listener `Progress` notifies for an event raised by the
thread `thread`: those tagged all-threads, and all of them on the primary
thread. -/
def Progress.eligible (P : Progress) (thread : Nat) : List RegistryEntry :=
  P.Registry.filter (fun entry => P.isMainThread thread || entry.AllThreads)

/-! ## TaskOnSet -/

/-- A call a `TaskOnSet` makes to its stack. -/
inductive TrackingCall where
  | suspendTracking
  | resumeTracking
  deriving DecidableEq, Repr

/-- The data members of `class TaskOnSet<ValueType>`: the base `Task` is the
object `This` points to, `Predicted` is the set (a list without repetition).
`TrackingCalls` is not a member: it records, oldest first, the calls the object
has made to `Stack.suspendTracking()` and `Stack.resumeTracking()`. -/
structure TaskOnSet (V : Type) where
  This : TaskId
  Predicted : List V
  Suspended : Bool := false
  TrackingCalls : List TrackingCall := []
  deriving DecidableEq, Repr

/-- The loop of the constructor of `TaskOnSet`: `Predicted.insert(Element)` and
`++Count` (an `unsigned`) for each element. -/
def TaskOnSet.collect {V : Type} [DecidableEq V] (Elements : List V) : List V × Nat :=
  Elements.foldl
    (fun (acc : List V × Nat) Element => (acc.1.insert Element, (acc.2 + 1) % 2 ^ 32))
    ([], 0)

/-- The constructor `TaskOnSet(Elements, TaskName)`: the base is built by
`Task({}, TaskName)`, the elements are collected and counted, then
`TotalSteps = Predicted.size(); assert(TotalSteps == Count)`. -/
def TaskOnSet.create {V : Type} [DecidableEq V] (w : World) (Elements : List V)
    (TaskName : String) : Except Violation (TaskOnSet V × World) :=
  match Task.create w none TaskName with
  | .error e => .error e
  | .ok (T, w1) =>
    let collected := TaskOnSet.collect Elements
    match w1.Heap[T]? with
    | none => .error .invalidTask
    | some t =>
      if (collected.1.length : Int) = (collected.2 : Int) then
        .ok ({ This := T, Predicted := collected.1 },
             w1.setTask T { t with TotalSteps := some (collected.1.length : Int) })
      else .error .totalStepsMismatch

/-- The method `TaskOnSet::advance(Element, NewStepName, SingleSubtask)`;
`Predicted.count(Element) != 0` is membership in the set. -/
def TaskOnSet.advance {V : Type} [DecidableEq V] (w : World) (S : TaskOnSet V) (Element : V)
    (NewStepName : String) (SingleSubtask : Bool) : Except Violation (TaskOnSet V × World) :=
  if Element ∈ S.Predicted then
    if S.Suspended then
      match TaskStack.resumeTracking w with
      | .error e => .error e
      | .ok w1 =>
        match Task.advance w1 S.This NewStepName SingleSubtask with
        | .error e => .error e
        | .ok w2 =>
          .ok ({ S with Suspended := false,
                        TrackingCalls := S.TrackingCalls ++ [.resumeTracking] }, w2)
    else
      match Task.advance w S.This NewStepName SingleSubtask with
      | .error e => .error e
      | .ok w2 => .ok (S, w2)
  else
    if S.Suspended then .ok (S, w)
    else
      .ok ({ S with Suspended := true,
                    TrackingCalls := S.TrackingCalls ++ [.suspendTracking] },
           TaskStack.suspendTracking w)

/-- The destructor `~TaskOnSet()`: `if (Suspended) Stack.resumeTracking();`,
then the destructor of the base `Task`. -/
def TaskOnSet.destroy {V : Type} (w : World) (S : TaskOnSet V) :
    Except Violation (TaskOnSet V × World) :=
  if S.Suspended then
    match TaskStack.resumeTracking w with
    | .error e => .error e
    | .ok w1 =>
      match Task.destroy w1 S.This with
      | .error e => .error e
      | .ok w2 => .ok ({ S with TrackingCalls := S.TrackingCalls ++ [.resumeTracking] }, w2)
  else
    match Task.destroy w S.This with
    | .error e => .error e
    | .ok w2 => .ok (S, w2)

/-- Consecutive calls of `TaskOnSet::advance`, one for each element of `calls`
(the element presented, the step name, the single-subtask flag). -/
def TaskOnSet.advanceAll {V : Type} [DecidableEq V] (w : World) (S : TaskOnSet V) :
    List (V × String × Bool) → Except Violation (TaskOnSet V × World)
  | [] => .ok (S, w)
  | call :: rest =>
    match TaskOnSet.advance w S call.1 call.2.1 call.2.2 with
    | .error e => .error e
    | .ok (S1, w1) => TaskOnSet.advanceAll w1 S1 rest

/-! ## Sequences of suspend/resume calls -/

/-- The call of `step` that a tracking call is. -/
def TrackingCall.toOp : TrackingCall → Op
  | .suspendTracking => .suspendTracking
  | .resumeTracking => .resumeTracking

/-- The nesting depth after a sequence of suspend/resume calls entered at depth
`d`: each suspend opens a level, each resume closes one; `none` when a resume
has no suspend to close. -/
def depthAfter : Nat → List TrackingCall → Option Nat
  | d, [] => some d
  | d, .suspendTracking :: rest => depthAfter (d + 1) rest
  | 0, .resumeTracking :: _ => none
  | d + 1, .resumeTracking :: rest => depthAfter d rest

/-- The greatest nesting depth reached by a sequence entered at depth `d`. -/
def peakDepth : Nat → List TrackingCall → Nat
  | d, [] => d
  | d, .suspendTracking :: rest => max d (peakDepth (d + 1) rest)
  | d, .resumeTracking :: rest => max d (peakDepth (d - 1) rest)

/-- A Task advanced while another Task is above it on the stack: Task "outer"
(object `0`), then Task "inner" (object `1`), then `advance("step")` on the
outer one. -/
def advanceBelowTopScenario : List Op :=
  [.create none "outer", .create none "inner", .advance 0 "step" false]

/-- A Task advanced after its completion: Task "done" (object `0`) is created,
completed, then advanced. -/
def advanceCompletedScenario : List Op :=
  [.create none "done", .complete 0, .advance 0 "late" false]

/-- A Task advanced although it was never registered: it is created (object `0`)
while tracking is suspended, tracking resumes, then it is advanced. -/
def advanceUnregisteredScenario : List Op :=
  [.suspendTracking, .create none "hidden", .resumeTracking, .advance 0 "step" false]

/-- Consecutive calls of `registerListener` by the thread `thread`, one for
each pair (the tag `AllThreads`, the address of the listener). -/
def Progress.registerAll (P : Progress) (thread : Nat) :
    List (Bool × Nat) → Except Violation Progress
  | [] => .ok P
  | l :: rest =>
    match P.registerListener thread l.1 l.2 with
    | .error e => .error e
    | .ok P1 => P1.registerAll thread rest

/-! ## Call sequences on a TaskOnSet -/

/-- The number of calls that present a member of the expected set. -/
def memberCalls {V : Type} [DecidableEq V] (Predicted : List V)
    (calls : List (V × String × Bool)) : Nat :=
  calls.countP (fun call => decide (call.1 ∈ Predicted))

/-- For each call, whether the element it presents is expected. -/
def expectedFlags {V : Type} [DecidableEq V] (Predicted : List V)
    (calls : List (V × String × Bool)) : List Bool :=
  calls.map (fun call => decide (call.1 ∈ Predicted))

/-- The number of maximal runs of unexpected elements (`false`) that are
followed by an expected one (`true`); `prev` tells whether the element before
the list is expected. -/
def closedRuns : Bool → List Bool → Nat
  | _, [] => 0
  | prev, flag :: rest => (if !prev && flag then 1 else 0) + closedRuns flag rest

/-- The trace made of `k` pairs suspend, resume. -/
def suspendResumePairs : Nat → List TrackingCall
  | 0 => []
  | k + 1 => .suspendTracking :: .resumeTracking :: suspendResumePairs k

/-- The tracking calls the specification expects of a `TaskOnSet` that starts
in state Tracking: one pair suspend, resume for each maximal run of unexpected
elements that is followed by an expected one, and one more suspend when the
sequence ends with an unexpected element. -/
def trackingPattern (flags : List Bool) : List TrackingCall :=
  suspendResumePairs (closedRuns true flags)
    ++ (if flags.getLast? = some false then [.suspendTracking] else [])


/-! ## Task::index -/

/-- The call `std::find(Begin, End, T)` on `Tasks`, as the distance of the
iterator it returns from `Begin`: the position of the first element equal to
`T`, the size of the sequence (`End`) when there is none. -/
def TaskStack.find : List TaskId → TaskId → Nat
  | [], _ => 0
  | x :: rest, T => if x = T then 0 else TaskStack.find rest T + 1

/-- The method `Task::index`. -/
def Task.index (w : World) (T : TaskId) : Except Violation Nat :=
  let Begin := 0
  let End := w.Stack.Tasks.length
  let It := TaskStack.find w.Stack.Tasks T
  if It = End then .error .notInStack else .ok (It - Begin)

/-- Three strictly nested Tasks created with no suspension: objects `0`, `1`
and `2`. -/
def threeNestedScenario : List Op :=
  [.create none "first", .create none "second", .create none "third"]

/-! ## SystemZInstPrinter -/

/-- The kinds of `MCOperand` that `SystemZInstPrinter::printOperand` tells
apart: a register number, an immediate (`int64_t`), an expression (given by the
text `MCExpr::print` writes for it), and every other kind. -/
inductive MCOperand where
  | Reg (RegNo : Nat)
  | Imm (Val : Int)
  | Expr (Printed : String)
  | Other
  deriving DecidableEq, Repr

/-- The template function `isUInt<N>` applied to an `int64_t` (converted to
`uint64_t`). -/
def isUInt (N : Nat) (x : Int) : Bool :=
  if N < 64 then decide (x % 2 ^ 64 < 2 ^ N) else true

/-- The template function `isInt<N>` applied to an `int64_t`. -/
def isInt (N : Nat) (x : Int) : Bool :=
  if N < 64 then decide (-(2 ^ (N - 1)) ≤ x ∧ x < 2 ^ (N - 1)) else true

/-- The method `SystemZInstPrinter::printAddress`: the text it writes to `O`.
The generated function `getRegisterName` is a parameter. -/
def SystemZInstPrinter.printAddress (getRegisterName : Nat → String) (Base : Nat)
    (Disp : Int) (Index : Nat) (UseMarkup : Bool) : String :=
  let O := ""
  let O := if UseMarkup then O ++ "<imm:" else O
  let O := O ++ toString Disp
  let O := if UseMarkup then O ++ ">" else O
  if Base ≠ 0 ∨ Index ≠ 0 then
    let O := O ++ "("
    let O :=
      if Index ≠ 0 then
        let O := if UseMarkup then O ++ "<reg:" else O
        let O := O ++ "%" ++ getRegisterName Index
        let O := if UseMarkup then O ++ ">" else O
        if Base ≠ 0 then O ++ "," else O
      else O
    let O :=
      if Base ≠ 0 then
        let O := if UseMarkup then O ++ "<reg:" else O
        let O := O ++ "%" ++ getRegisterName Base
        if UseMarkup then O ++ ">" else O
      else O
    O ++ ")"
  else O

/-- The method `SystemZInstPrinter::printOperand(MO, MAI, O, UseMarkup)`: the
text it writes to `O`. The generated function `getRegisterName` is a
parameter. -/
def SystemZInstPrinter.printOperand (getRegisterName : Nat → String) (MO : MCOperand)
    (UseMarkup : Bool) : Except Violation String :=
  let O := ""
  match MO with
  | .Reg RegNo =>
    if RegNo = 0 then .ok (O ++ "0")
    else
      let O := if UseMarkup then O ++ "<reg:" else O
      let O := O ++ "%" ++ getRegisterName RegNo
      .ok (if UseMarkup then O ++ ">" else O)
  | .Imm Val =>
    let O := if UseMarkup then O ++ "<reg:" else O
    let O := O ++ toString Val
    .ok (if UseMarkup then O ++ ">" else O)
  | .Expr Printed => .ok (O ++ Printed)
  | .Other => .error .invalidOperand

/-- The template function `printUImmOperand<N>`, on the operand `MO` of the
instruction: the text it writes to `O`. -/
def SystemZInstPrinter.printUImmOperand (N : Nat) (Value : Int) (UseMarkup : Bool) :
    Except Violation String :=
  if isUInt N Value then
    let O := ""
    let O := if UseMarkup then O ++ "<imm:" else O
    let O := O ++ toString Value
    .ok (if UseMarkup then O ++ ">" else O)
  else .error .invalidImmediate

/-- The template function `printSImmOperand<N>`: the text it writes to `O`. -/
def SystemZInstPrinter.printSImmOperand (N : Nat) (Value : Int) (UseMarkup : Bool) :
    Except Violation String :=
  if isInt N Value then
    let O := ""
    let O := if UseMarkup then O ++ "<imm:" else O
    let O := O ++ toString Value
    .ok (if UseMarkup then O ++ ">" else O)
  else .error .invalidImmediate

/-- A stand-in for the generated table of register names: register `n` is
called `r` followed by `n - 1`. -/
def sampleRegisterName (RegNo : Nat) : String :=
  "r" ++ toString (RegNo - 1)

/-! ## The stack, the live Tasks and the order of the events -/

/-- The Task an event is about: the argument `T` of the callback. -/
def Event.task : Event → TaskId
  | .NewTask T => T
  | .TaskCompleted T => T
  | .TaskAdvancement T _ => T

/-- Whether the event is an advancement. -/
def Event.isAdvancement : Event → Bool
  | .TaskAdvancement _ _ => true
  | _ => false

/-- The value of `T->completed()`; `none` when `T` designates no object. -/
def World.completed (w : World) (T : TaskId) : Option Bool :=
  (w.Heap[T]?).map (fun t => t.Completed)

/-- The Tasks created on the thread and not completed, in the order of their
creation. -/
def World.liveTasks (w : World) : List TaskId :=
  (List.range w.Heap.length).filter (fun T => decide (w.completed T = some false))

/-- A registered Task completed while tracking is suspended: Task "outer"
(object `0`) is created, its stack is suspended, then the Task completes. -/
def completedWhileSuspendedScenario : List Op :=
  [.create none "outer", .suspendTracking, .complete 0]

/-- A Task created while tracking is suspended (object `0`). -/
def createdWhileSuspendedScenario : List Op :=
  [.suspendTracking, .create none "hidden"]

/-- The stack is not suspended and `Tasks` holds, in the order of their creation
and once each, the Tasks that are created and not completed. -/
def stackIsLive (w : World) : Prop :=
  w.Stack.SuspendRequests = 0 ∧ w.Stack.Tasks.Pairwise (fun a b => a < b) ∧
  ∀ T, T ∈ w.Stack.Tasks ↔ w.completed T = some false

/-- A Task that is created and destroyed: object `0`. -/
def createdAndDestroyedScenario : List Op :=
  [.create none "short", .complete 0]

/-! ## The listener callbacks of a thread -/

/-- One invocation of a listener callback, with the content of `Tasks` of the
calling thread's stack during the call. -/
structure Callback where
  Listener : Nat
  event : Event
  Tasks : List TaskId
  deriving DecidableEq, Repr

/-- The listener callbacks the thread `thread` makes during one recorded call
of `Progress`. -/
def Progress.callbacks (P : Progress) (thread : Nat) (n : Notification) : List Callback :=
  (P.notify thread n.event).map (fun c => ⟨c.Listener, c.event, n.Tasks⟩)

/-- The listener callbacks the thread `thread` has made, oldest first, given
the calls of `Progress` it has recorded. -/
def Progress.deliver (P : Progress) (thread : Nat) (log : List Notification) : List Callback :=
  log.flatMap (P.callbacks thread)

/-- Whether the Task passed to the callback is the last element of `Tasks`
during the call. -/
def Callback.taskIsLast (c : Callback) : Bool :=
  decide (c.Tasks.getLast? = some c.event.task)

/-- A registry with one listener (at address `7`), registered by the primary
thread `0` and not tagged all-threads. -/
def oneListener : Progress :=
  { MainThreadID := 0, Registry := [{ AllThreads := false, Listener := 7 }] }

/-- The events about the Task `T` among the recorded calls of `Progress`, oldest
first. -/
def eventsAbout (T : TaskId) (log : List Notification) : List Event :=
  (log.map (fun n => n.event)).filter (fun e => decide (e.task = T))

/-- The events the listener at address `L` has received from the thread
`thread`, oldest first. -/
def Progress.received (P : Progress) (thread : Nat) (L : Nat) (log : List Notification) :
    List Event :=
  ((P.deliver thread log).filter (fun c => decide (c.Listener = L))).map (fun c => c.event)

/-- The events are, in this order: one new-task event for `T`, advancement
events of `T`, and one completion event of `T` exactly when `completed` is
set. -/
def lifecycleOrder (T : TaskId) (completed : Bool) (events : List Event) : Prop :=
  ∃ advs : List Event, (∀ e ∈ advs, e.isAdvancement = true ∧ e.task = T) ∧
    events = [Event.NewTask T] ++ advs ++ (if completed then [Event.TaskCompleted T] else [])

/-- Whether each `advance` of the sequence is called on the Task that is then
the last element of `Tasks`. -/
def advancesOnTop (w : World) : List Op → Bool
  | [] => true
  | op :: rest =>
    (match op with
      | .advance T _ _ => decide (w.Stack.Tasks.getLast? = some T)
      | _ => true) &&
    (match step w op with
      | .ok w1 => advancesOnTop w1 rest
      | .error _ => true)

/-- The stack holds the live Tasks and the recorded events about each Task are
in the order of `lifecycleOrder`; no event is about an object yet to be
created. -/
def eventsInOrder (w : World) : Prop :=
  stackIsLive w ∧
  (∀ (T : TaskId) (b : Bool), w.completed T = some b → lifecycleOrder T b (eventsAbout T w.Log)) ∧
  (∀ T : TaskId, w.completed T = none → eventsAbout T w.Log = [])

/-! ## Two threads -/

/-- A process with two threads: the primary thread (the one that constructed
`Progress`, `Report.MainThreadID`) and the worker thread `WorkerThread`, each
with its own `thread_local` `CurrentStack` and its own Tasks. `Calls` lists the
listener callbacks made so far, oldest first, each with the thread that made
it. -/
structure Process where
  Report : Progress
  WorkerThread : Nat
  Primary : World := {}
  Worker : World := {}
  Calls : List (Nat × Callback) := []

/-- The listener callbacks the thread `thread` makes while one of its calls
takes its world from `w` to `w1`: those of the calls of `Progress` recorded in
between. -/
def Process.newCalls (p : Process) (thread : Nat) (w w1 : World) : List (Nat × Callback) :=
  (p.Report.deliver thread (w1.Log.drop w.Log.length)).map (fun c => (thread, c))

/-- One call made by one of the two threads, on its own stack and Tasks: by
the primary thread when `onPrimary` is set, by the worker thread otherwise. -/
def Process.exec (p : Process) (onPrimary : Bool) (op : Op) : Except Violation Process :=
  if onPrimary then
    match step p.Primary op with
    | .ok w1 =>
      .ok { p with Primary := w1,
                   Calls := p.Calls ++ p.newCalls p.Report.MainThreadID p.Primary w1 }
    | .error e => .error e
  else
    match step p.Worker op with
    | .ok w1 =>
      .ok { p with Worker := w1,
                   Calls := p.Calls ++ p.newCalls p.WorkerThread p.Worker w1 }
    | .error e => .error e

/-- An interleaving of the calls of the two threads, one call at a time; the
first violation aborts the process. -/
def Process.schedule (p : Process) : List (Bool × Op) → Except Violation Process
  | [] => .ok p
  | c :: rest =>
    match p.exec c.1 c.2 with
    | .ok p1 => p1.schedule rest
    | .error e => .error e

/-- The events the listener at address `L` has received in callbacks made by
the thread `thread`, oldest first. -/
def Process.receivedFrom (p : Process) (thread : Nat) (L : Nat) : List Event :=
  ((p.Calls.filter (fun c => decide (c.1 = thread))).filter
    (fun c => decide (c.2.Listener = L))).map (fun c => c.2.event)

/-- The callbacks the listener at address `L` has received, oldest first, each
as the calling thread and the event. -/
def Process.receivedBy (p : Process) (L : Nat) : List (Nat × Event) :=
  (p.Calls.filter (fun c => decide (c.2.Listener = L))).map (fun c => (c.1, c.2.event))

/-- The calls of one thread in an interleaving, in their order: those of the
primary thread when `onPrimary` is set, those of the worker otherwise. -/
def callsOf (onPrimary : Bool) (sched : List (Bool × Op)) : List Op :=
  (sched.filter (fun c => c.1 == onPrimary)).map (fun c => c.2)

/-- A registry with a primary-thread-only listener (address `7`) and an
all-threads listener (address `8`), the primary thread being thread `0`. -/
def twoListeners : Progress :=
  { MainThreadID := 0,
    Registry := [{ AllThreads := false, Listener := 7 }, { AllThreads := true, Listener := 8 }] }

/-- An interleaving of two threads: the primary thread creates Task "p", the
worker creates Task "w", the worker advances it, the primary thread advances
its Task, then each completes its own. -/
def twoThreadsSchedule : List (Bool × Op) :=
  [(true, .create none "p"), (false, .create none "w"), (false, .advance 0 "ws" false),
   (true, .advance 0 "ps" false), (false, .complete 0), (true, .complete 0)]

/-- The callbacks of each thread, taken out of the interleaved sequence, are
the callbacks of the calls that thread has recorded, in its own order, and
every callback is made by one of the two threads. -/
def Process.perThread (p : Process) : Prop :=
  p.Calls.filter (fun c => decide (c.1 = p.Report.MainThreadID))
    = (p.Report.deliver p.Report.MainThreadID p.Primary.Log).map
        (fun c => (p.Report.MainThreadID, c)) ∧
  p.Calls.filter (fun c => decide (c.1 = p.WorkerThread))
    = (p.Report.deliver p.WorkerThread p.Worker.Log).map (fun c => (p.WorkerThread, c)) ∧
  ∀ c ∈ p.Calls, c.1 = p.Report.MainThreadID ∨ c.1 = p.WorkerThread

/-! ## Child Tasks inside the loop over a TaskOnSet -/

/-- Strictly nested child Tasks, created and destroyed in stack order: no
child (`done`), or a first child, given by the arguments of its constructor,
with the children created and destroyed during its life (`inner`), followed by
the children created after its destruction (`next`). -/
inductive Children where
  | done
  | node (TotalSteps : Option Int) (TaskName : String) (inner : Children) (next : Children)
  deriving Repr

/-- The construction and destruction of the child Tasks of `Children`, in
program order: `{ Task C(TotalSteps, TaskName); inner } next`. -/
def runChildren (w : World) : Children → Except Violation World
  | .done => .ok w
  | .node TotalSteps TaskName inner next =>
    match Task.create w TotalSteps TaskName with
    | .error e => .error e
    | .ok (C, w1) =>
      match runChildren w1 inner with
      | .error e => .error e
      | .ok w2 =>
        match Task.destroy w2 C with
        | .error e => .error e
        | .ok w3 => runChildren w3 next

/-- The loop over an input sequence: for each element the call
`advance(Element, NewStepName, SingleSubtask)`, then the child Tasks of the
iteration, all destroyed before the next `advance`. -/
def TaskOnSet.drive {V : Type} [DecidableEq V] (w : World) (S : TaskOnSet V) :
    List ((V × String × Bool) × Children) → Except Violation (TaskOnSet V × World)
  | [] => .ok (S, w)
  | it :: rest =>
    match TaskOnSet.advance w S it.1.1 it.1.2.1 it.1.2.2 with
    | .error e => .error e
    | .ok (S1, w1) =>
      match runChildren w1 it.2 with
      | .error e => .error e
      | .ok w2 => TaskOnSet.drive w2 S1 rest

/-- Every Task object of `v` is an object of `v1` with the same step index,
total and completion flag. -/
def World.keepsTasks (v v1 : World) : Prop :=
  ∀ (i : TaskId) (t : Task), v.Heap[i]? = some t →
    ∃ t1, v1.Heap[i]? = some t1 ∧ t1.StepIndex = t.StepIndex ∧
      t1.TotalSteps = t.TotalSteps ∧ t1.Completed = t.Completed

/-- A loop over the elements `1, 9, 2` for a `TaskOnSet` on the set `1, 2`: the
iteration on the unexpected element `9` creates a child with a child of its
own, the last iteration creates two children in turn. -/
def loopIterations : List ((Nat × String × Bool) × Children) :=
  [((1, "one", false), .node none "a" .done .done),
   ((9, "nine", false), .node none "b" (.node (some 3) "c" .done .done) .done),
   ((2, "two", false), .node none "d" .done (.node none "e" .done .done))]

/-! ## The calls made and what they should leave behind -/

/-- Whether the call constructs a Task. -/
def Op.isCreate : Op → Bool
  | .create _ _ => true
  | _ => false

/-- The number of Tasks the calls construct. On a fresh thread the Task built
by the construction number `k` (from 0) is the object `k`. -/
def createCalls (calls : List Op) : Nat :=
  calls.countP Op.isCreate

/-- Following the words of the specification: the Tasks started by the calls
and not yet completed by one of them, outermost (oldest) first. -/
def startedNotCompleted (calls : List Op) : List TaskId :=
  (List.range (createCalls calls)).filter (fun T => !decide (Op.complete T ∈ calls))

/-- The event without the name of the previous step. -/
def Event.unnamed : Event → Event
  | .TaskAdvancement T _ => .TaskAdvancement T ""
  | e => e

/-- Following the words of the specification: the event a call should raise on
a stack that is not suspended, after the calls `pre`: a new-task event for a
construction, an advancement event for an `advance`, a completion event for the
first `complete` of a Task (the destructor after an explicit `complete()` raises
none). The name of the previous step is left out. -/
def expectedEvent (pre : List Op) : Op → Option Event
  | .create _ _ => some (.NewTask (createCalls pre))
  | .advance T _ _ => some (.TaskAdvancement T "")
  | .complete T => if Op.complete T ∈ pre then none else some (.TaskCompleted T)
  | _ => none

/-- The events the calls should raise, in order, when they follow the calls
`pre`. -/
def expectedEventsFrom (pre : List Op) : List Op → List Event
  | [] => []
  | op :: rest => (expectedEvent pre op).toList ++ expectedEventsFrom (pre ++ [op]) rest

/-- The events a sequence of calls on a fresh thread should raise, in order. -/
def expectedEvents (calls : List Op) : List Event :=
  expectedEventsFrom [] calls

/-- The world is what the calls `pre`, made on a fresh thread with no
suspension, should leave: the stack holds the live Tasks, there is one object
for each construction, an object is completed exactly when `complete` was called
on it, and the recorded events are the expected ones. -/
def callsTracked (pre : List Op) (w : World) : Prop :=
  stackIsLive w ∧
  w.Heap.length = createCalls pre ∧
  (∀ T : TaskId, Op.complete T ∈ pre → T < createCalls pre) ∧
  (∀ T : TaskId, w.completed T
    = if T < createCalls pre then some (decide (Op.complete T ∈ pre)) else none) ∧
  w.Log.map (fun n => n.event.unnamed) = expectedEvents pre
/-! ## Theorems -/

/-! ## Frame lemmas -/

@[simp] theorem setTask_Stack (w : World) (T : TaskId) (t : Task) :
    (w.setTask T t).Stack = w.Stack := rfl

@[simp] theorem setTask_Log (w : World) (T : TaskId) (t : Task) :
    (w.setTask T t).Log = w.Log := rfl

@[simp] theorem setTask_Heap (w : World) (T : TaskId) (t : Task) :
    (w.setTask T t).Heap = w.Heap.set T t := rfl

@[simp] theorem advanceTask_Heap (w : World) (T : TaskId) (p : String) :
    (TaskStack.advanceTask w T p).Heap = w.Heap := by
  unfold TaskStack.advanceTask Progress.handleTaskAdvancement
  split <;> rfl

@[simp] theorem advanceTask_Stack (w : World) (T : TaskId) (p : String) :
    (TaskStack.advanceTask w T p).Stack = w.Stack := by
  unfold TaskStack.advanceTask Progress.handleTaskAdvancement
  split <;> rfl

theorem advance_eq_ok {w : World} {T : TaskId} {t : Task} (n : String) (s : Bool)
    (ht : w.Heap[T]? = some t)
    (hb : ∀ Total, t.TotalSteps = some Total → t.StepIndex + 1 < Total) :
    Task.advance w T n s
      = .ok (TaskStack.advanceTask (w.setTask T (t.advanced n s)) T t.StepName) := by
  unfold Task.advance
  simp only [ht]
  split
  · next Total htot => simp [hb Total htot, Task.advanced]
  · rfl

theorem advance_eq_stepBound {w : World} {T : TaskId} {t : Task} {Total : Int}
    (n : String) (s : Bool) (ht : w.Heap[T]? = some t) (htot : t.TotalSteps = some Total)
    (hb : ¬ t.StepIndex + 1 < Total) :
    Task.advance w T n s = .error .stepBound := by
  unfold Task.advance
  simp only [ht]
  split
  · next Total1 htot1 =>
    rw [htot] at htot1
    cases htot1
    simp [hb]
  · next htot1 => rw [htot] at htot1; cases htot1

/-- What a successful `Task::advance` is: the bound held and the world is the
one computed by `advance_eq_ok`. -/
theorem advance_ok_inv {w w1 : World} {T : TaskId} {n : String} {s : Bool}
    (h : Task.advance w T n s = .ok w1) :
    ∃ t, w.Heap[T]? = some t ∧ (∀ Total, t.TotalSteps = some Total → t.StepIndex + 1 < Total) ∧
      w1 = TaskStack.advanceTask (w.setTask T (t.advanced n s)) T t.StepName := by
  unfold Task.advance at h
  cases ht : w.Heap[T]? with
  | none => simp [ht] at h
  | some t =>
    simp only [ht] at h
    split at h
    · next Total htot =>
      split at h
      · next hlt =>
        refine ⟨t, rfl, ?_, ?_⟩
        · intro Total1 htot1
          rw [htot] at htot1
          cases htot1
          exact hlt
        · injection h with h
          exact h.symm
      · cases h
    · next htot =>
      refine ⟨t, rfl, ?_, ?_⟩
      · intro Total1 htot1
        rw [htot] at htot1
        cases htot1
      · injection h with h
        exact h.symm

theorem getElem?_set_self_of_some {l : List Task} {T : TaskId} {t : Task} (t1 : Task)
    (ht : l[T]? = some t) : (l.set T t1)[T]? = some t1 := by
  have hlt : T < l.length := by
    rcases List.getElem?_eq_some.mp ht with ⟨h, _⟩
    exact h
  simp [List.getElem?_set, hlt]


@[simp] theorem handleNewTask_Heap (w : World) (T : TaskId) :
    (Progress.handleNewTask w T).Heap = w.Heap := rfl

@[simp] theorem handleNewTask_Stack (w : World) (T : TaskId) :
    (Progress.handleNewTask w T).Stack = w.Stack := rfl

@[simp] theorem pushTask_Heap (w : World) (T : TaskId) :
    (w.pushTask T).Heap = w.Heap := rfl

@[simp] theorem pushTask_Log (w : World) (T : TaskId) :
    (w.pushTask T).Log = w.Log := rfl

/-- The shape of a successful `TaskStack::registerTask`. -/
theorem registerTask_ok_inv {w w1 : World} {T : TaskId}
    (h : TaskStack.registerTask w T = .ok w1) :
    (w.Stack.isSuspended = true ∧ w1 = w) ∨
    (w.Stack.isSuspended = false ∧ w.Stack.Tasks.getLast? = none ∧
      w1 = Progress.handleNewTask (w.pushTask T) T) ∨
    (w.Stack.isSuspended = false ∧ ∃ B t b, w.Stack.Tasks.getLast? = some B ∧
      w.Heap[T]? = some t ∧ w.Heap[B]? = some b ∧
      (t.CurrentStepHasSingleSubtask && b.SubtaskCreated) = false ∧
      w1 = Progress.handleNewTask
        ((w.setTask B { b with SubtaskCreated := true }).pushTask T) T) := by
  unfold TaskStack.registerTask at h
  split at h
  · next hs =>
    injection h with h
    exact Or.inl ⟨hs, h.symm⟩
  · next hs =>
    have hs1 : w.Stack.isSuspended = false := by simpa using hs
    split at h
    · next hl =>
      injection h with h
      exact Or.inr (Or.inl ⟨hs1, hl, h.symm⟩)
    · next B hl =>
      split at h
      · next t b ht hb =>
        split at h
        · cases h
        · next hf =>
          injection h with h
          exact Or.inr (Or.inr ⟨hs1, B, t, b, hl, ht, hb, by simpa using hf, h.symm⟩)
      · cases h

/-- The method `TaskStack::registerTask` writes at most the flag `SubtaskCreated` of a cell. -/
theorem registerTask_cell {w w1 : World} {T : TaskId}
    (h : TaskStack.registerTask w T = .ok w1) (i : TaskId) :
    w1.Heap[i]? = w.Heap[i]? ∨
    ∃ t, w.Heap[i]? = some t ∧ w1.Heap[i]? = some { t with SubtaskCreated := true } := by
  rcases registerTask_ok_inv h with ⟨_, rfl⟩ | ⟨_, _, rfl⟩ | ⟨_, B, t, b, _, _, hb, _, rfl⟩
  · exact Or.inl rfl
  · exact Or.inl rfl
  · by_cases hi : B = i
    · subst hi
      exact Or.inr ⟨b, hb, by simpa using getElem?_set_self_of_some _ hb⟩
    · left
      simp [List.getElem?_set_ne hi]

/-- The shape of a successful `Task::Task`. -/
theorem create_ok_inv {w w1 : World} {tot : Option Int} {name : String} {id : TaskId}
    (h : Task.create w tot name = .ok (id, w1)) :
    id = w.Heap.length ∧
    TaskStack.registerTask
      { w with Heap := w.Heap ++ [{ TotalSteps := tot, TaskName := name }] } id = .ok w1 := by
  unfold Task.create at h
  simp only at h
  split at h
  · next w2 hr =>
    injection h with h
    injection h with h1 h2
    subst h1 h2
    exact ⟨rfl, hr⟩
  · cases h

/-- A freshly constructed `Task` has step index `-1` and the total it was given. -/
theorem create_fresh {w w1 : World} {tot : Option Int} {name : String} {id : TaskId}
    (h : Task.create w tot name = .ok (id, w1)) :
    ∃ t, w1.Heap[id]? = some t ∧ t.StepIndex = -1 ∧ t.TotalSteps = tot ∧
      t.TaskName = name ∧ t.Completed = false := by
  obtain ⟨hid, hr⟩ := create_ok_inv h
  subst hid
  have hnew : (w.Heap ++ [({ TotalSteps := tot, TaskName := name } : Task)])[w.Heap.length]?
      = some { TotalSteps := tot, TaskName := name } := List.getElem?_concat_length _ _
  rcases registerTask_cell hr w.Heap.length with hc | ⟨t, ht, hc⟩
  · exact ⟨_, hc.trans hnew, rfl, rfl, rfl, rfl⟩
  · have ht1 : t = { TotalSteps := tot, TaskName := name } := by
      have := ht.symm.trans hnew
      injection this
    subst ht1
    exact ⟨_, hc, rfl, rfl, rfl, rfl⟩

theorem run_advances_ok (id : TaskId) (Total : Int) :
    ∀ (args : List (String × Bool)) (w : World) (t : Task), w.Heap[id]? = some t →
      t.TotalSteps = some Total → t.StepIndex + args.length < Total →
      ∃ w2 t2, run w (advances id args) = .ok w2 ∧ w2.Heap[id]? = some t2 ∧
        t2.StepIndex = t.StepIndex + args.length ∧ t2.TotalSteps = some Total := by
  intro args
  induction args with
  | nil =>
    intro w t ht htot _
    exact ⟨w, t, rfl, ht, by simp, htot⟩
  | cons a rest ih =>
    intro w t ht htot hlt
    have hlen : ((a :: rest).length : Int) = rest.length + 1 := by simp
    have hb : ∀ T1, t.TotalSteps = some T1 → t.StepIndex + 1 < T1 := by
      intro T1 h1
      rw [htot] at h1
      cases h1
      have : (0 : Int) ≤ rest.length := Int.natCast_nonneg _
      omega
    have hadv := advance_eq_ok a.1 a.2 ht hb
    have ht1 : (TaskStack.advanceTask (w.setTask id (t.advanced a.1 a.2)) id t.StepName).Heap[id]?
        = some (t.advanced a.1 a.2) := by
      simpa using getElem?_set_self_of_some _ ht
    obtain ⟨w2, t2, hrun, ht2, hidx, htot2⟩ :=
      ih _ (t.advanced a.1 a.2) ht1 htot (by simp only [Task.advanced]; omega)
    refine ⟨w2, t2, ?_, ht2, ?_, htot2⟩
    · simp only [advances, List.map_cons, run, step, hadv]
      exact hrun
    · rw [hidx]
      simp only [Task.advanced]
      omega

theorem run_advances_none (id : TaskId) :
    ∀ (args : List (String × Bool)) (w : World) (t : Task), w.Heap[id]? = some t →
      t.TotalSteps = none →
      ∃ w2 t2, run w (advances id args) = .ok w2 ∧ w2.Heap[id]? = some t2 ∧
        t2.StepIndex = t.StepIndex + args.length ∧ t2.TotalSteps = none := by
  intro args
  induction args with
  | nil =>
    intro w t ht htot
    exact ⟨w, t, rfl, ht, by simp, htot⟩
  | cons a rest ih =>
    intro w t ht htot
    have hlen : ((a :: rest).length : Int) = rest.length + 1 := by simp
    have hb : ∀ T1, t.TotalSteps = some T1 → t.StepIndex + 1 < T1 := by
      intro T1 h1
      rw [htot] at h1
      cases h1
    have hadv := advance_eq_ok a.1 a.2 ht hb
    have ht1 : (TaskStack.advanceTask (w.setTask id (t.advanced a.1 a.2)) id t.StepName).Heap[id]?
        = some (t.advanced a.1 a.2) := by
      simpa using getElem?_set_self_of_some _ ht
    obtain ⟨w2, t2, hrun, ht2, hidx, htot2⟩ := ih _ (t.advanced a.1 a.2) ht1 htot
    refine ⟨w2, t2, ?_, ht2, ?_, htot2⟩
    · simp only [advances, List.map_cons, run, step, hadv]
      exact hrun
    · rw [hidx]
      simp only [Task.advanced]
      omega

theorem run_advances_stepBound (id : TaskId) (Total : Int) :
    ∀ (args : List (String × Bool)) (w : World) (t : Task), w.Heap[id]? = some t →
      t.TotalSteps = some Total → args ≠ [] → t.StepIndex + args.length = Total →
      run w (advances id args) = .error .stepBound := by
  intro args
  induction args with
  | nil => intro w t _ _ hne; exact absurd rfl hne
  | cons a rest ih =>
    intro w t ht htot _ hlen
    have hl : ((a :: rest).length : Int) = rest.length + 1 := by simp
    cases rest with
    | nil =>
      have hb : ¬ t.StepIndex + 1 < Total := by
        simp at hlen
        omega
      simp only [advances, List.map_cons, List.map_nil, run, step,
        advance_eq_stepBound a.1 a.2 ht htot hb]
    | cons b rest1 =>
      have hl2 : ((b :: rest1).length : Int) = rest1.length + 1 := by simp
      have hb : ∀ T1, t.TotalSteps = some T1 → t.StepIndex + 1 < T1 := by
        intro T1 h1
        rw [htot] at h1
        cases h1
        have : (0 : Int) ≤ rest1.length := Int.natCast_nonneg _
        omega
      have hadv := advance_eq_ok a.1 a.2 ht hb
      have ht1 : (TaskStack.advanceTask (w.setTask id (t.advanced a.1 a.2)) id
          t.StepName).Heap[id]? = some (t.advanced a.1 a.2) := by
        simpa using getElem?_set_self_of_some _ ht
      have hrec := ih _ (t.advanced a.1 a.2) ht1 htot (by simp)
        (by simp only [Task.advanced]; omega)
      simp only [advances, List.map_cons, run, step, hadv]
      simpa [advances] using hrec

/-- C1. A fresh Task with declared total `T ≥ 0` accepts exactly `T` calls of
`advance`: any `k ≤ T` consecutive calls succeed and leave `stepIndex() = k - 1`
(so `-1` before the first and `T - 1` after the `T`-th), and the `(T+1)`-th call
fails the bound assertion; a fresh Task without a total accepts any number of
calls, the `k`-th leaving `stepIndex() = k - 1`. -/
theorem C1_advance_total_bound (w w1 : World) (T : Nat) (name : String) (id : TaskId)
    (hc : Task.create w (some (T : Int)) name = .ok (id, w1)) :
    (∀ args : List (String × Bool), args.length ≤ T →
      ∃ w2, run w1 (advances id args) = .ok w2 ∧
        w2.stepIndex id = some ((args.length : Int) - 1)) ∧
    (∀ args : List (String × Bool), args.length = T + 1 →
      run w1 (advances id args) = .error .stepBound) ∧
    (∀ (v v1 : World) (name1 : String) (id1 : TaskId),
      Task.create v none name1 = .ok (id1, v1) →
      ∀ args : List (String × Bool),
        ∃ v2, run v1 (advances id1 args) = .ok v2 ∧
          v2.stepIndex id1 = some ((args.length : Int) - 1)) := by
  obtain ⟨t, ht, hidx, htot, _, _⟩ := create_fresh hc
  refine ⟨?_, ?_, ?_⟩
  · intro args hlen
    obtain ⟨w2, t2, hrun, ht2, hidx2, _⟩ :=
      run_advances_ok id T args w1 t ht htot (by rw [hidx]; omega)
    refine ⟨w2, hrun, ?_⟩
    simp only [World.stepIndex, ht2, Option.map_some', hidx2, hidx]
    rw [Option.some.injEq]
    omega
  · intro args hlen
    refine run_advances_stepBound id T args w1 t ht htot ?_ ?_
    · intro h
      rw [h] at hlen
      simp at hlen
    · rw [hidx, hlen]
      push_cast
      omega
  · intro v v1 name1 id1 hc1 args
    obtain ⟨u, hu, huidx, hutot, _, _⟩ := create_fresh hc1
    obtain ⟨v2, u2, hrun, hu2, hidx2, _⟩ := run_advances_none id1 args v1 u hu hutot
    refine ⟨v2, hrun, ?_⟩
    simp only [World.stepIndex, hu2, Option.map_some', hidx2, huidx]
    rw [Option.some.injEq]
    omega

/-- C1 at `T = 2`, for the Task "build" created on a thread with no Task yet: two
calls succeed and leave step index 1, the third fails the bound assertion. -/
theorem C1_advance_total_bound_witness :
    (∃ w2, run ⟨[{ TotalSteps := some 2, TaskName := "build" }], { Tasks := [0] },
          [⟨.NewTask 0, [0]⟩]⟩
        (advances 0 [("compile", false), ("link", false)]) = .ok w2 ∧
      w2.stepIndex 0 = some 1) ∧
    run ⟨[{ TotalSteps := some 2, TaskName := "build" }], { Tasks := [0] },
          [⟨.NewTask 0, [0]⟩]⟩
        (advances 0 [("compile", false), ("link", false), ("ship", false)])
      = .error .stepBound :=
  ⟨by simpa using (C1_advance_total_bound World.init _ 2 "build" 0 rfl).1
        [("compile", false), ("link", false)] (by decide),
   (C1_advance_total_bound World.init _ 2 "build" 0 rfl).2.1
        [("compile", false), ("link", false), ("ship", false)] rfl⟩
/-- C2 (as stated, refuted). In the end-to-end scenario the last call,
`advance("link")` on the outer Task, is accepted: the run ends without a
violation and leaves the outer step index at 1. -/
theorem C2_link_is_accepted :
    run World.init buildScenario ≠ .error .stepBound ∧
    ∃ w, run World.init buildScenario = .ok w ∧ w.stepIndex 0 = some 1 :=
  ⟨(fun h => nomatch (h : Except.ok _ = Except.error Violation.stepBound)), _, rfl, rfl⟩

/-- C2 (amended). In the end-to-end scenario the outer step index is -1 after
creation, 0 after `advance("compile")`, still 0 while the nested Task is
created, advanced and destroyed, and 1 after `advance("link")`, which succeeds;
it is one further `advance` on the outer Task that the total 2 rejects. -/
theorem C2_scenario_trace :
    (run World.init (buildScenario.take 1)).map (·.stepIndex 0) = .ok (some (-1)) ∧
    (run World.init (buildScenario.take 2)).map (·.stepIndex 0) = .ok (some 0) ∧
    (run World.init (buildScenario.take 3)).map (·.stepIndex 0) = .ok (some 0) ∧
    (run World.init (buildScenario.take 4)).map (·.stepIndex 0) = .ok (some 0) ∧
    (run World.init (buildScenario.take 5)).map (·.stepIndex 0) = .ok (some 0) ∧
    (run World.init buildScenario).map (·.stepIndex 0) = .ok (some 1) ∧
    run World.init (buildScenario ++ [.advance 0 "deploy" false]) = .error .stepBound :=
  ⟨rfl, rfl, rfl, rfl, rfl, rfl, rfl⟩

/-- C3 (the code at the failing input). After `advance("step", true)` on the
parent and one nested Task created and destroyed, the parent is the top of a
non-suspended stack with `currentStepHasSingleSubtask()` and `subtaskCreated()`
both set; creating a second nested Task is accepted and pushed. Task creation
never fails the single-subtask assertion, whatever the stack. -/
theorem C3_second_subtask_is_accepted :
    (∃ w p, run World.init (twoSubtasksScenario.take 4) = .ok w ∧
      w.Stack.SuspendRequests = 0 ∧ w.Stack.Tasks = [0] ∧ w.Heap[0]? = some p ∧
      p.CurrentStepHasSingleSubtask = true ∧ p.SubtaskCreated = true ∧
      ∃ w1, Task.create w none "second" = .ok (2, w1) ∧ w1.Stack.Tasks = [0, 2]) ∧
    ∀ (w : World) (tot : Option Int) (name : String),
      Task.create w tot name ≠ .error .singleSubtask := by
  refine ⟨⟨_, _, rfl, rfl, rfl, rfl, rfl, rfl, _, rfl, rfl⟩, ?_⟩
  intro w tot name h
  unfold Task.create TaskStack.registerTask at h
  simp only at h
  split at h
  · cases h
  · next e he =>
    split at he
    · cases he
    · split at he
      · cases he
      · next B hB =>
        split at he
        · next t b ht hb =>
          have ht1 : t = { TotalSteps := tot, TaskName := name } := by
            have h2 : (w.Heap ++ [({ TotalSteps := tot, TaskName := name } : Task)])[w.Heap.length]?
                = some t := ht
            rw [List.getElem?_concat_length] at h2
            injection h2 with h2
            exact h2.symm
          subst ht1
          simp at he
        · injection h with h
          injection he with he
          rw [← he] at h
          cases h
theorem isSuspended_of_zero {S : TaskStack} (h : S.SuspendRequests = 0) :
    S.isSuspended = false := by
  simp [TaskStack.isSuspended, h]

theorem isSuspended_of_pos {S : TaskStack} (h : 0 < S.SuspendRequests) :
    S.isSuspended = true := by
  simp [TaskStack.isSuspended, h]

theorem unregisterTask_suspended {w : World} (T : TaskId) (h : 0 < w.Stack.SuspendRequests) :
    TaskStack.unregisterTask w T = .ok w := by
  simp [TaskStack.unregisterTask, isSuspended_of_pos h]

theorem unregisterTask_top {w : World} {T : TaskId} (h : w.Stack.SuspendRequests = 0)
    (hl : w.Stack.Tasks.getLast? = some T) :
    TaskStack.unregisterTask w T = .ok (Progress.handleTaskCompleted w T).popTask := by
  simp [TaskStack.unregisterTask, isSuspended_of_zero h, hl]

theorem unregisterTask_empty {w : World} (T : TaskId) (h : w.Stack.SuspendRequests = 0)
    (hl : w.Stack.Tasks.getLast? = none) :
    TaskStack.unregisterTask w T = .error .emptyStack := by
  simp [TaskStack.unregisterTask, isSuspended_of_zero h, hl]

theorem unregisterTask_notTop {w : World} {T B : TaskId} (h : w.Stack.SuspendRequests = 0)
    (hl : w.Stack.Tasks.getLast? = some B) (hne : B ≠ T) :
    TaskStack.unregisterTask w T = .error .notTop := by
  simp [TaskStack.unregisterTask, isSuspended_of_zero h, hl, hne]

/-- The shape of a successful `TaskStack::unregisterTask`. -/
theorem unregisterTask_ok_inv {w w1 : World} {T : TaskId}
    (h : TaskStack.unregisterTask w T = .ok w1) :
    (0 < w.Stack.SuspendRequests ∧ w1 = w) ∨
    (w.Stack.SuspendRequests = 0 ∧ w.Stack.Tasks.getLast? = some T ∧
      w1 = (Progress.handleTaskCompleted w T).popTask) := by
  rcases Nat.eq_zero_or_pos w.Stack.SuspendRequests with hz | hp
  · right
    cases hl : w.Stack.Tasks.getLast? with
    | none => rw [unregisterTask_empty T hz hl] at h; cases h
    | some B =>
      by_cases hB : B = T
      · subst hB
        rw [unregisterTask_top hz hl] at h
        injection h with h
        exact ⟨hz, rfl, h.symm⟩
      · rw [unregisterTask_notTop hz hl hB] at h
        cases h
  · left
    rw [unregisterTask_suspended T hp] at h
    injection h with h
    exact ⟨hp, h.symm⟩

theorem complete_of_completed {w : World} {T : TaskId} {t : Task} (ht : w.Heap[T]? = some t)
    (hc : t.Completed = true) : Task.complete w T = .ok w := by
  simp [Task.complete, ht, hc]

theorem complete_of_live {w : World} {T : TaskId} {t : Task} (ht : w.Heap[T]? = some t)
    (hc : t.Completed = false) :
    Task.complete w T
      = TaskStack.unregisterTask (w.setTask T { t with Completed := true }) T := by
  simp [Task.complete, ht, hc]

/-- The shape of a successful `Task::complete`. -/
theorem complete_ok_inv {w w1 : World} {T : TaskId} (h : Task.complete w T = .ok w1) :
    ∃ t, w.Heap[T]? = some t ∧
      ((t.Completed = true ∧ w1 = w) ∨
       (t.Completed = false ∧ 0 < w.Stack.SuspendRequests ∧
          w1 = w.setTask T { t with Completed := true }) ∨
       (t.Completed = false ∧ w.Stack.SuspendRequests = 0 ∧
          w.Stack.Tasks.getLast? = some T ∧
          w1 = (Progress.handleTaskCompleted
                  (w.setTask T { t with Completed := true }) T).popTask)) := by
  cases ht : w.Heap[T]? with
  | none => simp [Task.complete, ht] at h
  | some t =>
    refine ⟨t, rfl, ?_⟩
    cases hc : t.Completed with
    | true =>
      rw [complete_of_completed ht hc] at h
      injection h with h
      exact Or.inl ⟨rfl, h.symm⟩
    | false =>
      rw [complete_of_live ht hc] at h
      rcases unregisterTask_ok_inv h with ⟨hp, h1⟩ | ⟨hz, hl, h1⟩
      · exact Or.inr (Or.inl ⟨rfl, hp, h1⟩)
      · exact Or.inr (Or.inr ⟨rfl, hz, hl, h1⟩)

/-- C7. On a non-suspended stack `unregisterTask(T)` succeeds exactly when `T`
is the last element of `Tasks`; it then makes one call of
`Progress::handleTaskCompleted` for `T`, during which `Tasks` is still the old
sequence (ending in `T`), and afterwards `Tasks` has lost only its last
element, everything else being as before; on an empty stack and when the last
element is another Task it is a contract violation. -/
theorem C7_unregisterTask_only_top (w : World) (T : TaskId)
    (hs : w.Stack.SuspendRequests = 0) :
    ((∃ w1, TaskStack.unregisterTask w T = .ok w1) ↔ w.Stack.Tasks.getLast? = some T) ∧
    (∀ w1, TaskStack.unregisterTask w T = .ok w1 →
      w1.Log = w.Log ++ [⟨.TaskCompleted T, w.Stack.Tasks⟩] ∧
      w.Stack.Tasks = w1.Stack.Tasks ++ [T] ∧
      w1.Stack.Tasks = w.Stack.Tasks.dropLast ∧
      w1.Stack.SuspendRequests = w.Stack.SuspendRequests ∧ w1.Heap = w.Heap) ∧
    (w.Stack.Tasks = [] → TaskStack.unregisterTask w T = .error .emptyStack) ∧
    (∀ B, w.Stack.Tasks.getLast? = some B → B ≠ T →
      TaskStack.unregisterTask w T = .error .notTop) := by
  refine ⟨⟨?_, ?_⟩, ?_, ?_, ?_⟩
  · rintro ⟨w1, h⟩
    rcases unregisterTask_ok_inv h with ⟨hp, _⟩ | ⟨_, hl, _⟩
    · omega
    · exact hl
  · intro hl
    exact ⟨_, unregisterTask_top hs hl⟩
  · intro w1 h
    rcases unregisterTask_ok_inv h with ⟨hp, _⟩ | ⟨_, hl, rfl⟩
    · omega
    · refine ⟨rfl, ?_, rfl, rfl, rfl⟩
      exact (List.dropLast_append_getLast? T (by simp [hl])).symm
  · intro he
    exact unregisterTask_empty T hs (by simp [he])
  · intro B hl hne
    exact unregisterTask_notTop hs hl hne

/-- C7 on the stack `[0, 1]`: Task `1` is unregistered, Task `0` is refused. -/
theorem C7_unregisterTask_only_top_witness :
    (∃ w1, TaskStack.unregisterTask ⟨[], { Tasks := [0, 1] }, []⟩ 1 = .ok w1) ∧
    TaskStack.unregisterTask ⟨[], { Tasks := [0, 1] }, []⟩ 0 = .error .notTop :=
  ⟨(C7_unregisterTask_only_top ⟨[], { Tasks := [0, 1] }, []⟩ 1 rfl).1.2 rfl,
   (C7_unregisterTask_only_top ⟨[], { Tasks := [0, 1] }, []⟩ 0 rfl).2.2.2 1 rfl (by decide)⟩
@[simp] theorem handleTaskCompleted_Heap (w : World) (T : TaskId) :
    (Progress.handleTaskCompleted w T).Heap = w.Heap := rfl

@[simp] theorem popTask_Heap (w : World) : w.popTask.Heap = w.Heap := rfl

@[simp] theorem popTask_Log (w : World) : w.popTask.Log = w.Log := rfl

theorem completions_append (T : TaskId) (l1 l2 : List Notification) :
    completions T (l1 ++ l2) = completions T l1 + completions T l2 := by
  simp [completions, List.countP_append]

/-- C4 (as stated, refuted). The Task "inner", created while its stack is
suspended, is not completed; destroying it succeeds and no call of
`Progress::handleTaskCompleted` is made for it. -/
theorem C4_destroy_while_suspended_is_silent :
    ∃ w t, run World.init (suspendedChildScenario.take 3) = .ok w ∧
      w.Heap[1]? = some t ∧ t.Completed = false ∧
      ∃ w1, Task.destroy w 1 = .ok w1 ∧ completions 1 w1.Log = 0 :=
  ⟨_, _, rfl, rfl, rfl, _, rfl, rfl⟩

/-- C4 (amended). Destroying a Task on which `complete()` was not called makes
exactly one call of `Progress::handleTaskCompleted` for it when the stack is
not suspended and the Task is its top; it makes none when the stack is
suspended; and it is a contract violation when the stack is not suspended and
the Task is not its top. -/
theorem C4_destroy_notifies_top_once (w : World) (T : TaskId) (t : Task)
    (ht : w.Heap[T]? = some t) (hc : t.Completed = false) :
    (w.Stack.SuspendRequests = 0 → w.Stack.Tasks.getLast? = some T →
      ∃ w1, Task.destroy w T = .ok w1 ∧
        w1.Log = w.Log ++ [⟨.TaskCompleted T, w.Stack.Tasks⟩] ∧
        completions T w1.Log = completions T w.Log + 1) ∧
    (0 < w.Stack.SuspendRequests →
      ∃ w1, Task.destroy w T = .ok w1 ∧ w1.Log = w.Log) ∧
    (w.Stack.SuspendRequests = 0 → w.Stack.Tasks.getLast? ≠ some T →
      ∃ e, Task.destroy w T = .error e) := by
  unfold Task.destroy
  rw [complete_of_live ht hc]
  refine ⟨?_, ?_, ?_⟩
  · intro hz hl
    refine ⟨_, unregisterTask_top (by simpa using hz) (by simpa using hl), rfl, ?_⟩
    show completions T (w.Log ++ [⟨.TaskCompleted T, w.Stack.Tasks⟩]) = _
    rw [completions_append]
    simp [completions]
  · intro hp
    exact ⟨_, unregisterTask_suspended T (by simpa using hp), rfl⟩
  · intro hz hl
    cases hB : w.Stack.Tasks.getLast? with
    | none => exact ⟨_, unregisterTask_empty T (by simpa using hz) (by simpa using hB)⟩
    | some B =>
      have hne : B ≠ T := by
        intro h
        rw [h] at hB
        exact hl hB
      exact ⟨_, unregisterTask_notTop (by simpa using hz) (by simpa using hB) hne⟩

/-- C4 (amended) on the stack `[0]` of one live Task: destroying it logs one
completion. -/
theorem C4_destroy_notifies_top_once_witness :
    ∃ w1, Task.destroy ⟨[{ TotalSteps := none, TaskName := "t" }], { Tasks := [0] }, []⟩ 0
        = .ok w1 ∧
      w1.Log = [] ++ [⟨.TaskCompleted 0, [0]⟩] ∧
      completions 0 w1.Log = completions 0 [] + 1 :=
  (C4_destroy_notifies_top_once
    ⟨[{ TotalSteps := none, TaskName := "t" }], { Tasks := [0] }, []⟩ 0 _ rfl rfl).1 rfl rfl

/-- C8. `Task::advance(NewStepName, SingleSubtask)` succeeds exactly when the
bound holds (no total, or `stepIndex() + 1 < total`), suspended or not, and
fails the bound assertion otherwise. When it succeeds the step index has grown
by one, the step name is `NewStepName`, `subtaskCreated()` is false,
`currentStepHasSingleSubtask()` is `SingleSubtask`, and the name, the total and
`completed()` are as before, as is the stack; one advancement notification
carrying the previous step name is recorded if the stack is not suspended, none
if it is. -/
theorem C8_advance_effect (w : World) (T : TaskId) (t : Task) (NewStepName : String)
    (SingleSubtask : Bool) (ht : w.Heap[T]? = some t) :
    ((∃ w1, Task.advance w T NewStepName SingleSubtask = .ok w1) ↔
      ∀ Total, t.TotalSteps = some Total → t.StepIndex + 1 < Total) ∧
    ((¬ ∃ w1, Task.advance w T NewStepName SingleSubtask = .ok w1) →
      Task.advance w T NewStepName SingleSubtask = .error .stepBound) ∧
    ∀ w1, Task.advance w T NewStepName SingleSubtask = .ok w1 →
      ∃ t1, w1.Heap[T]? = some t1 ∧
        t1.StepIndex = t.StepIndex + 1 ∧ t1.StepName = NewStepName ∧
        t1.SubtaskCreated = false ∧ t1.CurrentStepHasSingleSubtask = SingleSubtask ∧
        t1.TaskName = t.TaskName ∧ t1.TotalSteps = t.TotalSteps ∧
        t1.Completed = t.Completed ∧ w1.Stack = w.Stack ∧
        (w.Stack.SuspendRequests = 0 →
          w1.Log = w.Log ++ [⟨.TaskAdvancement T t.StepName, w.Stack.Tasks⟩]) ∧
        (0 < w.Stack.SuspendRequests → w1.Log = w.Log) := by
  have hiff : (∃ w1, Task.advance w T NewStepName SingleSubtask = .ok w1) ↔
      ∀ Total, t.TotalSteps = some Total → t.StepIndex + 1 < Total := by
    constructor
    · rintro ⟨w1, h⟩
      obtain ⟨t0, ht0, hb, _⟩ := advance_ok_inv h
      rw [ht] at ht0
      cases ht0
      exact hb
    · intro hb
      exact ⟨_, advance_eq_ok NewStepName SingleSubtask ht hb⟩
  refine ⟨hiff, ?_, ?_⟩
  · intro hno
    rw [hiff] at hno
    push_neg at hno
    obtain ⟨Total, htot, hb⟩ := hno
    exact advance_eq_stepBound NewStepName SingleSubtask ht htot (by omega)
  · intro w1 h
    obtain ⟨t0, ht0, _, hw1⟩ := advance_ok_inv h
    rw [ht] at ht0
    cases ht0
    subst hw1
    refine ⟨t.advanced NewStepName SingleSubtask, ?_, rfl, rfl, rfl, rfl, rfl, rfl, rfl, ?_, ?_, ?_⟩
    · simpa using getElem?_set_self_of_some _ ht
    · simp
    · intro hz
      simp [TaskStack.advanceTask, isSuspended_of_zero hz, Progress.handleTaskAdvancement]
    · intro hp
      simp [TaskStack.advanceTask, isSuspended_of_pos hp]

/-- C8 on a Task at step "compile" (index 0 of 2), on a non-suspended stack:
`advance("link", true)` succeeds. -/
theorem C8_advance_effect_witness :
    ∃ w1, Task.advance
        ⟨[{ StepIndex := 0, TotalSteps := some 2, TaskName := "build", StepName := "compile" }],
          { Tasks := [0] }, []⟩ 0 "link" true = .ok w1 :=
  (C8_advance_effect
    ⟨[{ StepIndex := 0, TotalSteps := some 2, TaskName := "build", StepName := "compile" }],
      { Tasks := [0] }, []⟩ 0 _ "link" true rfl).1.2
    (by
      intro Total h
      cases h
      decide)
theorem getElem?_set_cases {l : List Task} {j i : Nat} {new t1 : Task}
    (h : (l.set j new)[i]? = some t1) :
    (i = j ∧ t1 = new ∧ ∃ old, l[i]? = some old) ∨ (i ≠ j ∧ l[i]? = some t1) := by
  by_cases hij : j = i
  · subst hij
    left
    rw [List.getElem?_set] at h
    simp only [if_true] at h
    split at h
    · next hlt =>
      injection h with h
      exact ⟨rfl, h.symm, l[j], List.getElem?_eq_getElem hlt⟩
    · cases h
  · right
    rw [List.getElem?_set_ne hij] at h
    exact ⟨fun h1 => hij h1.symm, h⟩

theorem getElem?_set_of_some {l : List Task} {i : Nat} {t : Task} (j : Nat) (new : Task)
    (h : l[i]? = some t) :
    (i = j ∧ (l.set j new)[i]? = some new) ∨ (i ≠ j ∧ (l.set j new)[i]? = some t) := by
  by_cases hij : j = i
  · subst hij
    exact Or.inl ⟨rfl, getElem?_set_self_of_some _ h⟩
  · right
    rw [List.getElem?_set_ne hij]
    exact ⟨fun h1 => hij h1.symm, h⟩

/-- What one call does to an object that exists before it: the object is still
there, with the same total and name; `Completed` is never reset; the step index
is unchanged or bumped by one within the total. -/
theorem step_cell {w w1 : World} {op : Op} (h : step w op = .ok w1) (i : TaskId) (t : Task)
    (hi : w.Heap[i]? = some t) :
    ∃ t1, w1.Heap[i]? = some t1 ∧ t1.TotalSteps = t.TotalSteps ∧ t1.TaskName = t.TaskName ∧
      (t.Completed = true → t1.Completed = true) ∧
      (t1.StepIndex = t.StepIndex ∨
        (t1.StepIndex = t.StepIndex + 1 ∧
          ∀ Total, t.TotalSteps = some Total → t1.StepIndex < Total)) := by
  cases op with
  | create tot name =>
    simp only [step] at h
    split at h
    · next id w2 hc =>
      injection h with h
      subst h
      obtain ⟨_, hr⟩ := create_ok_inv hc
      have hi1 : (w.Heap ++ [({ TotalSteps := tot, TaskName := name } : Task)])[i]? = some t := by
        rw [List.getElem?_append_left (List.getElem?_eq_some.mp hi).1]
        exact hi
      rcases registerTask_cell hr i with hsame | ⟨t0, ht0, hnew⟩
      · exact ⟨t, hsame.trans hi1, rfl, rfl, fun hc => hc, Or.inl rfl⟩
      · have : t0 = t := by
          have := ht0.symm.trans hi1
          injection this
        subst this
        exact ⟨{ t0 with SubtaskCreated := true }, hnew, rfl, rfl, fun hc => hc, Or.inl rfl⟩
    · cases h
  | advance T n s =>
    obtain ⟨t0, ht0, hb, rfl⟩ := advance_ok_inv h
    rcases getElem?_set_of_some T (t0.advanced n s) hi with ⟨hij, hnew⟩ | ⟨_, hsame⟩
    · subst hij
      rw [hi] at ht0
      cases ht0
      refine ⟨t.advanced n s, by simpa using hnew, rfl, rfl, fun hc => hc, Or.inr ⟨rfl, ?_⟩⟩
      intro Total htot
      exact hb Total htot
    · exact ⟨t, by simpa using hsame, rfl, rfl, fun hc => hc, Or.inl rfl⟩
  | complete T =>
    obtain ⟨t0, ht0, hcase⟩ := complete_ok_inv h
    rcases hcase with ⟨_, rfl⟩ | ⟨_, _, rfl⟩ | ⟨_, _, _, rfl⟩
    · exact ⟨t, hi, rfl, rfl, fun hc => hc, Or.inl rfl⟩
    · rcases getElem?_set_of_some T { t0 with Completed := true } hi
        with ⟨hij, hnew⟩ | ⟨_, hsame⟩
      · subst hij
        rw [hi] at ht0
        cases ht0
        exact ⟨{ t with Completed := true }, by simpa using hnew, rfl, rfl, fun _ => rfl,
          Or.inl rfl⟩
      · exact ⟨t, by simpa using hsame, rfl, rfl, fun hc => hc, Or.inl rfl⟩
    · rcases getElem?_set_of_some T { t0 with Completed := true } hi
        with ⟨hij, hnew⟩ | ⟨_, hsame⟩
      · subst hij
        rw [hi] at ht0
        cases ht0
        exact ⟨{ t with Completed := true }, by simpa using hnew, rfl, rfl, fun _ => rfl,
          Or.inl rfl⟩
      · exact ⟨t, by simpa using hsame, rfl, rfl, fun hc => hc, Or.inl rfl⟩
  | setSubtaskCreated T =>
    simp only [step, Task.setSubtaskCreated] at h
    split at h
    · cases h
    · next t0 ht0 =>
      injection h with h
      subst h
      rcases getElem?_set_of_some T { t0 with SubtaskCreated := true } hi
        with ⟨hij, hnew⟩ | ⟨_, hsame⟩
      · subst hij
        rw [hi] at ht0
        cases ht0
        exact ⟨{ t with SubtaskCreated := true }, by simpa using hnew, rfl, rfl, fun hc => hc,
          Or.inl rfl⟩
      · exact ⟨t, by simpa using hsame, rfl, rfl, fun hc => hc, Or.inl rfl⟩
  | suspendTracking =>
    simp only [step] at h
    injection h with h
    subst h
    exact ⟨t, hi, rfl, rfl, fun hc => hc, Or.inl rfl⟩
  | resumeTracking =>
    simp only [step, TaskStack.resumeTracking] at h
    split at h
    · injection h with h
      subst h
      exact ⟨t, hi, rfl, rfl, fun hc => hc, Or.inl rfl⟩
    · cases h

/-- An object that exists after a call and did not before it was constructed by
the call: it is at step index `-1` and not completed. -/
theorem step_new_cell {w w1 : World} {op : Op} (h : step w op = .ok w1) (i : TaskId)
    (t1 : Task) (hi : w1.Heap[i]? = some t1) (hnone : w.Heap[i]? = none) :
    t1.StepIndex = -1 ∧ t1.Completed = false := by
  cases op with
  | create tot name =>
    simp only [step] at h
    split at h
    · next id w2 hc =>
      injection h with h
      subst h
      obtain ⟨hid, hr⟩ := create_ok_inv hc
      have hlen : w.Heap.length ≤ i := List.getElem?_eq_none_iff.mp hnone
      have hcell : ∀ t0, (w.Heap ++ [({ TotalSteps := tot, TaskName := name } : Task)])[i]?
          = some t0 → t0 = { TotalSteps := tot, TaskName := name } := by
        intro t0 h0
        rw [List.getElem?_append_right hlen] at h0
        have hlt : i - w.Heap.length < [({ TotalSteps := tot, TaskName := name } : Task)].length :=
          (List.getElem?_eq_some.mp h0).1
        have hz : i - w.Heap.length = 0 := by
          rw [List.length_singleton] at hlt
          exact Nat.lt_one_iff.mp hlt
        rw [hz] at h0
        simpa using h0.symm
      rcases registerTask_cell hr i with hsame | ⟨t0, ht0, hnew⟩
      · have := hcell t1 (hsame.symm.trans hi)
        subst this
        exact ⟨rfl, rfl⟩
      · have h0 := hcell t0 ht0
        subst h0
        rw [hi] at hnew
        injection hnew with hnew
        subst hnew
        exact ⟨rfl, rfl⟩
    · cases h
  | advance T n s =>
    obtain ⟨t0, ht0, hb, rfl⟩ := advance_ok_inv h
    rcases getElem?_set_cases (by simpa using hi) with ⟨_, _, old, hold⟩ | ⟨_, hsame⟩
    · rw [hnone] at hold; cases hold
    · rw [hnone] at hsame; cases hsame
  | complete T =>
    obtain ⟨t0, ht0, hcase⟩ := complete_ok_inv h
    rcases hcase with ⟨_, rfl⟩ | ⟨_, _, rfl⟩ | ⟨_, _, _, rfl⟩
    · rw [hnone] at hi; cases hi
    · rcases getElem?_set_cases (by simpa using hi) with ⟨_, _, old, hold⟩ | ⟨_, hsame⟩
      · rw [hnone] at hold; cases hold
      · rw [hnone] at hsame; cases hsame
    · rcases getElem?_set_cases (by simpa using hi) with ⟨_, _, old, hold⟩ | ⟨_, hsame⟩
      · rw [hnone] at hold; cases hold
      · rw [hnone] at hsame; cases hsame
  | setSubtaskCreated T =>
    simp only [step, Task.setSubtaskCreated] at h
    split at h
    · cases h
    · next t0 ht0 =>
      injection h with h
      subst h
      rcases getElem?_set_cases (by simpa using hi) with ⟨_, _, old, hold⟩ | ⟨_, hsame⟩
      · rw [hnone] at hold; cases hold
      · rw [hnone] at hsame; cases hsame
  | suspendTracking =>
    simp only [step] at h
    injection h with h
    subst h
    rw [show (TaskStack.suspendTracking w).Heap = w.Heap from rfl, hnone] at hi
    cases hi
  | resumeTracking =>
    simp only [step, TaskStack.resumeTracking] at h
    split at h
    · injection h with h
      subst h
      simp only [hnone] at hi
      cases hi
    · cases h
/-- A property kept by every successful call is kept by every successful run. -/
theorem run_invariant (P : World → Prop)
    (hstep : ∀ w op w1, P w → step w op = .ok w1 → P w1) :
    ∀ (ops : List Op) (w w2 : World), P w → run w ops = .ok w2 → P w2 := by
  intro ops
  induction ops with
  | nil =>
    intro w w2 hP h
    simp only [run] at h
    injection h with h
    exact h ▸ hP
  | cons op rest ih =>
    intro w w2 hP h
    simp only [run] at h
    split at h
    · next w1 h1 => exact ih w1 w2 (hstep w op w1 hP h1) h
    · cases h

/-- One call records at most one notification; when it is a completion of `T`,
the call found `T` not completed and left it completed. -/
theorem step_log {w w1 : World} {op : Op} (h : step w op = .ok w1) :
    w1.Log = w.Log ∨
    ∃ n, w1.Log = w.Log ++ [n] ∧
      ∀ T, n.event = .TaskCompleted T →
        ∃ t t1, w.Heap[T]? = some t ∧ t.Completed = false ∧
          w1.Heap[T]? = some t1 ∧ t1.Completed = true := by
  cases op with
  | create tot name =>
    simp only [step] at h
    split at h
    · next id w2 hc =>
      injection h with h
      subst h
      obtain ⟨_, hr⟩ := create_ok_inv hc
      rcases registerTask_ok_inv hr with ⟨_, rfl⟩ | ⟨_, _, rfl⟩ | ⟨_, B, t, b, _, _, _, _, rfl⟩
      · exact Or.inl rfl
      · exact Or.inr ⟨_, rfl, fun T hT => by cases hT⟩
      · exact Or.inr ⟨_, rfl, fun T hT => by cases hT⟩
    · cases h
  | advance T n s =>
    obtain ⟨t0, ht0, hb, rfl⟩ := advance_ok_inv h
    unfold TaskStack.advanceTask
    split
    · exact Or.inl rfl
    · exact Or.inr ⟨_, rfl, fun T hT => by cases hT⟩
  | complete T =>
    obtain ⟨t0, ht0, hcase⟩ := complete_ok_inv h
    rcases hcase with ⟨_, rfl⟩ | ⟨_, _, rfl⟩ | ⟨hc, _, _, rfl⟩
    · exact Or.inl rfl
    · exact Or.inl rfl
    · refine Or.inr ⟨_, rfl, fun T1 hT => ?_⟩
      cases hT
      exact ⟨t0, { t0 with Completed := true }, ht0, hc,
        by simpa using getElem?_set_self_of_some _ ht0, rfl⟩
  | setSubtaskCreated T =>
    simp only [step, Task.setSubtaskCreated] at h
    split at h
    · cases h
    · injection h with h
      subst h
      exact Or.inl rfl
  | suspendTracking =>
    simp only [step] at h
    injection h with h
    subst h
    exact Or.inl rfl
  | resumeTracking =>
    simp only [step, TaskStack.resumeTracking] at h
    split at h
    · injection h with h
      subst h
      exact Or.inl rfl
    · cases h

theorem completedOnce_step (w : World) (op : Op) (w1 : World) (hinv : completedOnce w)
    (h : step w op = .ok w1) : completedOnce w1 := by
  intro T
  obtain ⟨hle, hdone⟩ := hinv T
  have hkeep : 1 ≤ completions T w.Log → ∃ t1, w1.Heap[T]? = some t1 ∧ t1.Completed = true := by
    intro h1
    obtain ⟨t, ht, hc⟩ := hdone h1
    obtain ⟨t1, ht1, _, _, hmono, _⟩ := step_cell h T t ht
    exact ⟨t1, ht1, hmono hc⟩
  rcases step_log h with hlog | ⟨n, hlog, hn⟩
  · rw [hlog]
    exact ⟨hle, hkeep⟩
  · rw [hlog, completions_append]
    by_cases hev : n.event = .TaskCompleted T
    · obtain ⟨t, t1, ht, hc, ht1, hc1⟩ := hn T hev
      have hzero : completions T w.Log = 0 := by
        by_contra hne
        obtain ⟨t0, ht0, hc0⟩ := hdone (by omega)
        rw [ht] at ht0
        cases ht0
        rw [hc] at hc0
        cases hc0
      have hone : completions T [n] = 1 := by simp [completions, hev]
      rw [hzero, hone]
      exact ⟨by omega, fun _ => ⟨t1, ht1, hc1⟩⟩
    · have hnone : completions T [n] = 0 := by simp [completions, hev]
      rw [hnone]
      exact ⟨by omega, fun h1 => hkeep (by omega)⟩

theorem completedOnce_init : completedOnce World.init := by
  intro T
  simp [World.init, completions]

/-- C5. `complete()` is idempotent: on a Task that is already completed it
returns the world it found (so neither the Task, nor `Tasks`, nor the log
changes), and so does the destructor; once a call of `complete()` on a Task has
succeeded, this holds for every later call, whatever calls were made in
between; hence in every run from a fresh thread at most one completion
notification is recorded for each Task. -/
theorem C5_complete_idempotent :
    (∀ (w : World) (T : TaskId) (t : Task), w.Heap[T]? = some t → t.Completed = true →
      Task.complete w T = .ok w ∧ Task.destroy w T = .ok w) ∧
    (∀ (w w1 w2 : World) (T : TaskId) (ops : List Op),
      Task.complete w T = .ok w1 → run w1 ops = .ok w2 →
      Task.complete w2 T = .ok w2 ∧ Task.destroy w2 T = .ok w2) ∧
    (∀ (ops : List Op) (w : World), run World.init ops = .ok w →
      ∀ T, completions T w.Log ≤ 1) := by
  refine ⟨?_, ?_, ?_⟩
  · intro w T t ht hc
    exact ⟨complete_of_completed ht hc, complete_of_completed ht hc⟩
  · intro w w1 w2 T ops h hrun
    have h1 : ∃ t1, w1.Heap[T]? = some t1 ∧ t1.Completed = true := by
      obtain ⟨t, ht, hcase⟩ := complete_ok_inv h
      rcases hcase with ⟨hc, rfl⟩ | ⟨_, _, rfl⟩ | ⟨_, _, _, rfl⟩
      · exact ⟨t, ht, hc⟩
      · exact ⟨{ t with Completed := true }, by simpa using getElem?_set_self_of_some _ ht, rfl⟩
      · exact ⟨{ t with Completed := true }, by simpa using getElem?_set_self_of_some _ ht, rfl⟩
    have h2 : ∃ t2, w2.Heap[T]? = some t2 ∧ t2.Completed = true := by
      refine run_invariant (fun v => ∃ t, v.Heap[T]? = some t ∧ t.Completed = true) ?_
        ops w1 w2 h1 hrun
      rintro v op v1 ⟨t, ht, hc⟩ hs
      obtain ⟨t1, ht1, _, _, hmono, _⟩ := step_cell hs T t ht
      exact ⟨t1, ht1, hmono hc⟩
    obtain ⟨t2, ht2, hc2⟩ := h2
    exact ⟨complete_of_completed ht2 hc2, complete_of_completed ht2 hc2⟩
  · intro ops w hrun T
    exact (run_invariant completedOnce completedOnce_step ops World.init w
      completedOnce_init hrun T).1

/-- C5 on a thread whose only Task was created and completed: a further
`complete()` and the destructor return the world unchanged; and the run
create, complete, complete records at most one completion for each Task. -/
theorem C5_complete_idempotent_witness :
    (Task.complete ⟨[{ TotalSteps := none, TaskName := "t", Completed := true }], {},
        [⟨.NewTask 0, [0]⟩, ⟨.TaskCompleted 0, [0]⟩]⟩ 0
      = .ok ⟨[{ TotalSteps := none, TaskName := "t", Completed := true }], {},
        [⟨.NewTask 0, [0]⟩, ⟨.TaskCompleted 0, [0]⟩]⟩ ∧
     Task.destroy ⟨[{ TotalSteps := none, TaskName := "t", Completed := true }], {},
        [⟨.NewTask 0, [0]⟩, ⟨.TaskCompleted 0, [0]⟩]⟩ 0
      = .ok ⟨[{ TotalSteps := none, TaskName := "t", Completed := true }], {},
        [⟨.NewTask 0, [0]⟩, ⟨.TaskCompleted 0, [0]⟩]⟩) ∧
    completions 0
      (⟨[{ TotalSteps := none, TaskName := "t", Completed := true }], {},
        [⟨.NewTask 0, [0]⟩, ⟨.TaskCompleted 0, [0]⟩]⟩ : World).Log ≤ 1 :=
  ⟨C5_complete_idempotent.1
      ⟨[{ TotalSteps := none, TaskName := "t", Completed := true }], {},
        [⟨.NewTask 0, [0]⟩, ⟨.TaskCompleted 0, [0]⟩]⟩ 0
      { TotalSteps := none, TaskName := "t", Completed := true } rfl rfl,
   C5_complete_idempotent.2.2 [.create none "t", .complete 0, .complete 0] _ rfl 0⟩
/-- A property kept by every successful call of a given kind is kept by every
successful run of calls of that kind. -/
theorem run_invariant_of (Q : Op → Prop) (P : World → Prop)
    (hstep : ∀ w op w1, Q op → P w → step w op = .ok w1 → P w1) :
    ∀ (ops : List Op) (w w2 : World), (∀ op ∈ ops, Q op) → P w → run w ops = .ok w2 → P w2 := by
  intro ops
  induction ops with
  | nil =>
    intro w w2 _ hP h
    simp only [run] at h
    injection h with h
    exact h ▸ hP
  | cons op rest ih =>
    intro w w2 hQ hP h
    simp only [run] at h
    split at h
    · next w1 h1 =>
      exact ih w1 w2 (fun o ho => hQ o (List.mem_cons_of_mem _ ho))
        (hstep w op w1 (hQ op (List.mem_cons_self _ _)) hP h1) h
    · cases h

/-- A successful run is successful up to each of its points. -/
theorem run_take {ops : List Op} {w w2 : World} (h : run w ops = .ok w2) (k : Nat) :
    ∃ wk, run w (ops.take k) = .ok wk := by
  induction ops generalizing w k with
  | nil => exact ⟨w, by simp [run]⟩
  | cons op rest ih =>
    cases k with
    | zero => exact ⟨w, by simp [run]⟩
    | succ k =>
      simp only [run] at h
      split at h
      · next w1 h1 =>
        obtain ⟨wk, hk⟩ := ih h k
        exact ⟨wk, by simp only [List.take_succ_cons, run, h1]; exact hk⟩
      · cases h

theorem countP_set {p : Task → Bool} {l : List Task} {i : Nat} {old : Task} (new : Task)
    (h : l[i]? = some old) :
    (l.set i new).countP p + (if p old then 1 else 0)
      = l.countP p + (if p new then 1 else 0) := by
  induction l generalizing i with
  | nil => simp at h
  | cons a rest ih =>
    cases i with
    | zero =>
      simp only [List.getElem?_cons_zero, Option.some.injEq] at h
      subst h
      simp only [List.set_cons_zero, List.countP_cons]
      omega
    | succ i =>
      simp only [List.getElem?_cons_succ] at h
      have := ih h
      simp only [List.set_cons_succ, List.countP_cons]
      omega

theorem liveCount_set_same {w : World} {T : TaskId} {t : Task} (new : Task)
    (ht : w.Heap[T]? = some t) (hc : new.Completed = t.Completed) :
    liveCount (w.setTask T new) = liveCount w := by
  have := countP_set (p := fun t => !t.Completed) new ht
  simp only [hc] at this
  simp only [liveCount, setTask_Heap]
  omega

theorem liveCount_set_completed {w : World} {T : TaskId} {t : Task} (new : Task)
    (ht : w.Heap[T]? = some t) (hc : t.Completed = false) (hn : new.Completed = true) :
    liveCount (w.setTask T new) + 1 = liveCount w := by
  have := countP_set (p := fun t => !t.Completed) new ht
  simp only [hc, hn] at this
  simp only [liveCount, setTask_Heap]
  simpa using this

theorem sizeIsLive_step (w : World) (op : Op) (w1 : World)
    (hop : op.touchesSuspension = false)
    (hinv : w.Stack.SuspendRequests = 0 ∧ w.Stack.Tasks.length = liveCount w)
    (h : step w op = .ok w1) :
    w1.Stack.SuspendRequests = 0 ∧ w1.Stack.Tasks.length = liveCount w1 := by
  obtain ⟨hz, hlen⟩ := hinv
  cases op with
  | create tot name =>
    simp only [step] at h
    split at h
    · next id w2 hc =>
      injection h with h
      subst h
      obtain ⟨_, hr⟩ := create_ok_inv hc
      have hlive : liveCount { w with Heap := w.Heap ++ [{ TotalSteps := tot, TaskName := name }] }
          = liveCount w + 1 := by
        simp [liveCount, List.countP_append]
      rcases registerTask_ok_inv hr with ⟨hs, _⟩ | ⟨_, _, rfl⟩ | ⟨_, B, t, b, _, _, hb, _, rfl⟩
      · rw [show ({ w with Heap := w.Heap ++ [{ TotalSteps := tot, TaskName := name }] } :
          World).Stack = w.Stack from rfl, isSuspended_of_zero hz] at hs
        cases hs
      · refine ⟨hz, ?_⟩
        show (w.Stack.Tasks ++ [_]).length = liveCount _
        rw [List.length_append, List.length_singleton, hlen]
        exact hlive.symm
      · refine ⟨hz, ?_⟩
        show (w.Stack.Tasks ++ [_]).length = liveCount (World.setTask _ B _)
        rw [List.length_append, List.length_singleton, hlen,
          liveCount_set_same { b with SubtaskCreated := true } hb rfl]
        exact hlive.symm
    · cases h
  | advance T n s =>
    obtain ⟨t0, ht0, hb, rfl⟩ := advance_ok_inv h
    refine ⟨by simpa using hz, ?_⟩
    have : liveCount (TaskStack.advanceTask (w.setTask T (t0.advanced n s)) T t0.StepName)
        = liveCount (w.setTask T (t0.advanced n s)) := by
      simp [liveCount]
    rw [this, liveCount_set_same (t0.advanced n s) ht0 rfl]
    simpa using hlen
  | complete T =>
    obtain ⟨t0, ht0, hcase⟩ := complete_ok_inv h
    rcases hcase with ⟨_, rfl⟩ | ⟨_, hp, _⟩ | ⟨hc, _, hl, rfl⟩
    · exact ⟨hz, hlen⟩
    · omega
    · refine ⟨hz, ?_⟩
      have hlive := liveCount_set_completed { t0 with Completed := true } ht0 hc rfl
      show (w.Stack.Tasks.dropLast).length = liveCount (w.setTask T _)
      have hne : w.Stack.Tasks ≠ [] := by
        intro he
        rw [he] at hl
        cases hl
      have hpos : 0 < w.Stack.Tasks.length := List.length_pos.mpr hne
      rw [List.length_dropLast]
      omega
  | setSubtaskCreated T =>
    simp only [step, Task.setSubtaskCreated] at h
    split at h
    · cases h
    · next t0 ht0 =>
      injection h with h
      subst h
      exact ⟨hz, by
        rw [liveCount_set_same { t0 with SubtaskCreated := true } ht0 rfl]
        exact hlen⟩
  | suspendTracking => cases hop
  | resumeTracking => cases hop

theorem stepIndex_bound_step (w : World) (op : Op) (w1 : World)
    (hinv : ∀ (T : TaskId) (t : Task) (Total : Int), w.Heap[T]? = some t → t.TotalSteps = some Total →
      t.StepIndex < Total ∨ t.StepIndex = -1)
    (h : step w op = .ok w1) :
    ∀ (T : TaskId) (t : Task) (Total : Int), w1.Heap[T]? = some t → t.TotalSteps = some Total →
      t.StepIndex < Total ∨ t.StepIndex = -1 := by
  intro T t1 Total ht1 htot
  cases hold : w.Heap[T]? with
  | none => exact Or.inr (step_new_cell h T t1 ht1 hold).1
  | some t =>
    obtain ⟨t1', ht1', htot', _, _, hidx⟩ := step_cell h T t hold
    rw [ht1] at ht1'
    cases ht1'
    rw [htot] at htot'
    rcases hidx with hsame | ⟨_, hb⟩
    · rw [hsame]
      exact hinv T t Total hold htot'.symm
    · exact Or.inl (hb Total htot'.symm)

/-- C9 (as stated, refuted). The constructor accepts the total `-2`; the Task it
builds has step index `-1`, which exceeds its total. -/
theorem C9_negative_total_is_exceeded :
    ∃ w t, Task.create World.init (some (-2)) "t" = .ok (0, w) ∧
      w.Heap[0]? = some t ∧ t.TotalSteps = some (-2) ∧ ¬ t.StepIndex < -2 :=
  ⟨_, _, rfl, rfl, rfl, by decide⟩

/-- C9 (amended). For every Task whose total-step count is not negative, in
every state reached from a fresh thread by any sequence of successful calls
(Task creations, `advance`, `setSubtaskCreated`, `complete`, suspension and
resumption), `stepIndex()` is strictly less than the total. -/
theorem C9_stepIndex_below_total (ops : List Op) (w : World) (T : TaskId) (t : Task)
    (Total : Int) (hrun : run World.init ops = .ok w) (ht : w.Heap[T]? = some t)
    (htot : t.TotalSteps = some Total) (hnn : 0 ≤ Total) :
    t.StepIndex < Total := by
  have hinv := run_invariant
    (fun v => ∀ (T : TaskId) (t : Task) (Total : Int), v.Heap[T]? = some t → t.TotalSteps = some Total →
      t.StepIndex < Total ∨ t.StepIndex = -1)
    stepIndex_bound_step ops World.init w
    (by
      intro T t Total h
      simp [World.init] at h)
    hrun
  rcases hinv T t Total ht htot with h | h
  · exact h
  · omega

/-- C9 (amended) on the outer Task of the end-to-end scenario: step index 1,
total 2. -/
theorem C9_stepIndex_below_total_witness :
    ({ StepIndex := 1, TotalSteps := some 2, TaskName := "build", StepName := "link" } :
      Task).StepIndex < 2 :=
  C9_stepIndex_below_total buildScenario _ 0
    { StepIndex := 1, TotalSteps := some 2, TaskName := "build", StepName := "link" } 2
    rfl rfl rfl (by decide)
theorem registerTask_empty {w : World} (T : TaskId) (hz : w.Stack.SuspendRequests = 0)
    (hl : w.Stack.Tasks.getLast? = none) :
    TaskStack.registerTask w T = .ok (Progress.handleNewTask (w.pushTask T) T) := by
  simp [TaskStack.registerTask, isSuspended_of_zero hz, hl]

theorem registerTask_nested {w : World} {T B : TaskId} {t b : Task}
    (hz : w.Stack.SuspendRequests = 0) (hl : w.Stack.Tasks.getLast? = some B)
    (ht : w.Heap[T]? = some t) (hb : w.Heap[B]? = some b)
    (hf : (t.CurrentStepHasSingleSubtask && b.SubtaskCreated) = false) :
    TaskStack.registerTask w T
      = .ok (Progress.handleNewTask
          ((w.setTask B { b with SubtaskCreated := true }).pushTask T) T) := by
  simp only [TaskStack.registerTask, isSuspended_of_zero hz, hl, ht, hb, hf]
  simp

theorem nestedSinceLastAdvance_concat (T : TaskId) (log : List Notification)
    (n : Notification) :
    nestedSinceLastAdvance T (log ++ [n])
      = ((nestedSinceLastAdvance T log && !n.advances T) || n.registersOnTopOf T) := by
  induction log with
  | nil => simp [nestedSinceLastAdvance]
  | cons a rest ih =>
    have h1 : nestedSinceLastAdvance T (a :: (rest ++ [n]))
        = ((a.registersOnTopOf T && !(rest ++ [n]).any (fun m => m.advances T))
            || nestedSinceLastAdvance T (rest ++ [n])) := rfl
    have h2 : nestedSinceLastAdvance T (a :: rest)
        = ((a.registersOnTopOf T && !rest.any (fun m => m.advances T))
            || nestedSinceLastAdvance T rest) := rfl
    rw [List.cons_append, h1, h2, ih, List.any_append]
    simp only [List.any_cons, List.any_nil, Bool.or_false]
    cases a.registersOnTopOf T <;> cases rest.any (fun m => m.advances T) <;>
      cases n.advances T <;> cases n.registersOnTopOf T <;>
      cases nestedSinceLastAdvance T rest <;> rfl

theorem nestedSinceLastAdvance_eq_false (T : TaskId) (log : List Notification)
    (h : ∀ n ∈ log, n.registersOnTopOf T = false) :
    nestedSinceLastAdvance T log = false := by
  induction log with
  | nil => rfl
  | cons a rest ih =>
    simp only [nestedSinceLastAdvance, h a (List.mem_cons_self _ _), Bool.false_and,
      Bool.false_or]
    exact ih (fun n hn => h n (List.mem_cons_of_mem _ hn))

theorem registersOnTopOf_of_bound {n : Notification} {T : TaskId}
    (h : ∀ i ∈ n.Tasks, i < T) : n.registersOnTopOf T = false := by
  unfold Notification.registersOnTopOf
  split
  · rw [decide_eq_false_iff_not]
    intro hl
    have hmem : T ∈ n.Tasks.dropLast := List.mem_of_getLast?_eq_some hl
    exact Nat.lt_irrefl T (h T (List.mem_of_mem_dropLast hmem))
  · rfl
theorem getElem?_concat_cases {l : List Task} {new t : Task} {i : Nat}
    (h : (l ++ [new])[i]? = some t) :
    l[i]? = some t ∨ (i = l.length ∧ t = new) := by
  by_cases hi : i < l.length
  · rw [List.getElem?_append_left hi] at h
    exact Or.inl h
  · right
    have hle : l.length ≤ i := Nat.le_of_not_lt hi
    rw [List.getElem?_append_right hle] at h
    have hlt : i - l.length < [new].length := (List.getElem?_eq_some.mp h).1
    rw [List.length_singleton] at hlt
    have hz : i - l.length = 0 := Nat.lt_one_iff.mp hlt
    rw [hz] at h
    refine ⟨by omega, ?_⟩
    simpa using h.symm

theorem flagsMatchLog_fresh {w : World} (hinv : flagsMatchLog w) :
    nestedSinceLastAdvance w.Heap.length w.Log = false :=
  nestedSinceLastAdvance_eq_false _ _
    (fun n hn => registersOnTopOf_of_bound (hinv.2.2.1 n hn))

theorem flagsMatchLog_of {w w1 : World} (hinv : flagsMatchLog w) (n : Notification)
    (hS : w1.Stack.SuspendRequests = 0)
    (hT : ∀ i ∈ w1.Stack.Tasks, i < w1.Heap.length)
    (hlen : w.Heap.length ≤ w1.Heap.length)
    (hL : w1.Log = w.Log ++ [n])
    (hn : ∀ i ∈ n.Tasks, i < w1.Heap.length)
    (hcell : ∀ (T : TaskId) (t1 : Task), w1.Heap[T]? = some t1 →
      t1.SubtaskCreated
        = ((nestedSinceLastAdvance T w.Log && !n.advances T) || n.registersOnTopOf T)) :
    flagsMatchLog w1 := by
  refine ⟨hS, hT, ?_, ?_⟩
  · intro m hm i hi
    rw [hL, List.mem_append, List.mem_singleton] at hm
    rcases hm with hm | hm
    · exact Nat.lt_of_lt_of_le (hinv.2.2.1 m hm i hi) hlen
    · subst hm
      exact hn i hi
  · intro T t1 ht1
    rw [hL, nestedSinceLastAdvance_concat]
    exact hcell T t1 ht1

theorem flagsMatchLog_step (w : World) (op : Op) (w1 : World)
    (hop : op.isLifecycle = true) (hinv : flagsMatchLog w) (h : step w op = .ok w1) :
    flagsMatchLog w1 := by
  obtain ⟨hz, hTasks, hLog, hFlags⟩ := hinv
  have hinv : flagsMatchLog w := ⟨hz, hTasks, hLog, hFlags⟩
  cases op with
  | create tot name =>
    simp only [step] at h
    split at h
    · next id w2 hc =>
      injection h with h
      subst h
      obtain ⟨hid, hr⟩ := create_ok_inv hc
      subst hid
      have hreg : ∀ T : TaskId,
          (⟨.NewTask w.Heap.length, w.Stack.Tasks ++ [w.Heap.length]⟩ :
            Notification).registersOnTopOf T = decide (w.Stack.Tasks.getLast? = some T) := by
        intro T
        simp [Notification.registersOnTopOf]
      have hadv : ∀ T : TaskId,
          (⟨.NewTask w.Heap.length, w.Stack.Tasks ++ [w.Heap.length]⟩ :
            Notification).advances T = false := fun _ => rfl
      have hnTasks : ∀ i ∈ w.Stack.Tasks ++ [w.Heap.length], i < w.Heap.length + 1 := by
        intro i hi
        rw [List.mem_append, List.mem_singleton] at hi
        rcases hi with hi | hi
        · exact Nat.lt_succ_of_lt (hTasks i hi)
        · subst hi
          exact Nat.lt_succ_self _
      rcases registerTask_ok_inv hr with ⟨hs, _⟩ | ⟨_, hl, rfl⟩ | ⟨_, B, t, b, hl, _, hb, _, rfl⟩
      · rw [show ({ w with Heap := w.Heap ++ [{ TotalSteps := tot, TaskName := name }] } :
          World).Stack = w.Stack from rfl, isSuspended_of_zero hz] at hs
        cases hs
      · have hl1 : w.Stack.Tasks.getLast? = none := hl
        refine flagsMatchLog_of hinv ⟨.NewTask w.Heap.length, w.Stack.Tasks ++ [w.Heap.length]⟩
          hz ?_ ?_ rfl ?_ ?_
        · intro i hi
          show i < (w.Heap ++ [({ TotalSteps := tot, TaskName := name } : Task)]).length
          rw [List.length_append, List.length_singleton]
          exact hnTasks i hi
        · show w.Heap.length ≤ (w.Heap ++ [({ TotalSteps := tot, TaskName := name } : Task)]).length
          simp
        · intro i hi
          show i < (w.Heap ++ [({ TotalSteps := tot, TaskName := name } : Task)]).length
          rw [List.length_append, List.length_singleton]
          exact hnTasks i hi
        · intro T t1 ht1
          rw [hreg, hadv, hl1]
          have ht1' : (w.Heap ++ [({ TotalSteps := tot, TaskName := name } : Task)])[T]?
              = some t1 := ht1
          rcases getElem?_concat_cases ht1' with hold | ⟨hT, hnew⟩
          · simpa using hFlags T t1 hold
          · subst hT hnew
            simp [flagsMatchLog_fresh hinv]
      · have hl1 : w.Stack.Tasks.getLast? = some B := hl
        have hBlt : B < w.Heap.length := hTasks B (List.mem_of_getLast?_eq_some hl1)
        have hb1 : (w.Heap ++ [({ TotalSteps := tot, TaskName := name } : Task)])[B]? = some b :=
          hb
        have hbold : w.Heap[B]? = some b := by
          rw [List.getElem?_append_left hBlt] at hb1
          exact hb1
        refine flagsMatchLog_of hinv ⟨.NewTask w.Heap.length, w.Stack.Tasks ++ [w.Heap.length]⟩
          hz ?_ ?_ rfl ?_ ?_
        · intro i hi
          show i < ((w.Heap ++ [({ TotalSteps := tot, TaskName := name } : Task)]).set B
            { b with SubtaskCreated := true }).length
          rw [List.length_set, List.length_append, List.length_singleton]
          exact hnTasks i hi
        · show w.Heap.length ≤ ((w.Heap ++ [({ TotalSteps := tot, TaskName := name } : Task)]).set B
            { b with SubtaskCreated := true }).length
          simp
        · intro i hi
          show i < ((w.Heap ++ [({ TotalSteps := tot, TaskName := name } : Task)]).set B
            { b with SubtaskCreated := true }).length
          rw [List.length_set, List.length_append, List.length_singleton]
          exact hnTasks i hi
        · intro T t1 ht1
          rw [hreg, hadv, hl1]
          have ht1' : ((w.Heap ++ [({ TotalSteps := tot, TaskName := name } : Task)]).set B
              { b with SubtaskCreated := true })[T]? = some t1 := ht1
          rcases getElem?_set_cases ht1' with ⟨hTB, hnew, _⟩ | ⟨hTB, hsame⟩
          · subst hTB hnew
            simp
          · have hne : ¬ (some B = some T) := by
              intro he
              injection he with he
              exact hTB he.symm
            rcases getElem?_concat_cases hsame with hold | ⟨hT, hnew⟩
            · simpa [hne] using hFlags T t1 hold
            · subst hT hnew
              simp [flagsMatchLog_fresh hinv, hne]
    · cases h
  | advance T0 n s =>
    obtain ⟨t0, ht0, hb, rfl⟩ := advance_ok_inv h
    have hw1 : TaskStack.advanceTask (w.setTask T0 (t0.advanced n s)) T0 t0.StepName
        = Progress.handleTaskAdvancement (w.setTask T0 (t0.advanced n s)) T0 t0.StepName := by
      simp [TaskStack.advanceTask, isSuspended_of_zero hz]
    rw [hw1]
    refine flagsMatchLog_of hinv ⟨.TaskAdvancement T0 t0.StepName, w.Stack.Tasks⟩
      hz ?_ ?_ rfl ?_ ?_
    · intro i hi
      show i < (w.Heap.set T0 (t0.advanced n s)).length
      rw [List.length_set]
      exact hTasks i hi
    · show w.Heap.length ≤ (w.Heap.set T0 (t0.advanced n s)).length
      simp
    · intro i hi
      show i < (w.Heap.set T0 (t0.advanced n s)).length
      rw [List.length_set]
      exact hTasks i hi
    · intro T t1 ht1
      have ht1' : (w.Heap.set T0 (t0.advanced n s))[T]? = some t1 := ht1
      have hreg : (⟨.TaskAdvancement T0 t0.StepName, w.Stack.Tasks⟩ :
          Notification).registersOnTopOf T = false := rfl
      have hadv : (⟨.TaskAdvancement T0 t0.StepName, w.Stack.Tasks⟩ :
          Notification).advances T = decide (T0 = T) := rfl
      rw [hreg, hadv]
      rcases getElem?_set_cases ht1' with ⟨hTB, hnew, _⟩ | ⟨hTB, hsame⟩
      · subst hTB hnew
        simp [Task.advanced]
      · have hne : ¬ (T0 = T) := fun he => hTB he.symm
        simpa [hne] using hFlags T t1 hsame
  | complete T0 =>
    obtain ⟨t0, ht0, hcase⟩ := complete_ok_inv h
    rcases hcase with ⟨_, rfl⟩ | ⟨_, hp, _⟩ | ⟨hc, _, hl, rfl⟩
    · exact hinv
    · omega
    · refine flagsMatchLog_of hinv ⟨.TaskCompleted T0, w.Stack.Tasks⟩ hz ?_ ?_ rfl ?_ ?_
      · intro i hi
        show i < (w.Heap.set T0 { t0 with Completed := true }).length
        rw [List.length_set]
        exact hTasks i (List.mem_of_mem_dropLast hi)
      · show w.Heap.length ≤ (w.Heap.set T0 { t0 with Completed := true }).length
        simp
      · intro i hi
        show i < (w.Heap.set T0 { t0 with Completed := true }).length
        rw [List.length_set]
        exact hTasks i hi
      · intro T t1 ht1
        have ht1' : (w.Heap.set T0 { t0 with Completed := true })[T]? = some t1 := ht1
        have hreg : (⟨.TaskCompleted T0, w.Stack.Tasks⟩ :
            Notification).registersOnTopOf T = false := rfl
        have hadv : (⟨.TaskCompleted T0, w.Stack.Tasks⟩ : Notification).advances T = false := rfl
        rw [hreg, hadv]
        rcases getElem?_set_cases ht1' with ⟨hTB, hnew, _⟩ | ⟨hTB, hsame⟩
        · subst hTB hnew
          simpa using hFlags T t0 ht0
        · simpa using hFlags T t1 hsame
  | setSubtaskCreated T => cases hop
  | suspendTracking => cases hop
  | resumeTracking => cases hop
/-- C11. While the suspend counter is greater than zero, `registerTask`,
`unregisterTask` and `advanceTask` return the world they were given, for every
Task argument: `Tasks`, the suspend counter, every Task object and the record of
the calls made to `Progress` are unchanged. -/
theorem C11_suspended_calls_change_nothing (w : World) (T : TaskId)
    (PreviousStepName : String) (h : 0 < w.Stack.SuspendRequests) :
    TaskStack.registerTask w T = .ok w ∧ TaskStack.unregisterTask w T = .ok w ∧
    TaskStack.advanceTask w T PreviousStepName = w := by
  have hs := isSuspended_of_pos h
  refine ⟨?_, unregisterTask_suspended T h, ?_⟩
  · simp [TaskStack.registerTask, hs]
  · simp [TaskStack.advanceTask, hs]

/-- C11 on a stack `[0]` suspended twice, for a Task that is its top and for one
that is not on it. -/
theorem C11_suspended_calls_change_nothing_witness :
    (TaskStack.registerTask
        ⟨[{ TotalSteps := none, TaskName := "t" }], { SuspendRequests := 2, Tasks := [0] }, []⟩ 5
      = .ok ⟨[{ TotalSteps := none, TaskName := "t" }],
          { SuspendRequests := 2, Tasks := [0] }, []⟩) ∧
    (TaskStack.unregisterTask
        ⟨[{ TotalSteps := none, TaskName := "t" }], { SuspendRequests := 2, Tasks := [0] }, []⟩ 0
      = .ok ⟨[{ TotalSteps := none, TaskName := "t" }],
          { SuspendRequests := 2, Tasks := [0] }, []⟩) :=
  ⟨(C11_suspended_calls_change_nothing
      ⟨[{ TotalSteps := none, TaskName := "t" }], { SuspendRequests := 2, Tasks := [0] }, []⟩
      5 "" (by decide)).1,
   (C11_suspended_calls_change_nothing
      ⟨[{ TotalSteps := none, TaskName := "t" }], { SuspendRequests := 2, Tasks := [0] }, []⟩
      0 "" (by decide)).2.1⟩

theorem peakDepth_ge (d : Nat) (seq : List TrackingCall) : d ≤ peakDepth d seq := by
  cases seq with
  | nil => exact Nat.le_refl d
  | cons c rest =>
    cases c with
    | suspendTracking => exact Nat.le_max_left _ _
    | resumeTracking => exact Nat.le_max_left _ _

theorem depthAfter_take {seq : List TrackingCall} {d e : Nat}
    (h : depthAfter d seq = some e) (k : Nat) : ∃ e1, depthAfter d (seq.take k) = some e1 := by
  induction seq generalizing d k with
  | nil => exact ⟨d, by simp [depthAfter]⟩
  | cons c rest ih =>
    cases k with
    | zero => exact ⟨d, by simp [depthAfter]⟩
    | succ k =>
      cases c with
      | suspendTracking =>
        simp only [depthAfter] at h
        obtain ⟨e1, h1⟩ := ih h k
        exact ⟨e1, by simp only [List.take_succ_cons, depthAfter]; exact h1⟩
      | resumeTracking =>
        cases d with
        | zero => simp [depthAfter] at h
        | succ d =>
          simp only [depthAfter] at h
          obtain ⟨e1, h1⟩ := ih h k
          exact ⟨e1, by simp only [List.take_succ_cons, depthAfter]; exact h1⟩

theorem peakDepth_take_le (seq : List TrackingCall) (d k : Nat) :
    peakDepth d (seq.take k) ≤ peakDepth d seq := by
  induction seq generalizing d k with
  | nil => simp
  | cons c rest ih =>
    cases k with
    | zero => simpa [peakDepth] using peakDepth_ge d (c :: rest)
    | succ k =>
      cases c with
      | suspendTracking =>
        simp only [List.take_succ_cons, peakDepth]
        exact max_le_max (Nat.le_refl d) (ih (d + 1) k)
      | resumeTracking =>
        simp only [List.take_succ_cons, peakDepth]
        exact max_le_max (Nat.le_refl d) (ih (d - 1) k)

/-- A well-nested sequence of suspend/resume calls that stays within the range
of the counter runs to its end and moves the counter by the depth it gains. -/
theorem run_tracking (seq : List TrackingCall) :
    ∀ (w : World) (d e : Nat), depthAfter d seq = some e → d ≤ w.Stack.SuspendRequests →
      w.Stack.SuspendRequests - d + peakDepth d seq < 2 ^ 32 →
      ∃ w1, run w (seq.map TrackingCall.toOp) = .ok w1 ∧
        w1.Stack.SuspendRequests + d = w.Stack.SuspendRequests + e ∧
        w1.Stack.Tasks = w.Stack.Tasks ∧ w1.Heap = w.Heap ∧ w1.Log = w.Log := by
  induction seq with
  | nil =>
    intro w d e h _ _
    simp only [depthAfter, Option.some.injEq] at h
    subst h
    exact ⟨w, rfl, rfl, rfl, rfl, rfl⟩
  | cons c rest ih =>
    intro w d e h hd hpeak
    cases c with
    | suspendTracking =>
      simp only [depthAfter] at h
      simp only [peakDepth] at hpeak
      have hge := peakDepth_ge (d + 1) rest
      have hmax : peakDepth (d + 1) rest ≤ max d (peakDepth (d + 1) rest) := Nat.le_max_right _ _
      have hcount : (TaskStack.suspendTracking w).Stack.SuspendRequests
          = w.Stack.SuspendRequests + 1 := by
        show (w.Stack.SuspendRequests + 1) % 2 ^ 32 = _
        exact Nat.mod_eq_of_lt (by omega)
      obtain ⟨w1, hrun, hc, hT, hH, hL⟩ := ih (TaskStack.suspendTracking w) (d + 1) e h
        (by rw [hcount]; omega) (by rw [hcount]; omega)
      refine ⟨w1, ?_, ?_, hT, hH, hL⟩
      · simp only [List.map_cons, TrackingCall.toOp, run, step]
        exact hrun
      · rw [hcount] at hc
        omega
    | resumeTracking =>
      cases d with
      | zero => simp [depthAfter] at h
      | succ d =>
        simp only [depthAfter] at h
        simp only [peakDepth, Nat.add_sub_cancel] at hpeak
        have hmax : peakDepth d rest ≤ max (d + 1) (peakDepth d rest) := Nat.le_max_right _ _
        have hres : TaskStack.resumeTracking w
            = .ok { w with Stack := { w.Stack with
                SuspendRequests := w.Stack.SuspendRequests - 1 } } := by
          simp [TaskStack.resumeTracking, isSuspended_of_pos (Nat.lt_of_lt_of_le (Nat.succ_pos d) hd)]
        obtain ⟨w1, hrun, hc, hT, hH, hL⟩ := ih
          { w with Stack := { w.Stack with SuspendRequests := w.Stack.SuspendRequests - 1 } }
          d e h
          (by show d ≤ w.Stack.SuspendRequests - 1; omega)
          (by show w.Stack.SuspendRequests - 1 - d + peakDepth d rest < 2 ^ 32; omega)
        refine ⟨w1, ?_, ?_, hT, hH, hL⟩
        · simp only [List.map_cons, TrackingCall.toOp, run, step, hres]
          exact hrun
        · have hc1 : w1.Stack.SuspendRequests + d = w.Stack.SuspendRequests - 1 + e := hc
          omega
/-- C12 (as stated, refuted). The sequence suspend, suspend, resume, resume is
balanced and well nested, and it is started at the counter `2^32 - 2`, below
the limit `2^32 - 1` of an `unsigned`; the second suspend wraps the counter to
zero and the first resume fails `assert(isSuspended())`. -/
theorem C12_nested_suspend_wraps_counter :
    depthAfter 0 [.suspendTracking, .suspendTracking, .resumeTracking, .resumeTracking]
      = some 0 ∧
    (4294967294 : Nat) < 2 ^ 32 - 1 ∧
    run ⟨[], { SuspendRequests := 4294967294 }, []⟩
        ([TrackingCall.suspendTracking, .suspendTracking, .resumeTracking,
          .resumeTracking].map TrackingCall.toOp)
      = .error .notSuspended :=
  ⟨rfl, by decide, rfl⟩

/-- C12 (amended). `suspendTracking` increments the suspend counter by one when
it is below `2^32 - 1` and `resumeTracking` decrements it by one when it is
positive; `resumeTracking` when the counter is zero is a contract violation;
and for every balanced, well-nested sequence of suspend/resume calls started at
counter `c` such that `c` plus the greatest nesting depth of the sequence is
below `2^32`, every call succeeds, after each prefix the counter is `c` plus
the current depth, so `isSuspended()` is true wherever the depth is positive
(strictly inside an outermost pair), and the counter ends at `c`, nothing else
being changed. -/
theorem C12_suspend_resume_counter :
    (∀ w : World, w.Stack.SuspendRequests < 2 ^ 32 - 1 →
      TaskStack.suspendTracking w
        = { w with Stack := { w.Stack with
              SuspendRequests := w.Stack.SuspendRequests + 1 } }) ∧
    (∀ w : World, 0 < w.Stack.SuspendRequests →
      TaskStack.resumeTracking w
        = .ok { w with Stack := { w.Stack with
              SuspendRequests := w.Stack.SuspendRequests - 1 } }) ∧
    (∀ w : World, w.Stack.SuspendRequests = 0 →
      TaskStack.resumeTracking w = .error .notSuspended) ∧
    (∀ (seq : List TrackingCall) (w : World), depthAfter 0 seq = some 0 →
      w.Stack.SuspendRequests + peakDepth 0 seq < 2 ^ 32 →
      (∃ w1, run w (seq.map TrackingCall.toOp) = .ok w1 ∧
        w1.Stack.SuspendRequests = w.Stack.SuspendRequests ∧
        w1.Stack.Tasks = w.Stack.Tasks ∧ w1.Heap = w.Heap ∧ w1.Log = w.Log) ∧
      ∀ k, ∃ wk d, depthAfter 0 (seq.take k) = some d ∧
        run w ((seq.take k).map TrackingCall.toOp) = .ok wk ∧
        wk.Stack.SuspendRequests = w.Stack.SuspendRequests + d ∧
        (0 < d → wk.Stack.isSuspended = true)) := by
  refine ⟨?_, ?_, ?_, ?_⟩
  · intro w h
    have hmod : (w.Stack.SuspendRequests + 1) % 2 ^ 32 = w.Stack.SuspendRequests + 1 :=
      Nat.mod_eq_of_lt (by omega)
    simp only [TaskStack.suspendTracking, hmod]
  · intro w h
    simp [TaskStack.resumeTracking, isSuspended_of_pos h]
  · intro w h
    simp [TaskStack.resumeTracking, isSuspended_of_zero h]
  · intro seq w hbal hpeak
    constructor
    · obtain ⟨w1, hrun, hc, hT, hH, hL⟩ := run_tracking seq w 0 0 hbal (Nat.zero_le _)
        (by simpa using hpeak)
      exact ⟨w1, hrun, by simpa using hc, hT, hH, hL⟩
    · intro k
      obtain ⟨d, hd⟩ := depthAfter_take hbal k
      have hle := peakDepth_take_le seq 0 k
      obtain ⟨wk, hrun, hc, _, _, _⟩ := run_tracking (seq.take k) w 0 d hd (Nat.zero_le _)
        (by simp only [Nat.sub_zero]; omega)
      have hc1 : wk.Stack.SuspendRequests = w.Stack.SuspendRequests + d := by simpa using hc
      refine ⟨wk, d, hd, hrun, hc1, ?_⟩
      intro hpos
      exact isSuspended_of_pos (by omega)

/-- C12 (amended) on a nested pair started at counter 3: all four calls succeed,
the counter is back at 3, and after the first two calls the stack is suspended
at depth 2. -/
theorem C12_suspend_resume_counter_witness :
    (∃ w1, run ⟨[], { SuspendRequests := 3 }, []⟩
        ([TrackingCall.suspendTracking, .suspendTracking, .resumeTracking,
          .resumeTracking].map TrackingCall.toOp) = .ok w1 ∧
      w1.Stack.SuspendRequests = 3) ∧
    (∃ wk d, depthAfter 0
        ([TrackingCall.suspendTracking, .suspendTracking, .resumeTracking,
          .resumeTracking].take 2) = some d ∧
      run ⟨[], { SuspendRequests := 3 }, []⟩
        (([TrackingCall.suspendTracking, .suspendTracking, .resumeTracking,
          .resumeTracking].take 2).map TrackingCall.toOp) = .ok wk ∧
      wk.Stack.SuspendRequests = 3 + d ∧ (0 < d → wk.Stack.isSuspended = true)) := by
  have h := C12_suspend_resume_counter.2.2.2
    [.suspendTracking, .suspendTracking, .resumeTracking, .resumeTracking]
    ⟨[], { SuspendRequests := 3 }, []⟩ rfl (by decide)
  obtain ⟨⟨w1, h1, h2, _⟩, hk⟩ := h
  exact ⟨⟨w1, h1, h2⟩, hk 2⟩

theorem notify_loop (isMain : Bool) (event : Event) (entries : List RegistryEntry)
    (calls : List ListenerCall) :
    entries.foldl
        (fun calls entry =>
          if isMain || entry.AllThreads then calls ++ [⟨entry.Listener, event⟩] else calls)
        calls
      = calls ++ (entries.filter (fun entry => isMain || entry.AllThreads)).map
          (fun entry => (⟨entry.Listener, event⟩ : ListenerCall)) := by
  induction entries generalizing calls with
  | nil => simp
  | cons e rest ih =>
    rw [List.foldl_cons]
    by_cases h : (isMain || e.AllThreads) = true
    · have hf := List.filter_cons_of_pos
        (p := fun entry : RegistryEntry => isMain || entry.AllThreads) (l := rest) h
      rw [if_pos h, ih, hf, List.map_cons, List.append_assoc]
      rfl
    · have hf := List.filter_cons_of_neg
        (p := fun entry : RegistryEntry => isMain || entry.AllThreads) (l := rest) h
      rw [if_neg h, ih, hf]

theorem notify_eq (P : Progress) (thread : Nat) (event : Event) :
    P.notify thread event
      = (P.eligible thread).map (fun entry => (⟨entry.Listener, event⟩ : ListenerCall)) := by
  unfold Progress.notify Progress.eligible
  exact (notify_loop _ _ _ _).trans (List.nil_append _)

/-- C13. For each of `handleNewTask`, `handleTaskCompleted` and
`handleTaskAdvancement`, every registry and every calling thread: the callbacks
made are one call of the matching callback for each entry that is tagged
all-threads or, on the primary thread, for each entry, in registration order,
and no other call; so on a thread that is not the primary one exactly the
all-threads listeners are called, and on the primary thread all of them. -/
theorem C13_notification_fan_out (P : Progress) (thread : Nat) (T : TaskId)
    (PreviousStepName : String) :
    P.handleNewTaskCalls thread T
      = (P.eligible thread).map (fun entry => ⟨entry.Listener, .NewTask T⟩) ∧
    P.handleTaskCompletedCalls thread T
      = (P.eligible thread).map (fun entry => ⟨entry.Listener, .TaskCompleted T⟩) ∧
    P.handleTaskAdvancementCalls thread T PreviousStepName
      = (P.eligible thread).map
          (fun entry => ⟨entry.Listener, .TaskAdvancement T PreviousStepName⟩) ∧
    (P.eligible thread).Sublist P.Registry ∧
    (∀ entry, entry ∈ P.eligible thread ↔
      entry ∈ P.Registry ∧ (thread = P.MainThreadID ∨ entry.AllThreads = true)) ∧
    (thread = P.MainThreadID → P.eligible thread = P.Registry) ∧
    (thread ≠ P.MainThreadID →
      P.eligible thread = P.Registry.filter (fun entry => entry.AllThreads)) := by
  refine ⟨notify_eq P thread _, notify_eq P thread _, notify_eq P thread _,
    List.filter_sublist _, ?_, ?_, ?_⟩
  · intro entry
    simp only [Progress.eligible, Progress.isMainThread, List.mem_filter, Bool.or_eq_true,
      beq_iff_eq]
    constructor
    · rintro ⟨h1, h2 | h2⟩
      · exact ⟨h1, Or.inl h2.symm⟩
      · exact ⟨h1, Or.inr h2⟩
    · rintro ⟨h1, h2 | h2⟩
      · exact ⟨h1, Or.inl h2.symm⟩
      · exact ⟨h1, Or.inr h2⟩
  · intro h
    subst h
    simp [Progress.eligible, Progress.isMainThread]
  · intro h
    have hne : (P.MainThreadID == thread) = false := by
      simp only [beq_eq_false_iff_ne]
      exact fun he => h he.symm
    simp [Progress.eligible, Progress.isMainThread, hne]
theorem registerAll_registry (main : Nat) (ls : List (Bool × Nat)) :
    ∀ P : Progress, P.MainThreadID = main →
      ∃ P1, P.registerAll main ls = .ok P1 ∧ P1.MainThreadID = main ∧
        P1.Registry = P.Registry ++ ls.map (fun l => (⟨l.1, l.2⟩ : RegistryEntry)) := by
  induction ls with
  | nil =>
    intro P hP
    exact ⟨P, rfl, hP, by simp⟩
  | cons l rest ih =>
    intro P hP
    have hreg : P.registerListener main l.1 l.2
        = .ok { P with Registry := P.Registry ++ [{ AllThreads := l.1, Listener := l.2 }] } := by
      simp [Progress.registerListener, Progress.isMainThread, hP]
    obtain ⟨P1, h1, h2, h3⟩ :=
      ih { P with Registry := P.Registry ++ [{ AllThreads := l.1, Listener := l.2 }] } hP
    refine ⟨P1, ?_, h2, ?_⟩
    · simp only [Progress.registerAll, hreg]
      exact h1
    · rw [h3]
      simp

/-- C14. The call `registerListener<O>` succeeds exactly when it is made by the
primary thread, the one that constructed the `Progress`; it then appends one
entry, tagged `O::AllThreads`, at the end of the registry and changes nothing
else, so for every later event the new listener is called after all the
listeners registered before it, whose calls are unchanged; made by another
thread it fails `assert(isMainThread())` and yields no new registry.
Listeners registered one after the other on the primary thread are notified
there in their registration order. -/
theorem C14_registerListener_primary_only (P : Progress) (thread : Nat) (AllThreads : Bool)
    (Listener : Nat) :
    ((∃ P1, P.registerListener thread AllThreads Listener = .ok P1)
      ↔ thread = P.MainThreadID) ∧
    (thread = P.MainThreadID →
      P.registerListener thread AllThreads Listener
        = .ok { P with Registry :=
            P.Registry ++ [{ AllThreads := AllThreads, Listener := Listener }] }) ∧
    (thread ≠ P.MainThreadID →
      P.registerListener thread AllThreads Listener = .error .notMainThread) ∧
    (∀ P1, P.registerListener thread AllThreads Listener = .ok P1 →
      ∀ (t : Nat) (event : Event),
        P1.notify t event
          = P.notify t event
              ++ (if P.isMainThread t || AllThreads then [⟨Listener, event⟩] else [])) ∧
    (∀ main t : Nat, (Progress.create main).isMainThread t = true ↔ t = main) ∧
    (∀ (main : Nat) (ls : List (Bool × Nat)),
      ∃ P1, (Progress.create main).registerAll main ls = .ok P1 ∧
        P1.Registry = ls.map (fun l => ⟨l.1, l.2⟩) ∧
        ∀ event, P1.notify main event = ls.map (fun l => ⟨l.2, event⟩)) := by
  have hok : thread = P.MainThreadID →
      P.registerListener thread AllThreads Listener
        = .ok { P with Registry :=
            P.Registry ++ [{ AllThreads := AllThreads, Listener := Listener }] } := by
    intro h
    simp [Progress.registerListener, Progress.isMainThread, h]
  have herr : thread ≠ P.MainThreadID →
      P.registerListener thread AllThreads Listener = .error .notMainThread := by
    intro h
    have hne : (P.MainThreadID == thread) = false := by
      simp only [beq_eq_false_iff_ne]
      exact fun he => h he.symm
    simp [Progress.registerListener, Progress.isMainThread, hne]
  refine ⟨⟨?_, fun h => ⟨_, hok h⟩⟩, hok, herr, ?_, ?_, ?_⟩
  · rintro ⟨P1, h1⟩
    by_contra hne
    rw [herr hne] at h1
    cases h1
  · intro P1 h1 t event
    have hmain : thread = P.MainThreadID := by
      by_contra hne
      rw [herr hne] at h1
      cases h1
    rw [hok hmain] at h1
    injection h1 with h1
    subst h1
    rw [notify_eq, notify_eq]
    simp only [Progress.eligible, Progress.isMainThread, List.filter_append, List.map_append]
    congr 1
    by_cases hc : ((P.MainThreadID == t) || AllThreads) = true
    · simp [List.filter_cons, hc]
    · simp [List.filter_cons, hc]
  · intro main t
    simp only [Progress.create, Progress.isMainThread, beq_iff_eq]
    exact eq_comm
  · intro main ls
    obtain ⟨P1, h1, h2, h3⟩ := registerAll_registry main ls (Progress.create main) rfl
    have hreg : P1.Registry = ls.map (fun l => (⟨l.1, l.2⟩ : RegistryEntry)) := by
      rw [h3]
      simp [Progress.create]
    refine ⟨P1, h1, hreg, ?_⟩
    intro event
    rw [notify_eq]
    have hall : P1.eligible main = P1.Registry := by
      simp [Progress.eligible, Progress.isMainThread, h2]
    rw [hall, hreg, List.map_map]
    rfl

/-- C15 (the code at the failing inputs). `advance` on a Task that is below the
top of a non-suspended stack succeeds, bumps its step index and notifies
`Progress` while another Task is the last element of `Tasks`; `advance` on a
Task that has completed, and on one that was never registered, succeeds and
notifies while the Task is not in `Tasks` at all. A Task without a total can
always be advanced, whatever the stack holds. -/
theorem C15_advance_ignores_the_stack :
    (∃ w, run World.init advanceBelowTopScenario = .ok w ∧
      w.Stack.Tasks = [0, 1] ∧ w.stepIndex 0 = some 0 ∧
      w.Log.getLast? = some ⟨.TaskAdvancement 0 "", [0, 1]⟩) ∧
    (∃ w, run World.init advanceCompletedScenario = .ok w ∧
      w.Stack.Tasks = [] ∧ w.stepIndex 0 = some 0 ∧
      w.Log.getLast? = some ⟨.TaskAdvancement 0 "", []⟩) ∧
    (∃ w, run World.init advanceUnregisteredScenario = .ok w ∧
      w.Stack.Tasks = [] ∧ w.stepIndex 0 = some 0 ∧
      w.Log.getLast? = some ⟨.TaskAdvancement 0 "", []⟩) ∧
    (∀ (w : World) (T : TaskId) (t : Task) (NewStepName : String) (SingleSubtask : Bool),
      w.Heap[T]? = some t → t.TotalSteps = none →
      ∃ w1, Task.advance w T NewStepName SingleSubtask = .ok w1) := by
  refine ⟨⟨_, rfl, rfl, rfl, rfl⟩, ⟨_, rfl, rfl, rfl, rfl⟩, ⟨_, rfl, rfl, rfl, rfl⟩, ?_⟩
  intro w T t n s ht htot
  refine ⟨_, advance_eq_ok n s ht ?_⟩
  intro Total h
  rw [htot] at h
  cases h
theorem trackingPattern_nil : trackingPattern [] = [] := rfl

theorem trackingPattern_single_false : trackingPattern [false] = [.suspendTracking] := rfl

theorem getLast?_cons_ne_nil {a : Bool} {l : List Bool} (h : l ≠ []) :
    (a :: l).getLast? = l.getLast? := by
  cases l with
  | nil => exact absurd rfl h
  | cons b rest => exact List.getLast?_cons_cons

theorem trackingPattern_true_cons (rest : List Bool) :
    trackingPattern (true :: rest) = trackingPattern rest := by
  cases rest with
  | nil => rfl
  | cons b rest =>
    simp only [trackingPattern, closedRuns, List.getLast?_cons_cons]
    simp

theorem trackingPattern_false_true_cons (rest : List Bool) :
    trackingPattern (false :: true :: rest)
      = .suspendTracking :: .resumeTracking :: trackingPattern rest := by
  have h1 : closedRuns true (false :: true :: rest) = closedRuns true rest + 1 := by
    simp only [closedRuns]
    simp
    omega
  cases rest with
  | nil => rfl
  | cons b rest =>
    simp only [trackingPattern, h1, suspendResumePairs, List.getLast?_cons_cons,
      List.cons_append]

theorem trackingPattern_false_false_cons (rest : List Bool) :
    trackingPattern (false :: false :: rest) = trackingPattern (false :: rest) := by
  simp only [trackingPattern, closedRuns, List.getLast?_cons_cons]
  simp

/-- What `TaskOnSet::advance` does with an element that is not expected. -/
theorem taskOnSet_advance_unexpected {V : Type} [DecidableEq V] (w : World) (S : TaskOnSet V)
    {e : V} (n : String) (s : Bool) (he : e ∉ S.Predicted) :
    TaskOnSet.advance w S e n s
      = .ok (if S.Suspended then (S, w)
          else ({ S with Suspended := true,
                         TrackingCalls := S.TrackingCalls ++ [.suspendTracking] },
                TaskStack.suspendTracking w)) := by
  unfold TaskOnSet.advance
  rw [if_neg he]
  cases S.Suspended <;> rfl

/-- The shape of a successful `TaskOnSet::advance` with an expected element. -/
theorem taskOnSet_advance_expected_inv {V : Type} [DecidableEq V] {w w' : World}
    {S S' : TaskOnSet V} {e : V} {n : String} {s : Bool} (he : e ∈ S.Predicted)
    (h : TaskOnSet.advance w S e n s = .ok (S', w')) :
    S'.This = S.This ∧ S'.Predicted = S.Predicted ∧ S'.Suspended = false ∧
    S'.TrackingCalls = S.TrackingCalls ++ (if S.Suspended then [.resumeTracking] else []) ∧
    ∃ w1, (if S.Suspended then TaskStack.resumeTracking w = .ok w1 else w1 = w) ∧
      Task.advance w1 S.This n s = .ok w' := by
  unfold TaskOnSet.advance at h
  rw [if_pos he] at h
  cases hs : S.Suspended with
  | true =>
    rw [hs] at h
    simp only [if_true] at h
    cases hr : TaskStack.resumeTracking w with
    | error e => simp only [hr] at h; cases h
    | ok w1 =>
      simp only [hr] at h
      cases ha : Task.advance w1 S.This n s with
      | error e => simp only [ha] at h; cases h
      | ok w2 =>
        simp only [ha] at h
        injection h with h
        injection h with h1 h2
        subst h1 h2
        exact ⟨rfl, rfl, rfl, by simp, w1, by simp, ha⟩
  | false =>
    rw [hs] at h
    simp only [Bool.false_eq_true, if_false] at h
    cases ha : Task.advance w S.This n s with
    | error e => simp only [ha] at h; cases h
    | ok w2 =>
      simp only [ha] at h
      injection h with h
      injection h with h1 h2
      subst h1 h2
      exact ⟨rfl, rfl, hs, by simp, w, by simp, ha⟩

/-- The method `TaskOnSet::advance` with an expected element succeeds when the
resumption and the base `advance` do. -/
theorem taskOnSet_advance_expected_ok {V : Type} [DecidableEq V] {w2 : World} (w : World)
    (S : TaskOnSet V) (w1 : World) {e : V} {n : String} {s : Bool} (he : e ∈ S.Predicted)
    (hr : if S.Suspended then TaskStack.resumeTracking w = .ok w1 else w1 = w)
    (ha : Task.advance w1 S.This n s = .ok w2) :
    ∃ S', TaskOnSet.advance w S e n s = .ok (S', w2) := by
  unfold TaskOnSet.advance
  rw [if_pos he]
  cases hs : S.Suspended with
  | true =>
    rw [hs] at hr
    simp only [if_true] at hr
    simp only [if_true, hr, ha]
    exact ⟨_, rfl⟩
  | false =>
    rw [hs] at hr
    simp only [Bool.false_eq_true, if_false] at hr
    subst hr
    simp only [Bool.false_eq_true, if_false, ha]
    exact ⟨_, rfl⟩
/-- The shape of a successful `TaskStack::resumeTracking`. -/
theorem resumeTracking_ok_inv {w w1 : World} (h : TaskStack.resumeTracking w = .ok w1) :
    0 < w.Stack.SuspendRequests ∧ w1.Stack.SuspendRequests = w.Stack.SuspendRequests - 1 ∧
    w1.Stack.Tasks = w.Stack.Tasks ∧ w1.Heap = w.Heap ∧ w1.Log = w.Log := by
  unfold TaskStack.resumeTracking at h
  split at h
  · next hs =>
    injection h with h
    subst h
    refine ⟨?_, rfl, rfl, rfl, rfl⟩
    simpa [TaskStack.isSuspended] using hs
  · cases h

/-- What one successful `TaskOnSet::advance` does to the object and to `Tasks`:
the step index grows by one for an expected element and not at all otherwise. -/
theorem taskOnSet_advance_cell {V : Type} [DecidableEq V] {w w1 : World}
    {S S1 : TaskOnSet V} {e : V} {n : String} {s : Bool} {t : Task}
    (h : TaskOnSet.advance w S e n s = .ok (S1, w1)) (ht : w.Heap[S.This]? = some t) :
    S1.This = S.This ∧ S1.Predicted = S.Predicted ∧ w1.Stack.Tasks = w.Stack.Tasks ∧
    S1.Suspended = !decide (e ∈ S.Predicted) ∧
    S1.TrackingCalls = S.TrackingCalls ++
      (if e ∈ S.Predicted then (if S.Suspended then [.resumeTracking] else [])
       else (if S.Suspended then [] else [.suspendTracking])) ∧
    ∃ t1, w1.Heap[S.This]? = some t1 ∧
      t1.StepIndex = t.StepIndex + (if e ∈ S.Predicted then 1 else 0) ∧
      t1.TotalSteps = t.TotalSteps ∧ t1.Completed = t.Completed := by
  by_cases he : e ∈ S.Predicted
  · obtain ⟨h1, h2, h3, h4, w0, hr, ha⟩ := taskOnSet_advance_expected_inv he h
    have hw0 : w0.Heap = w.Heap ∧ w0.Stack.Tasks = w.Stack.Tasks := by
      cases hs : S.Suspended with
      | true =>
        rw [hs] at hr
        simp only [if_true] at hr
        obtain ⟨_, _, hT, hH, _⟩ := resumeTracking_ok_inv hr
        exact ⟨hH, hT⟩
      | false =>
        rw [hs] at hr
        simp only [Bool.false_eq_true, if_false] at hr
        subst hr
        exact ⟨rfl, rfl⟩
    obtain ⟨t0, ht0, _, hw1⟩ := advance_ok_inv ha
    rw [hw0.1, ht] at ht0
    cases ht0
    subst hw1
    refine ⟨h1, h2, ?_, by simp [h3, he], by simp [h4, he], t.advanced n s, ?_, ?_, rfl, rfl⟩
    · simpa using hw0.2
    · have : (w0.Heap.set S.This (t.advanced n s))[S.This]? = some (t.advanced n s) :=
        getElem?_set_self_of_some _ (by rw [hw0.1]; exact ht)
      simpa using this
    · simp [Task.advanced, he]
  · rw [taskOnSet_advance_unexpected w S n s he] at h
    injection h with h
    cases hs : S.Suspended with
    | true =>
      rw [hs] at h
      simp only [if_true] at h
      injection h with h1 h2
      subst h1 h2
      exact ⟨rfl, rfl, rfl, by simp [hs, he], by simp [hs, he], t, ht, by simp [he], rfl, rfl⟩
    | false =>
      rw [hs] at h
      simp only [Bool.false_eq_true, if_false] at h
      injection h with h1 h2
      subst h1 h2
      exact ⟨rfl, rfl, rfl, by simp [he], by simp [he], t, ht, by simp [he], rfl, rfl⟩

/-- What one successful `TaskOnSet::advance` does to the suspend counter and to
the notifications, when the counter is the value `c` found at construction plus
one if the object is Suspended. -/
theorem taskOnSet_advance_counter {V : Type} [DecidableEq V] {w w1 : World}
    {S S1 : TaskOnSet V} {e : V} {n : String} {s : Bool} {t : Task} {c : Nat}
    (h : TaskOnSet.advance w S e n s = .ok (S1, w1)) (ht : w.Heap[S.This]? = some t)
    (hc : w.Stack.SuspendRequests = c + (if S.Suspended then 1 else 0))
    (hlt : c + 1 < 2 ^ 32) :
    w1.Stack.SuspendRequests = c + (if S1.Suspended then 1 else 0) ∧
    (c = 0 → e ∈ S.Predicted →
      w1.Log = w.Log ++ [⟨.TaskAdvancement S.This t.StepName, w.Stack.Tasks⟩]) ∧
    (0 < c ∨ e ∉ S.Predicted → w1.Log = w.Log) := by
  by_cases he : e ∈ S.Predicted
  · obtain ⟨h1, h2, h3, h4, w0, hr, ha⟩ := taskOnSet_advance_expected_inv he h
    have hw0 : w0.Heap = w.Heap ∧ w0.Stack.Tasks = w.Stack.Tasks ∧ w0.Log = w.Log ∧
        w0.Stack.SuspendRequests = c := by
      cases hs : S.Suspended with
      | true =>
        rw [hs] at hr hc
        simp only [if_true] at hr hc
        obtain ⟨_, hcnt, hT, hH, hL⟩ := resumeTracking_ok_inv hr
        exact ⟨hH, hT, hL, by omega⟩
      | false =>
        rw [hs] at hr hc
        simp only [Bool.false_eq_true, if_false] at hr hc
        subst hr
        exact ⟨rfl, rfl, rfl, by omega⟩
    obtain ⟨hH, hT, hL, hC⟩ := hw0
    obtain ⟨t0, ht0, _, hw1⟩ := advance_ok_inv ha
    rw [hH, ht] at ht0
    cases ht0
    subst hw1
    refine ⟨?_, ?_, ?_⟩
    · rw [h3]
      simpa using hC
    · intro hz _
      have hns : (w0.setTask S.This (t.advanced n s)).Stack.isSuspended = false :=
        isSuspended_of_zero (by simpa [hz] using hC)
      simp only [TaskStack.advanceTask, hns, Progress.handleTaskAdvancement]
      simp [hL, hT]
    · rintro (hpos | hne)
      · have hs : (w0.setTask S.This (t.advanced n s)).Stack.isSuspended = true :=
          isSuspended_of_pos (by
            show 0 < w0.Stack.SuspendRequests
            omega)
        simp only [TaskStack.advanceTask, hs]
        simpa using hL
      · exact absurd he hne
  · rw [taskOnSet_advance_unexpected w S n s he] at h
    injection h with h
    cases hs : S.Suspended with
    | true =>
      rw [hs] at h hc
      simp only [if_true] at h hc
      injection h with h1 h2
      subst h1 h2
      exact ⟨by simpa [hs] using hc, fun _ hmem => absurd hmem he, fun _ => rfl⟩
    | false =>
      rw [hs] at h hc
      simp only [Bool.false_eq_true, if_false] at h hc
      injection h with h1 h2
      subst h1 h2
      refine ⟨?_, fun _ hmem => absurd hmem he, fun _ => rfl⟩
      show (w.Stack.SuspendRequests + 1) % 2 ^ 32 = c + 1
      rw [Nat.mod_eq_of_lt (by omega)]
      omega

/-- The method `TaskOnSet::advance` succeeds when the counter is the value `c`
found at construction plus one if the object is Suspended, and, for an expected
element, the step bound of the base Task holds. -/
theorem taskOnSet_advance_succeeds {V : Type} [DecidableEq V] (w : World) (S : TaskOnSet V)
    (e : V) (n : String) (s : Bool) {t : Task} {c : Nat} (ht : w.Heap[S.This]? = some t)
    (hc : w.Stack.SuspendRequests = c + (if S.Suspended then 1 else 0))
    (hb : e ∈ S.Predicted → ∀ Total, t.TotalSteps = some Total → t.StepIndex + 1 < Total) :
    ∃ S1 w1, TaskOnSet.advance w S e n s = .ok (S1, w1) := by
  by_cases he : e ∈ S.Predicted
  · cases hs : S.Suspended with
    | true =>
      rw [hs] at hc
      simp only [if_true] at hc
      have hres : TaskStack.resumeTracking w
          = .ok { w with Stack := { w.Stack with
              SuspendRequests := w.Stack.SuspendRequests - 1 } } := by
        simp [TaskStack.resumeTracking, isSuspended_of_pos (show 0 < w.Stack.SuspendRequests by omega)]
      have hadv := advance_eq_ok
        (w := { w with Stack := { w.Stack with
              SuspendRequests := w.Stack.SuspendRequests - 1 } }) n s ht (hb he)
      obtain ⟨S1, h1⟩ := taskOnSet_advance_expected_ok w S
        { w with Stack := { w.Stack with SuspendRequests := w.Stack.SuspendRequests - 1 } } he
        (by rw [hs]; simpa using hres) hadv
      exact ⟨S1, _, h1⟩
    | false =>
      have hadv := advance_eq_ok n s ht (hb he)
      obtain ⟨S1, h1⟩ := taskOnSet_advance_expected_ok w S w he
        (by rw [hs]; simp) hadv
      exact ⟨S1, _, h1⟩
  · exact ⟨_, _, taskOnSet_advance_unexpected w S n s he⟩
theorem memberCalls_cons {V : Type} [DecidableEq V] (Predicted : List V)
    (call : V × String × Bool) (rest : List (V × String × Bool)) :
    memberCalls Predicted (call :: rest)
      = (if call.1 ∈ Predicted then 1 else 0) + memberCalls Predicted rest := by
  simp only [memberCalls, List.countP_cons, decide_eq_true_eq]
  omega

/-- What a successful sequence of `TaskOnSet::advance` calls does to the object:
the step index has grown by the number of calls that presented an expected
element, and the tracking calls made follow the pattern of the runs. -/
theorem taskOnSet_advanceAll_inv {V : Type} [DecidableEq V]
    (calls : List (V × String × Bool)) :
    ∀ (S S' : TaskOnSet V) (w w' : World) (t : Task),
      TaskOnSet.advanceAll w S calls = .ok (S', w') → w.Heap[S.This]? = some t →
      S'.This = S.This ∧ S'.Predicted = S.Predicted ∧ w'.Stack.Tasks = w.Stack.Tasks ∧
      (∃ t', w'.Heap[S.This]? = some t' ∧
        t'.StepIndex = t.StepIndex + memberCalls S.Predicted calls ∧
        t'.TotalSteps = t.TotalSteps ∧ t'.Completed = t.Completed) ∧
      ∃ new, S'.TrackingCalls = S.TrackingCalls ++ new ∧
        (S.Suspended = false → new = trackingPattern (expectedFlags S.Predicted calls)) ∧
        (S.Suspended = true →
          .suspendTracking :: new
            = trackingPattern (false :: expectedFlags S.Predicted calls)) := by
  induction calls with
  | nil =>
    intro S S' w w' t h ht
    simp only [TaskOnSet.advanceAll] at h
    injection h with h
    injection h with h1 h2
    subst h1 h2
    refine ⟨rfl, rfl, rfl, ⟨t, ht, by simp [memberCalls], rfl, rfl⟩, [], by simp, ?_, ?_⟩
    · intro _
      rfl
    · intro _
      rfl
  | cons call rest ih =>
    intro S S' w w' t h ht
    simp only [TaskOnSet.advanceAll] at h
    cases h1 : TaskOnSet.advance w S call.1 call.2.1 call.2.2 with
    | error e => simp only [h1] at h; cases h
    | ok r =>
      obtain ⟨S1, w1⟩ := r
      simp only [h1] at h
      obtain ⟨hThis, hPred, hTasks, hSusp, hCalls, t1, ht1, hidx, htot, hcomp⟩ :=
        taskOnSet_advance_cell h1 ht
      obtain ⟨hThis', hPred', hTasks', ⟨t', ht', hidx', htot', hcomp'⟩, new, hnew, hA, hB⟩ :=
        ih S1 S' w1 w' t1 h (by rw [hThis]; exact ht1)
      rw [hThis] at hThis' ht'
      rw [hPred] at hPred' hidx' hA hB
      refine ⟨hThis', hPred', hTasks'.trans hTasks, ⟨t', ht', ?_, htot'.trans htot,
        hcomp'.trans hcomp⟩, ?_⟩
      · rw [hidx', hidx, memberCalls_cons]
        split <;> push_cast <;> omega
      · have hflags : expectedFlags S.Predicted (call :: rest)
            = decide (call.1 ∈ S.Predicted) :: expectedFlags S.Predicted rest := rfl
        by_cases he : call.1 ∈ S.Predicted
        · have hS1 : S1.Suspended = false := by simp [hSusp, he]
          have hnewA := hA hS1
          rw [if_pos he] at hCalls
          rw [hflags, decide_eq_true he]
          cases hs : S.Suspended with
          | false =>
            rw [hs] at hCalls
            simp only [Bool.false_eq_true, if_false, List.append_nil] at hCalls
            refine ⟨new, by rw [hnew, hCalls], ?_, ?_⟩
            · intro _
              rw [trackingPattern_true_cons]
              exact hnewA
            · intro hc
              cases hc
          | true =>
            rw [hs] at hCalls
            simp only [if_true] at hCalls
            refine ⟨.resumeTracking :: new, by rw [hnew, hCalls]; simp, ?_, ?_⟩
            · intro hc
              cases hc
            · intro _
              rw [trackingPattern_false_true_cons, hnewA]
        · have hS1 : S1.Suspended = true := by simp [hSusp, he]
          have hnewB := hB hS1
          rw [if_neg he] at hCalls
          rw [hflags, decide_eq_false he]
          cases hs : S.Suspended with
          | false =>
            rw [hs] at hCalls
            simp only [Bool.false_eq_true, if_false] at hCalls
            refine ⟨.suspendTracking :: new, by rw [hnew, hCalls]; simp, ?_, ?_⟩
            · intro _
              exact hnewB
            · intro hc
              cases hc
          | true =>
            rw [hs] at hCalls
            simp only [if_true, List.append_nil] at hCalls
            refine ⟨new, by rw [hnew, hCalls], ?_, ?_⟩
            · intro hc
              cases hc
            · intro _
              rw [trackingPattern_false_false_cons]
              exact hnewB

/-- What a successful sequence of `TaskOnSet::advance` calls does to the suspend
counter and to the notifications, when nothing else touches the counter: the
counter is the value `c` found at construction, plus one exactly when the
object is Suspended; if `c` is zero there is one advancement notification for
each call that presented an expected element, and no other; if not, none. -/
theorem taskOnSet_advanceAll_counter {V : Type} [DecidableEq V]
    (calls : List (V × String × Bool)) :
    ∀ (S S' : TaskOnSet V) (w w' : World) (t : Task) (c : Nat),
      TaskOnSet.advanceAll w S calls = .ok (S', w') → w.Heap[S.This]? = some t →
      w.Stack.SuspendRequests = c + (if S.Suspended then 1 else 0) → c + 1 < 2 ^ 32 →
      w'.Stack.SuspendRequests = c + (if S'.Suspended then 1 else 0) ∧
      (0 < c → w'.Log = w.Log) ∧
      (c = 0 → ∃ suffix, w'.Log = w.Log ++ suffix ∧
        suffix.length = memberCalls S.Predicted calls ∧
        ∀ n ∈ suffix, n.advances S.This = true ∧ n.Tasks = w.Stack.Tasks) := by
  induction calls with
  | nil =>
    intro S S' w w' t c h _ hc _
    simp only [TaskOnSet.advanceAll] at h
    injection h with h
    injection h with h1 h2
    subst h1 h2
    exact ⟨hc, fun _ => rfl, fun _ => ⟨[], by simp, by simp [memberCalls], by simp⟩⟩
  | cons call rest ih =>
    intro S S' w w' t c h ht hc hlt
    simp only [TaskOnSet.advanceAll] at h
    cases h1 : TaskOnSet.advance w S call.1 call.2.1 call.2.2 with
    | error e => simp only [h1] at h; cases h
    | ok r =>
      obtain ⟨S1, w1⟩ := r
      simp only [h1] at h
      obtain ⟨hThis, hPred, hTasks, _, _, t1, ht1, _, _, _⟩ := taskOnSet_advance_cell h1 ht
      obtain ⟨hc1, hlogA, hlogB⟩ := taskOnSet_advance_counter h1 ht hc hlt
      obtain ⟨hc', hpos', hzero'⟩ := ih S1 S' w1 w' t1 c h (by rw [hThis]; exact ht1) hc1 hlt
      refine ⟨hc', ?_, ?_⟩
      · intro hpos
        rw [hpos' hpos, hlogB (Or.inl hpos)]
      · intro hz
        obtain ⟨suffix, hsuf, hlen, hall⟩ := hzero' hz
        rw [hThis, hTasks] at hall
        rw [hPred] at hlen
        by_cases he : call.1 ∈ S.Predicted
        · refine ⟨⟨.TaskAdvancement S.This t.StepName, w.Stack.Tasks⟩ :: suffix, ?_, ?_, ?_⟩
          · rw [hsuf, hlogA hz he]
            simp
          · rw [memberCalls_cons, if_pos he, List.length_cons, hlen]
            omega
          · intro n hn
            rw [List.mem_cons] at hn
            rcases hn with hn | hn
            · subst hn
              exact ⟨by simp [Notification.advances], rfl⟩
            · exact hall n hn
        · refine ⟨suffix, ?_, ?_, hall⟩
          · rw [hsuf, hlogB (Or.inr he)]
          · rw [memberCalls_cons, if_neg he, hlen]
            omega

/-- A sequence of `TaskOnSet::advance` calls succeeds when nothing else touches
the suspend counter and the calls that present an expected element fit in the
total of the base Task. -/
theorem taskOnSet_advanceAll_succeeds {V : Type} [DecidableEq V]
    (calls : List (V × String × Bool)) :
    ∀ (S : TaskOnSet V) (w : World) (t : Task) (c : Nat),
      w.Heap[S.This]? = some t →
      w.Stack.SuspendRequests = c + (if S.Suspended then 1 else 0) → c + 1 < 2 ^ 32 →
      (∀ Total, t.TotalSteps = some Total →
        t.StepIndex + memberCalls S.Predicted calls < Total) →
      ∃ S' w', TaskOnSet.advanceAll w S calls = .ok (S', w') := by
  induction calls with
  | nil =>
    intro S w t c _ _ _ _
    exact ⟨S, w, rfl⟩
  | cons call rest ih =>
    intro S w t c ht hc hlt hb
    have hmem := memberCalls_cons S.Predicted call rest
    obtain ⟨S1, w1, h1⟩ := taskOnSet_advance_succeeds w S call.1 call.2.1 call.2.2 ht hc
      (by
        intro he Total htot
        have := hb Total htot
        rw [hmem, if_pos he] at this
        push_cast at this
        have hnn : (0 : Int) ≤ (memberCalls S.Predicted rest : Int) := Int.natCast_nonneg _
        omega)
    obtain ⟨hThis, hPred, _, _, _, t1, ht1, hidx, htot1, _⟩ := taskOnSet_advance_cell h1 ht
    obtain ⟨hc1, _, _⟩ := taskOnSet_advance_counter h1 ht hc hlt
    obtain ⟨S', w', h'⟩ := ih S1 w1 t1 c (by rw [hThis]; exact ht1) hc1 hlt
      (by
        intro Total htot
        rw [htot1] at htot
        have := hb Total htot
        rw [hmem] at this
        rw [hidx, hPred]
        split at this <;> rename_i he <;> simp only [he, if_true, if_false] <;>
          push_cast at this ⊢ <;> omega)
    exact ⟨S', w', by simp only [TaskOnSet.advanceAll, h1]; exact h'⟩
theorem collect_loop {V : Type} [DecidableEq V] (es : List V) :
    ∀ (acc : List V) (cnt : Nat), cnt < 2 ^ 32 →
      es.foldl
          (fun (acc : List V × Nat) Element => (acc.1.insert Element, (acc.2 + 1) % 2 ^ 32))
          (acc, cnt)
        = (es.foldl (fun s e => s.insert e) acc, (cnt + es.length) % 2 ^ 32) := by
  induction es with
  | nil =>
    intro acc cnt h
    simp only [List.foldl_nil, List.length_nil, Nat.add_zero]
    rw [Nat.mod_eq_of_lt h]
  | cons e rest ih =>
    intro acc cnt _
    rw [List.foldl_cons, List.foldl_cons, ih _ _ (Nat.mod_lt _ (by decide)), Nat.mod_add_mod,
      List.length_cons]
    congr 2
    omega

theorem collect_eq {V : Type} [DecidableEq V] (es : List V) :
    TaskOnSet.collect es
      = (es.foldl (fun s e => s.insert e) [], es.length % 2 ^ 32) := by
  unfold TaskOnSet.collect
  rw [collect_loop es [] 0 (by decide), Nat.zero_add]

theorem mem_foldl_insert {V : Type} [DecidableEq V] (es : List V) :
    ∀ (acc : List V) (x : V),
      x ∈ es.foldl (fun s e => s.insert e) acc ↔ x ∈ acc ∨ x ∈ es := by
  induction es with
  | nil => intro acc x; simp
  | cons e rest ih =>
    intro acc x
    rw [List.foldl_cons, ih, List.mem_insert_iff, List.mem_cons]
    constructor
    · rintro ((h | h) | h)
      · exact Or.inr (Or.inl h)
      · exact Or.inl h
      · exact Or.inr (Or.inr h)
    · rintro (h | h | h)
      · exact Or.inl (Or.inr h)
      · exact Or.inl (Or.inl h)
      · exact Or.inr h

theorem nodup_foldl_insert {V : Type} [DecidableEq V] (es : List V) :
    ∀ acc : List V, acc.Nodup → (es.foldl (fun s e => s.insert e) acc).Nodup := by
  induction es with
  | nil => intro acc h; exact h
  | cons e rest ih =>
    intro acc h
    rw [List.foldl_cons]
    exact ih _ (h.insert)

/-- The set built from a range is as large as the range exactly when the range
has no repetition (and shares nothing with what the set already holds). -/
theorem length_foldl_insert {V : Type} [DecidableEq V] (es : List V) :
    ∀ acc : List V,
      (es.foldl (fun s e => s.insert e) acc).length ≤ acc.length + es.length ∧
      ((es.foldl (fun s e => s.insert e) acc).length = acc.length + es.length ↔
        es.Nodup ∧ ∀ x ∈ es, x ∉ acc) := by
  induction es with
  | nil => intro acc; simp
  | cons e rest ih =>
    intro acc
    rw [List.foldl_cons, List.length_cons]
    obtain ⟨hle, hiff⟩ := ih (List.insert e acc)
    by_cases he : e ∈ acc
    · rw [List.insert_of_mem he] at hle hiff ⊢
      refine ⟨by omega, ?_⟩
      constructor
      · intro h
        omega
      · rintro ⟨_, h⟩
        exact absurd he (h e (List.mem_cons_self _ _))
    · rw [List.insert_of_not_mem he] at hle hiff ⊢
      rw [List.length_cons] at hle hiff
      refine ⟨by omega, ?_⟩
      rw [show acc.length + (rest.length + 1) = acc.length + 1 + rest.length by omega, hiff,
        List.nodup_cons]
      constructor
      · rintro ⟨hnd, hall⟩
        refine ⟨⟨?_, hnd⟩, ?_⟩
        · intro hmem
          exact hall e hmem (List.mem_cons_self _ _)
        · intro x hx
          rw [List.mem_cons] at hx
          rcases hx with hx | hx
          · rw [hx]
            exact he
          · intro hacc
            exact hall x hx (List.mem_cons_of_mem _ hacc)
      · rintro ⟨⟨hne, hnd⟩, hall⟩
        refine ⟨hnd, ?_⟩
        intro x hx hmem
        rw [List.mem_cons] at hmem
        rcases hmem with hmem | hmem
        · rw [hmem] at hx
          exact hne hx
        · exact hall x (List.mem_cons_of_mem _ hx) hmem

theorem foldl_insert_replicate {V : Type} [DecidableEq V] (a : V) (n : Nat) :
    ∀ acc : List V,
      (List.replicate (n + 1) a).foldl (fun s e => s.insert e) acc = List.insert a acc := by
  induction n with
  | zero => intro acc; rfl
  | succ n ih =>
    intro acc
    rw [List.replicate_succ, List.foldl_cons, ih]
    exact List.insert_of_mem (List.mem_insert_iff.mpr (Or.inl rfl))

/-- The constructor of `Task` succeeds on a suspended stack, and on a
non-suspended one whose top, if any, is an existing object; the suspend counter
is unchanged, and the new object is pushed exactly when the stack is not
suspended. -/
theorem create_succeeds (w : World) (tot : Option Int) (name : String)
    (hvalid : w.Stack.SuspendRequests = 0 →
      ∀ B, w.Stack.Tasks.getLast? = some B → B < w.Heap.length) :
    ∃ w1, Task.create w tot name = .ok (w.Heap.length, w1) := by
  have hnewcell : (w.Heap ++ [({ TotalSteps := tot, TaskName := name } : Task)])[w.Heap.length]?
      = some { TotalSteps := tot, TaskName := name } := List.getElem?_concat_length _ _
  rcases Nat.eq_zero_or_pos w.Stack.SuspendRequests with hz | hp
  · cases hl : w.Stack.Tasks.getLast? with
    | none =>
      have hreg := registerTask_empty
        (w := { w with Heap := w.Heap ++ [{ TotalSteps := tot, TaskName := name }] })
        w.Heap.length hz hl
      exact ⟨_, by simp only [Task.create, hreg]; rfl⟩
    | some B =>
      have hBlt : B < w.Heap.length := hvalid hz B hl
      have hb1 : (w.Heap ++ [({ TotalSteps := tot, TaskName := name } : Task)])[B]?
          = some w.Heap[B] := by
        rw [List.getElem?_append_left hBlt]
        exact List.getElem?_eq_getElem hBlt
      have hreg := registerTask_nested
        (w := { w with Heap := w.Heap ++ [{ TotalSteps := tot, TaskName := name }] })
        (T := w.Heap.length) (B := B) hz hl hnewcell hb1 rfl
      exact ⟨_, by simp only [Task.create, hreg]; rfl⟩
  · have hreg : TaskStack.registerTask
        { w with Heap := w.Heap ++ [{ TotalSteps := tot, TaskName := name }] } w.Heap.length
        = .ok { w with Heap := w.Heap ++ [{ TotalSteps := tot, TaskName := name }] } := by
      simp [TaskStack.registerTask, isSuspended_of_pos hp]
    exact ⟨_, by simp only [Task.create, hreg]; rfl⟩

/-- What the constructor of `Task` does to the stack. -/
theorem create_stack {w w1 : World} {tot : Option Int} {name : String} {id : TaskId}
    (h : Task.create w tot name = .ok (id, w1)) :
    w1.Stack.SuspendRequests = w.Stack.SuspendRequests ∧
    (w.Stack.SuspendRequests = 0 → w1.Stack.Tasks = w.Stack.Tasks ++ [id]) ∧
    (0 < w.Stack.SuspendRequests → w1.Stack.Tasks = w.Stack.Tasks ∧ w1.Log = w.Log) := by
  obtain ⟨_, hr⟩ := create_ok_inv h
  rcases registerTask_ok_inv hr with ⟨hs, rfl⟩ | ⟨hs, _, rfl⟩ | ⟨hs, B, t, b, _, _, _, _, rfl⟩
  · refine ⟨rfl, ?_, fun _ => ⟨rfl, rfl⟩⟩
    intro hz
    rw [show ({ w with Heap := w.Heap ++ [{ TotalSteps := tot, TaskName := name }] } :
      World).Stack = w.Stack from rfl, isSuspended_of_zero hz] at hs
    cases hs
  · refine ⟨rfl, fun _ => rfl, ?_⟩
    intro hp
    rw [show ({ w with Heap := w.Heap ++ [{ TotalSteps := tot, TaskName := name }] } :
      World).Stack = w.Stack from rfl, isSuspended_of_pos hp] at hs
    cases hs
  · refine ⟨rfl, fun _ => rfl, ?_⟩
    intro hp
    rw [show ({ w with Heap := w.Heap ++ [{ TotalSteps := tot, TaskName := name }] } :
      World).Stack = w.Stack from rfl, isSuspended_of_pos hp] at hs
    cases hs
/-- The constructor of `TaskOnSet`, once the base `Task` is built. -/
theorem taskOnSet_create_eq {V : Type} [DecidableEq V] {w w0 : World} {T : TaskId} {t : Task}
    (elems : List V) {name : String} (hc : Task.create w none name = .ok (T, w0))
    (ht : w0.Heap[T]? = some t) :
    TaskOnSet.create w elems name
      = if ((TaskOnSet.collect elems).1.length : Int) = ((TaskOnSet.collect elems).2 : Int) then
          .ok ({ This := T, Predicted := (TaskOnSet.collect elems).1 },
               w0.setTask T
                 { t with TotalSteps := some ((TaskOnSet.collect elems).1.length : Int) })
        else .error .totalStepsMismatch := by
  unfold TaskOnSet.create
  simp only [hc, ht]

/-- The shape of a successful construction of a `TaskOnSet`. -/
theorem taskOnSet_create_fresh {V : Type} [DecidableEq V] {w w1 : World} {elems : List V}
    {name : String} {S : TaskOnSet V} (h : TaskOnSet.create w elems name = .ok (S, w1)) :
    S.Suspended = false ∧ S.TrackingCalls = [] ∧ S.This = w.Heap.length ∧
    S.Predicted = (TaskOnSet.collect elems).1 ∧
    ((TaskOnSet.collect elems).1.length : Int) = ((TaskOnSet.collect elems).2 : Int) ∧
    (∃ t, w1.Heap[S.This]? = some t ∧ t.StepIndex = -1 ∧
      t.TotalSteps = some (S.Predicted.length : Int) ∧ t.Completed = false) ∧
    w1.Stack.SuspendRequests = w.Stack.SuspendRequests ∧
    (w.Stack.SuspendRequests = 0 → w1.Stack.Tasks = w.Stack.Tasks ++ [S.This]) ∧
    (0 < w.Stack.SuspendRequests → w1.Stack.Tasks = w.Stack.Tasks ∧ w1.Log = w.Log) := by
  cases hc : Task.create w none name with
  | error e =>
    unfold TaskOnSet.create at h
    simp only [hc] at h
    cases h
  | ok r =>
    obtain ⟨T, w0⟩ := r
    obtain ⟨t, ht, hidx, _, _, hcomp⟩ := create_fresh hc
    obtain ⟨hT, _⟩ := create_ok_inv hc
    obtain ⟨hcnt, hpush, hsame⟩ := create_stack hc
    rw [taskOnSet_create_eq elems hc ht] at h
    split at h
    · next heq =>
      injection h with h
      injection h with h1 h2
      subst h1 h2
      refine ⟨rfl, rfl, hT, rfl, heq,
        ⟨{ t with TotalSteps := some ((TaskOnSet.collect elems).1.length : Int) }, ?_, hidx,
          rfl, hcomp⟩, hcnt, hpush, hsame⟩
      simpa using getElem?_set_self_of_some
        { t with TotalSteps := some ((TaskOnSet.collect elems).1.length : Int) } ht
    · cases h

theorem collect_length_eq_iff {V : Type} [DecidableEq V] (elems : List V)
    (hlen : elems.length < 2 ^ 32) :
    ((TaskOnSet.collect elems).1.length : Int) = ((TaskOnSet.collect elems).2 : Int)
      ↔ elems.Nodup := by
  rw [collect_eq]
  simp only [Nat.mod_eq_of_lt hlen, Nat.cast_inj]
  have h := (length_foldl_insert elems []).2
  simp only [List.length_nil, Nat.zero_add, List.not_mem_nil, not_false_eq_true,
    implies_true, and_true] at h
  exact h

/-- C19 (as stated, refuted). A range of `2^32 + 1` copies of one element is not
pairwise distinct, yet a `TaskOnSet` is constructed from it: the `unsigned`
count of the elements wraps to 1, the size of the set. -/
theorem C19_long_range_with_duplicates_accepted :
    ¬ (List.replicate (2 ^ 32 + 1) "A").Nodup ∧
    ∃ S w1, TaskOnSet.create World.init (List.replicate (2 ^ 32 + 1) "A") "t" = .ok (S, w1) ∧
      S.Predicted = ["A"] ∧ w1.Heap[S.This]? = some { TotalSteps := some 1, TaskName := "t" } := by
  constructor
  · rw [List.nodup_replicate]
    decide
  · have hcollect : TaskOnSet.collect (List.replicate (2 ^ 32 + 1) "A") = (["A"], 1) := by
      rw [collect_eq, foldl_insert_replicate, List.length_replicate]
      rfl
    have hc : Task.create World.init none "t"
        = .ok (0, ⟨[{ TotalSteps := none, TaskName := "t" }], { Tasks := [0] },
            [⟨.NewTask 0, [0]⟩]⟩) := rfl
    have h := taskOnSet_create_eq (List.replicate (2 ^ 32 + 1) "A") hc
      (t := { TotalSteps := none, TaskName := "t" }) rfl
    rw [hcollect] at h
    exact ⟨_, _, h, rfl, rfl⟩

/-- C19 (amended). From a range of fewer than `2^32` elements, on a stack that is
suspended or whose top, if any, is an existing object, a `TaskOnSet` is
constructed exactly when the elements are pairwise distinct, and a range with a
duplicate fails `assert(TotalSteps == Count)`; the object constructed is in
state Tracking, its set holds exactly the elements of the range, and
`totalSteps()` is the size of the set, which is the number of elements
supplied. -/
theorem C19_taskOnSet_needs_distinct_elements {V : Type} [DecidableEq V] (w : World)
    (elems : List V) (name : String) (hlen : elems.length < 2 ^ 32)
    (hvalid : w.Stack.SuspendRequests = 0 →
      ∀ B, w.Stack.Tasks.getLast? = some B → B < w.Heap.length) :
    ((∃ S w1, TaskOnSet.create w elems name = .ok (S, w1)) ↔ elems.Nodup) ∧
    (¬ elems.Nodup → TaskOnSet.create w elems name = .error .totalStepsMismatch) ∧
    (∀ S w1, TaskOnSet.create w elems name = .ok (S, w1) →
      S.Suspended = false ∧ (∀ x, x ∈ S.Predicted ↔ x ∈ elems) ∧ S.Predicted.Nodup ∧
      S.Predicted.length = elems.length ∧
      ∃ t, w1.Heap[S.This]? = some t ∧ t.TotalSteps = some (S.Predicted.length : Int) ∧
        t.TotalSteps = some (elems.length : Int) ∧ t.StepIndex = -1) := by
  obtain ⟨w0, hc⟩ := create_succeeds w none name hvalid
  obtain ⟨t, ht, _⟩ := create_fresh hc
  have heq := taskOnSet_create_eq elems hc ht
  have hiff := collect_length_eq_iff elems hlen
  refine ⟨⟨?_, ?_⟩, ?_, ?_⟩
  · rintro ⟨S, w1, h⟩
    exact hiff.mp (taskOnSet_create_fresh h).2.2.2.2.1
  · intro hnd
    rw [heq, if_pos (hiff.mpr hnd)]
    exact ⟨_, _, rfl⟩
  · intro hnd
    rw [heq, if_neg (fun h => hnd (hiff.mp h))]
  · intro S w1 h
    obtain ⟨hs, _, _, hP, hcl, ⟨t1, ht1, hidx, htot, _⟩, _⟩ := taskOnSet_create_fresh h
    have hnd := hiff.mp hcl
    have hPf : S.Predicted = elems.foldl (fun s e => s.insert e) [] := by
      rw [hP, collect_eq]
    have hlenP : S.Predicted.length = elems.length := by
      rw [hPf]
      have := (length_foldl_insert elems []).2.mpr ⟨hnd, by simp⟩
      simpa using this
    refine ⟨hs, ?_, ?_, hlenP, t1, ht1, htot, by rw [htot, hlenP], hidx⟩
    · intro x
      rw [hPf, mem_foldl_insert]
      simp
    · rw [hPf]
      exact nodup_foldl_insert elems [] List.nodup_nil

/-- C19 (amended) on a fresh thread: the range A, B, C is accepted and the range
A, B, A is refused. -/
theorem C19_taskOnSet_needs_distinct_elements_witness :
    (∃ S w1, TaskOnSet.create World.init ["A", "B", "C"] "t" = .ok (S, w1)) ∧
    TaskOnSet.create World.init ["A", "B", "A"] "t" = .error .totalStepsMismatch :=
  ⟨(C19_taskOnSet_needs_distinct_elements World.init ["A", "B", "C"] "t" (by decide)
      (by intro _ B hB; cases hB)).1.2 (by decide),
   (C19_taskOnSet_needs_distinct_elements World.init ["A", "B", "A"] "t" (by decide)
      (by intro _ B hB; cases hB)).2.1 (by decide)⟩
/-- C16. A `TaskOnSet` is constructed in state Tracking. For an expected element,
`advance` succeeds exactly when the resumption (made only if the object was
Suspended) and then the base `Task::advance` succeed; the object is then
Tracking and has called `resumeTracking` once if it was Suspended and not at
all otherwise. For an element that is not expected, `advance` always succeeds,
the object is then Suspended, it has called `suspendTracking` once if it was
Tracking and not at all otherwise, and no Task object, notification or element
of `Tasks` has changed. Hence after any sequence of successful calls on a new
`TaskOnSet`, `stepIndex()` is `-1` plus the number of calls that presented an
expected element. -/
theorem C16_taskOnSet_advance_state_machine {V : Type} [DecidableEq V] :
    (∀ (w w1 : World) (elems : List V) (name : String) (S : TaskOnSet V),
      TaskOnSet.create w elems name = .ok (S, w1) → S.Suspended = false) ∧
    (∀ (w : World) (S : TaskOnSet V) (e : V) (n : String) (s : Bool), e ∈ S.Predicted →
      ((∃ r, TaskOnSet.advance w S e n s = .ok r) ↔
        ∃ w1, (if S.Suspended then TaskStack.resumeTracking w = .ok w1 else w1 = w) ∧
          ∃ w2, Task.advance w1 S.This n s = .ok w2) ∧
      ∀ S' w', TaskOnSet.advance w S e n s = .ok (S', w') →
        S'.Suspended = false ∧
        S'.TrackingCalls
          = S.TrackingCalls ++ (if S.Suspended then [.resumeTracking] else []) ∧
        S'.This = S.This ∧ S'.Predicted = S.Predicted ∧
        ∃ w1, (if S.Suspended then TaskStack.resumeTracking w = .ok w1 else w1 = w) ∧
          Task.advance w1 S.This n s = .ok w') ∧
    (∀ (w : World) (S : TaskOnSet V) (e : V) (n : String) (s : Bool), e ∉ S.Predicted →
      ∃ S' w', TaskOnSet.advance w S e n s = .ok (S', w') ∧
        S'.Suspended = true ∧
        S'.TrackingCalls
          = S.TrackingCalls ++ (if S.Suspended then [] else [.suspendTracking]) ∧
        S'.This = S.This ∧ S'.Predicted = S.Predicted ∧
        w' = (if S.Suspended then w else TaskStack.suspendTracking w) ∧
        w'.Heap = w.Heap ∧ w'.Log = w.Log ∧ w'.Stack.Tasks = w.Stack.Tasks) ∧
    (∀ (w w1 w' : World) (elems : List V) (name : String) (S S' : TaskOnSet V)
        (calls : List (V × String × Bool)),
      TaskOnSet.create w elems name = .ok (S, w1) →
      TaskOnSet.advanceAll w1 S calls = .ok (S', w') →
      w'.stepIndex S.This = some (-1 + (memberCalls S.Predicted calls : Int))) := by
  refine ⟨?_, ?_, ?_, ?_⟩
  · intro w w1 elems name S h
    exact (taskOnSet_create_fresh h).1
  · intro w S e n s he
    constructor
    · constructor
      · rintro ⟨⟨S', w'⟩, h⟩
        obtain ⟨_, _, _, _, w1, hr, ha⟩ := taskOnSet_advance_expected_inv he h
        exact ⟨w1, hr, w', ha⟩
      · rintro ⟨w1, hr, w2, ha⟩
        obtain ⟨S', h⟩ := taskOnSet_advance_expected_ok w S w1 he hr ha
        exact ⟨_, h⟩
    · intro S' w' h
      obtain ⟨h1, h2, h3, h4, w1, hr, ha⟩ := taskOnSet_advance_expected_inv he h
      exact ⟨h3, h4, h1, h2, w1, hr, ha⟩
  · intro w S e n s he
    have h := taskOnSet_advance_unexpected w S n s he
    cases hs : S.Suspended with
    | true =>
      rw [hs] at h
      simp only [if_true] at h
      exact ⟨S, w, h, hs, by simp, rfl, rfl, by simp, rfl, rfl, rfl⟩
    | false =>
      rw [hs] at h
      simp only [Bool.false_eq_true, if_false] at h
      exact ⟨_, _, h, rfl, by simp, rfl, rfl, by simp, rfl, rfl, rfl⟩
  · intro w w1 w' elems name S S' calls hc hrun
    obtain ⟨_, _, _, _, _, ⟨t, ht, hidx, _, _⟩, _⟩ := taskOnSet_create_fresh hc
    obtain ⟨_, _, _, ⟨t', ht', hidx', _, _⟩, _⟩ := taskOnSet_advanceAll_inv calls S S' w1 w' t hrun ht
    simp only [World.stepIndex, ht', Option.map_some', hidx', hidx]

/-- C16 on the set A, B, C: an unexpected X is absorbed by an object that is
Tracking, and the calls A, X, B leave the step index at 1. -/
theorem C16_taskOnSet_advance_state_machine_witness :
    (∃ S' w', TaskOnSet.advance
        ⟨[{ TotalSteps := some 3, TaskName := "t" }], { Tasks := [0] }, [⟨.NewTask 0, [0]⟩]⟩
        (⟨0, ["C", "B", "A"], false, []⟩ : TaskOnSet String) "X" "" false = .ok (S', w') ∧
      S'.Suspended = true ∧
      S'.TrackingCalls = [] ++ (if false then [] else [.suspendTracking])) ∧
    (⟨[{ StepIndex := 1, TotalSteps := some 3, TaskName := "t", StepName := "b" }],
        { Tasks := [0] },
        [⟨.NewTask 0, [0]⟩, ⟨.TaskAdvancement 0 "", [0]⟩, ⟨.TaskAdvancement 0 "a", [0]⟩]⟩ :
      World).stepIndex 0
      = some (-1 + (memberCalls ["C", "B", "A"]
          [("A", "a", false), ("X", "", false), ("B", "b", false)] : Int)) := by
  constructor
  · obtain ⟨S', w', h, h1, h2, _⟩ := C16_taskOnSet_advance_state_machine.2.2.1
      ⟨[{ TotalSteps := some 3, TaskName := "t" }], { Tasks := [0] }, [⟨.NewTask 0, [0]⟩]⟩
      (⟨0, ["C", "B", "A"], false, []⟩ : TaskOnSet String) "X" "" false (by decide)
    exact ⟨S', w', h, h1, h2⟩
  · exact C16_taskOnSet_advance_state_machine.2.2.2 World.init _ _ ["A", "B", "C"] "t"
      ⟨0, ["C", "B", "A"], false, []⟩ ⟨0, ["C", "B", "A"], false,
        [.suspendTracking, .resumeTracking]⟩
      [("A", "a", false), ("X", "", false), ("B", "b", false)] rfl rfl
/-- When each expected element is presented exactly once, the calls that present
an expected element are as many as the expected elements. -/
theorem memberCalls_of_once {V : Type} [DecidableEq V] {P elems : List V}
    (calls : List (V × String × Bool)) (hnd : elems.Nodup)
    (hP : ∀ x, x ∈ P ↔ x ∈ elems)
    (honce : ∀ e ∈ elems, (calls.map Prod.fst).count e = 1) :
    memberCalls P calls = elems.length := by
  have h1 : memberCalls P calls
      = ((calls.map Prod.fst).filter (fun x => decide (x ∈ elems))).length := by
    unfold memberCalls
    rw [← List.countP_eq_length_filter, List.countP_map]
    congr 1
    funext call
    simp [hP]
  rw [h1]
  apply List.Perm.length_eq
  rw [List.perm_ext_iff_of_nodup _ hnd]
  · intro a
    rw [List.mem_filter, decide_eq_true_eq]
    constructor
    · exact fun h => h.2
    · intro ha
      refine ⟨?_, ha⟩
      rw [← List.count_pos_iff, honce a ha]
      exact Nat.one_pos
  · rw [List.nodup_iff_count_le_one]
    intro a
    by_cases ha : a ∈ elems
    · rw [List.count_filter (by simpa using ha), honce a ha]
    · have hnot : a ∉ (calls.map Prod.fst).filter (fun x => decide (x ∈ elems)) := by
        intro hmem
        rw [List.mem_filter, decide_eq_true_eq] at hmem
        exact ha hmem.2
      rw [List.count_eq_zero_of_not_mem hnot]
      exact Nat.zero_le _

/-- The facts about a new `TaskOnSet` over pairwise distinct elements that the
claims about call sequences start from. -/
theorem taskOnSet_create_distinct {V : Type} [DecidableEq V] {w w1 : World} {elems : List V}
    {name : String} {S : TaskOnSet V} (hnd : elems.Nodup)
    (hc : TaskOnSet.create w elems name = .ok (S, w1)) :
    (∀ x, x ∈ S.Predicted ↔ x ∈ elems) ∧ S.Predicted.length = elems.length := by
  obtain ⟨_, _, _, hP, _⟩ := taskOnSet_create_fresh hc
  have hPf : S.Predicted = elems.foldl (fun s e => s.insert e) [] := by
    rw [hP, collect_eq]
  constructor
  · intro x
    rw [hPf, mem_foldl_insert]
    simp
  · rw [hPf]
    have := (length_foldl_insert elems []).2.mpr ⟨hnd, by simp⟩
    simpa using this

/-- C17. For a `TaskOnSet` over `N` distinct expected elements created on a
non-suspended stack, and every call sequence that presents each expected
element exactly once among any number of unexpected elements: every call
succeeds, exactly `N` notifications are recorded, all of them advancements of
the `TaskOnSet`, the final step index is `N - 1`, and the tracking calls made
are one pair suspend, resume for each maximal run of unexpected elements that is
followed by an expected one (and one more suspend when the sequence ends with an
unexpected element). -/
theorem C17_taskOnSet_expected_once {V : Type} [DecidableEq V] (w w1 : World)
    (elems : List V) (name : String) (S : TaskOnSet V) (calls : List (V × String × Bool))
    (hz : w.Stack.SuspendRequests = 0) (hnd : elems.Nodup)
    (hc : TaskOnSet.create w elems name = .ok (S, w1))
    (honce : ∀ e ∈ elems, (calls.map Prod.fst).count e = 1) :
    ∃ S' w', TaskOnSet.advanceAll w1 S calls = .ok (S', w') ∧
      w'.stepIndex S.This = some ((elems.length : Int) - 1) ∧
      (∃ suffix, w'.Log = w1.Log ++ suffix ∧ suffix.length = elems.length ∧
        ∀ n ∈ suffix, n.advances S.This = true) ∧
      S'.TrackingCalls = trackingPattern (expectedFlags S.Predicted calls) ∧
      S'.TrackingCalls
        = suspendResumePairs (closedRuns true (expectedFlags S.Predicted calls))
          ++ (if (expectedFlags S.Predicted calls).getLast? = some false
              then [.suspendTracking] else []) := by
  obtain ⟨hs, hcalls, _, _, _, ⟨t, ht, hidx, htot, _⟩, hcnt, _⟩ := taskOnSet_create_fresh hc
  obtain ⟨hP, hlenP⟩ := taskOnSet_create_distinct hnd hc
  have hmem := memberCalls_of_once calls hnd hP honce
  have hc0 : w1.Stack.SuspendRequests = 0 + (if S.Suspended then 1 else 0) := by
    rw [hcnt, hz, hs]
    rfl
  obtain ⟨S', w', hrun⟩ := taskOnSet_advanceAll_succeeds calls S w1 t 0 ht hc0 (by decide)
    (by
      intro Total hT
      rw [htot] at hT
      injection hT with hT
      rw [hidx, hmem, ← hT, hlenP]
      omega)
  obtain ⟨_, _, _, ⟨t', ht', hidx', _, _⟩, new, hnew, hA, _⟩ :=
    taskOnSet_advanceAll_inv calls S S' w1 w' t hrun ht
  obtain ⟨_, _, hlog⟩ := taskOnSet_advanceAll_counter calls S S' w1 w' t 0 hrun ht hc0
    (by decide)
  obtain ⟨suffix, hsuf, hlen, hall⟩ := hlog rfl
  have htrack : S'.TrackingCalls = trackingPattern (expectedFlags S.Predicted calls) := by
    rw [hnew, hcalls, hA hs]
    rfl
  refine ⟨S', w', hrun, ?_, ⟨suffix, hsuf, by rw [hlen, hmem], fun n hn => (hall n hn).1⟩,
    htrack, htrack⟩
  simp only [World.stepIndex, ht', Option.map_some', hidx', hidx, hmem]
  rw [Option.some.injEq]
  omega

/-- C17 on the set A, B, C with the calls A, X, X, B, C: three advancement
notifications, final step index 2, and the one pair suspend, resume. -/
theorem C17_taskOnSet_expected_once_witness :
    ∃ S' w', TaskOnSet.advanceAll
        ⟨[{ TotalSteps := some 3, TaskName := "t" }], { Tasks := [0] }, [⟨.NewTask 0, [0]⟩]⟩
        (⟨0, ["C", "B", "A"], false, []⟩ : TaskOnSet String)
        [("A", "a", false), ("X", "", false), ("X", "", false), ("B", "b", false),
          ("C", "c", false)] = .ok (S', w') ∧
      w'.stepIndex 0 = some 2 ∧
      (∃ suffix, w'.Log = [⟨.NewTask 0, [0]⟩] ++ suffix ∧ suffix.length = 3 ∧
        ∀ n ∈ suffix, n.advances 0 = true) ∧
      S'.TrackingCalls = [.suspendTracking, .resumeTracking] := by
  obtain ⟨S', w', h1, h2, h3, h4, _⟩ := C17_taskOnSet_expected_once World.init
    ⟨[{ TotalSteps := some 3, TaskName := "t" }], { Tasks := [0] }, [⟨.NewTask 0, [0]⟩]⟩
    ["A", "B", "C"] "t" (⟨0, ["C", "B", "A"], false, []⟩ : TaskOnSet String)
    [("A", "a", false), ("X", "", false), ("X", "", false), ("B", "b", false),
      ("C", "c", false)] rfl (by decide) (by rfl) (by decide)
  exact ⟨S', w', h1, h2, h3, h4⟩
/-- The destructor of `Task` succeeds on an object that is not completed when
the stack is suspended or the object is its top; the suspend counter is
unchanged. -/
theorem destroy_live {v : World} {T : TaskId} {t : Task} (ht : v.Heap[T]? = some t)
    (hc : t.Completed = false)
    (htop : v.Stack.SuspendRequests = 0 → v.Stack.Tasks.getLast? = some T) :
    ∃ v1, Task.destroy v T = .ok v1 ∧ v1.Stack.SuspendRequests = v.Stack.SuspendRequests := by
  unfold Task.destroy
  rw [complete_of_live ht hc]
  rcases Nat.eq_zero_or_pos v.Stack.SuspendRequests with hz | hp
  · exact ⟨_, unregisterTask_top (by simpa using hz) (by simpa using htop hz), rfl⟩
  · exact ⟨_, unregisterTask_suspended T (by simpa using hp), rfl⟩

/-- C18 (as stated, refuted). A `TaskOnSet` constructed when the suspend counter
is `2^32 - 1` and given an unexpected element wraps the counter to zero; its
destructor then fails `assert(isSuspended())` in `resumeTracking`, so the
counter is not brought back to its value from before the construction. -/
theorem C18_counter_wraps_at_unsigned_max :
    TaskOnSet.create ⟨[], { SuspendRequests := 4294967295 }, []⟩ ["A"] "t"
      = .ok (⟨0, ["A"], false, []⟩,
          ⟨[{ TotalSteps := some 1, TaskName := "t" }], { SuspendRequests := 4294967295 }, []⟩) ∧
    TaskOnSet.advance
        ⟨[{ TotalSteps := some 1, TaskName := "t" }], { SuspendRequests := 4294967295 }, []⟩
        (⟨0, ["A"], false, []⟩ : TaskOnSet String) "X" "" false
      = .ok (⟨0, ["A"], true, [.suspendTracking]⟩,
          ⟨[{ TotalSteps := some 1, TaskName := "t" }], { SuspendRequests := 0 }, []⟩) ∧
    TaskOnSet.destroy
        ⟨[{ TotalSteps := some 1, TaskName := "t" }], { SuspendRequests := 0 }, []⟩
        (⟨0, ["A"], true, [.suspendTracking]⟩ : TaskOnSet String)
      = .error .notSuspended :=
  ⟨by rfl, by rfl, by rfl⟩

/-- C18 (amended). For every `TaskOnSet` constructed while the suspend counter is
below `2^32 - 1`, and every sequence of successful `advance` calls on it (no
other code touching the counter in between), the counter equals its value from
before the construction, plus one if the object is Suspended and plus zero
otherwise; its destruction then succeeds and leaves the counter at the value
from before the construction, also when the last element presented was
unexpected. -/
theorem C18_taskOnSet_restores_counter {V : Type} [DecidableEq V] (w w1 w' : World)
    (elems : List V) (name : String) (S S' : TaskOnSet V) (calls : List (V × String × Bool))
    (hlt : w.Stack.SuspendRequests < 2 ^ 32 - 1)
    (hc : TaskOnSet.create w elems name = .ok (S, w1))
    (hrun : TaskOnSet.advanceAll w1 S calls = .ok (S', w')) :
    w1.Stack.SuspendRequests = w.Stack.SuspendRequests ∧
    w'.Stack.SuspendRequests = w.Stack.SuspendRequests + (if S'.Suspended then 1 else 0) ∧
    ∃ S'' w'', TaskOnSet.destroy w' S' = .ok (S'', w'') ∧
      w''.Stack.SuspendRequests = w.Stack.SuspendRequests := by
  obtain ⟨hs, _, _, _, _, ⟨t, ht, _, _, hcomp⟩, hcnt, hpush, hsame⟩ := taskOnSet_create_fresh hc
  have hc0 : w1.Stack.SuspendRequests
      = w.Stack.SuspendRequests + (if S.Suspended then 1 else 0) := by
    rw [hcnt, hs]
    rfl
  obtain ⟨hThis, _, hTasks, ⟨t', ht', _, _, hcomp'⟩, _⟩ :=
    taskOnSet_advanceAll_inv calls S S' w1 w' t hrun ht
  obtain ⟨hcount, _, _⟩ := taskOnSet_advanceAll_counter calls S S' w1 w' t
    w.Stack.SuspendRequests hrun ht hc0 (by omega)
  refine ⟨hcnt, hcount, ?_⟩
  have htop : w.Stack.SuspendRequests = 0 → w'.Stack.Tasks.getLast? = some S'.This := by
    intro hz
    rw [hTasks, hpush hz, hThis]
    exact List.getLast?_concat _
  have hlive : t'.Completed = false := hcomp'.trans hcomp
  unfold TaskOnSet.destroy
  cases hs' : S'.Suspended with
  | true =>
    rw [hs'] at hcount
    simp only [if_true] at hcount
    have hres : TaskStack.resumeTracking w'
        = .ok { w' with Stack := { w'.Stack with
            SuspendRequests := w'.Stack.SuspendRequests - 1 } } := by
      simp [TaskStack.resumeTracking,
        isSuspended_of_pos (show 0 < w'.Stack.SuspendRequests by omega)]
    obtain ⟨v1, hd, hv1⟩ := destroy_live
      (v := { w' with Stack := { w'.Stack with
            SuspendRequests := w'.Stack.SuspendRequests - 1 } })
      (T := S'.This) (t := t') (by rw [hThis]; exact ht') hlive
      (by
        intro hz
        have hz' : w'.Stack.SuspendRequests - 1 = 0 := hz
        exact htop (by omega))
    simp only [if_true, hres, hd]
    refine ⟨_, _, rfl, ?_⟩
    rw [hv1]
    show w'.Stack.SuspendRequests - 1 = _
    omega
  | false =>
    rw [hs'] at hcount
    simp only [Bool.false_eq_true, if_false, Nat.add_zero] at hcount
    obtain ⟨v1, hd, hv1⟩ := destroy_live (v := w') (T := S'.This) (t := t')
      (by rw [hThis]; exact ht') hlive
      (by
        intro hz
        exact htop (by omega))
    simp only [Bool.false_eq_true, if_false, hd]
    exact ⟨_, _, rfl, by rw [hv1, hcount]⟩

/-- C18 (amended) on a stack suspended once: a `TaskOnSet` over A is given the
unexpected X; the counter is then 2, and its destruction brings it back to 1. -/
theorem C18_taskOnSet_restores_counter_witness :
    (⟨[{ TotalSteps := some 1, TaskName := "t" }], { SuspendRequests := 2 }, []⟩ :
      World).Stack.SuspendRequests = 1 + (if true then 1 else 0) ∧
    ∃ S'' w'', TaskOnSet.destroy
        ⟨[{ TotalSteps := some 1, TaskName := "t" }], { SuspendRequests := 2 }, []⟩
        (⟨0, ["A"], true, [.suspendTracking]⟩ : TaskOnSet String) = .ok (S'', w'') ∧
      w''.Stack.SuspendRequests = 1 :=
  (C18_taskOnSet_restores_counter ⟨[], { SuspendRequests := 1 }, []⟩
    ⟨[{ TotalSteps := some 1, TaskName := "t" }], { SuspendRequests := 1 }, []⟩
    ⟨[{ TotalSteps := some 1, TaskName := "t" }], { SuspendRequests := 2 }, []⟩
    ["A"] "t" ⟨0, ["A"], false, []⟩ ⟨0, ["A"], true, [.suspendTracking]⟩
    [("X", "", false)] (by decide) (by rfl) (by rfl)).2

/-- C20 (as stated, refuted). On a `TaskOnSet` over A and B, presenting A a
second time moves the step index from 0 to 1 and records an advancement
notification; the call that then presents B, the other expected element, fails
the step bound, so B gets no advancement event. -/
theorem C20_duplicate_element_advances :
    TaskOnSet.advanceAll
        ⟨[{ TotalSteps := some 2, TaskName := "t" }], { Tasks := [0] }, [⟨.NewTask 0, [0]⟩]⟩
        (⟨0, ["B", "A"], false, []⟩ : TaskOnSet String) [("A", "first", false)]
      = .ok (⟨0, ["B", "A"], false, []⟩,
          ⟨[{ StepIndex := 0, TotalSteps := some 2, TaskName := "t", StepName := "first" }],
            { Tasks := [0] }, [⟨.NewTask 0, [0]⟩, ⟨.TaskAdvancement 0 "", [0]⟩]⟩) ∧
    TaskOnSet.advance
        ⟨[{ StepIndex := 0, TotalSteps := some 2, TaskName := "t", StepName := "first" }],
          { Tasks := [0] }, [⟨.NewTask 0, [0]⟩, ⟨.TaskAdvancement 0 "", [0]⟩]⟩
        (⟨0, ["B", "A"], false, []⟩ : TaskOnSet String) "A" "again" false
      = .ok (⟨0, ["B", "A"], false, []⟩,
          ⟨[{ StepIndex := 1, TotalSteps := some 2, TaskName := "t", StepName := "again" }],
            { Tasks := [0] },
            [⟨.NewTask 0, [0]⟩, ⟨.TaskAdvancement 0 "", [0]⟩,
              ⟨.TaskAdvancement 0 "first", [0]⟩]⟩) ∧
    TaskOnSet.advance
        ⟨[{ StepIndex := 1, TotalSteps := some 2, TaskName := "t", StepName := "again" }],
          { Tasks := [0] },
          [⟨.NewTask 0, [0]⟩, ⟨.TaskAdvancement 0 "", [0]⟩, ⟨.TaskAdvancement 0 "first", [0]⟩]⟩
        (⟨0, ["B", "A"], false, []⟩ : TaskOnSet String) "B" "second" false
      = .error .stepBound ∧
    TaskOnSet.create World.init ["A", "B"] "t"
      = .ok (⟨0, ["B", "A"], false, []⟩,
          ⟨[{ TotalSteps := some 2, TaskName := "t" }], { Tasks := [0] },
            [⟨.NewTask 0, [0]⟩]⟩) :=
  ⟨by rfl, by rfl, by rfl, by rfl⟩

/-- C20 (amended). A call that presents an element outside the expected set
always succeeds and changes no Task object (so no step index) and records no
notification. A call that presents an expected element, presented before or
not, increments `stepIndex()` when it succeeds. For a `TaskOnSet` over `N`
distinct elements created on a non-suspended stack, every call sequence in
which at most `N` calls present an expected element succeeds, leaves the step
index at `-1` plus the number of those calls, and records exactly one
advancement notification for each of them and no other notification. -/
theorem C20_only_unexpected_elements_are_ignored {V : Type} [DecidableEq V] :
    (∀ (w : World) (S : TaskOnSet V) (e : V) (n : String) (s : Bool), e ∉ S.Predicted →
      ∃ S' w', TaskOnSet.advance w S e n s = .ok (S', w') ∧
        w'.Heap = w.Heap ∧ w'.Log = w.Log) ∧
    (∀ (w w' : World) (S S' : TaskOnSet V) (e : V) (n : String) (s : Bool) (t : Task),
      e ∈ S.Predicted → TaskOnSet.advance w S e n s = .ok (S', w') →
      w.Heap[S.This]? = some t → w'.stepIndex S.This = some (t.StepIndex + 1)) ∧
    (∀ (w w1 : World) (elems : List V) (name : String) (S : TaskOnSet V)
        (calls : List (V × String × Bool)),
      w.Stack.SuspendRequests = 0 → elems.Nodup →
      TaskOnSet.create w elems name = .ok (S, w1) →
      memberCalls S.Predicted calls ≤ elems.length →
      ∃ S' w', TaskOnSet.advanceAll w1 S calls = .ok (S', w') ∧
        w'.stepIndex S.This = some (-1 + (memberCalls S.Predicted calls : Int)) ∧
        ∃ suffix, w'.Log = w1.Log ++ suffix ∧
          suffix.length = memberCalls S.Predicted calls ∧
          ∀ n ∈ suffix, n.advances S.This = true) := by
  refine ⟨?_, ?_, ?_⟩
  · intro w S e n s he
    have h := taskOnSet_advance_unexpected w S n s he
    cases hs : S.Suspended with
    | true =>
      rw [hs] at h
      exact ⟨_, _, h, rfl, rfl⟩
    | false =>
      rw [hs] at h
      exact ⟨_, _, h, rfl, rfl⟩
  · intro w w' S S' e n s t he h ht
    obtain ⟨_, _, _, _, _, t1, ht1, hidx, _, _⟩ := taskOnSet_advance_cell h ht
    simp only [World.stepIndex, ht1, Option.map_some', hidx, if_pos he]
  · intro w w1 elems name S calls hz hnd hc hle
    obtain ⟨hs, _, _, _, _, ⟨t, ht, hidx, htot, _⟩, hcnt, _⟩ := taskOnSet_create_fresh hc
    obtain ⟨_, hlenP⟩ := taskOnSet_create_distinct hnd hc
    have hc0 : w1.Stack.SuspendRequests = 0 + (if S.Suspended then 1 else 0) := by
      rw [hcnt, hz, hs]
      rfl
    obtain ⟨S', w', hrun⟩ := taskOnSet_advanceAll_succeeds calls S w1 t 0 ht hc0 (by decide)
      (by
        intro Total hT
        rw [htot] at hT
        injection hT with hT
        rw [hidx, ← hT, hlenP]
        have : (memberCalls S.Predicted calls : Int) ≤ (elems.length : Int) :=
          Int.ofNat_le.mpr hle
        omega)
    obtain ⟨_, _, _, ⟨t', ht', hidx', _, _⟩, _⟩ :=
      taskOnSet_advanceAll_inv calls S S' w1 w' t hrun ht
    obtain ⟨_, _, hlog⟩ := taskOnSet_advanceAll_counter calls S S' w1 w' t 0 hrun ht hc0
      (by decide)
    obtain ⟨suffix, hsuf, hlen, hall⟩ := hlog rfl
    refine ⟨S', w', hrun, ?_, suffix, hsuf, hlen, fun n hn => (hall n hn).1⟩
    simp only [World.stepIndex, ht', Option.map_some', hidx', hidx]

/-- C20 (amended) on the set A, B: the unexpected X changes nothing, and the
calls A, X, A (two of them expected) succeed with two notifications. -/
theorem C20_only_unexpected_elements_are_ignored_witness :
    ∃ S' w', TaskOnSet.advanceAll
        ⟨[{ TotalSteps := some 2, TaskName := "t" }], { Tasks := [0] }, [⟨.NewTask 0, [0]⟩]⟩
        (⟨0, ["B", "A"], false, []⟩ : TaskOnSet String)
        [("A", "a", false), ("X", "", false), ("A", "again", false)] = .ok (S', w') ∧
      w'.stepIndex 0 = some (-1 + (memberCalls ["B", "A"]
        [("A", "a", false), ("X", "", false), ("A", "again", false)] : Int)) ∧
      ∃ suffix, w'.Log = [⟨.NewTask 0, [0]⟩] ++ suffix ∧
        suffix.length = memberCalls ["B", "A"]
          [("A", "a", false), ("X", "", false), ("A", "again", false)] ∧
        ∀ n ∈ suffix, n.advances 0 = true :=
  C20_only_unexpected_elements_are_ignored.2.2 World.init
    ⟨[{ TotalSteps := some 2, TaskName := "t" }], { Tasks := [0] }, [⟨.NewTask 0, [0]⟩]⟩
    ["A", "B"] "t" (⟨0, ["B", "A"], false, []⟩ : TaskOnSet String)
    [("A", "a", false), ("X", "", false), ("A", "again", false)]
    rfl (by decide) (by rfl) (by decide)
/-- C27 (code defect): with `UseMarkup` set, `printOperand` wraps an immediate
in the register tag, `<reg:VALUE>`, where `printAddress`, `printUImmOperand` and
`printSImmOperand` wrap theirs in `<imm:VALUE>`. The rest of the description
holds: register 0 prints `0`, another register prints `%NAME`, wrapped as
`<reg:%NAME>` with markup, and without markup an immediate prints as its decimal
value alone. -/
theorem C27_immediate_gets_register_tag :
    SystemZInstPrinter.printOperand sampleRegisterName (.Imm 5) true = .ok "<reg:5>" ∧
    SystemZInstPrinter.printUImmOperand 8 5 true = .ok "<imm:5>" ∧
    SystemZInstPrinter.printSImmOperand 8 5 true = .ok "<imm:5>" ∧
    SystemZInstPrinter.printAddress sampleRegisterName 0 5 0 true = "<imm:5>" ∧
    (∀ (name : Nat → String) (v : Int),
      SystemZInstPrinter.printOperand name (.Imm v) true
        = .ok ("<reg:" ++ toString v ++ ">") ∧
      SystemZInstPrinter.printOperand name (.Imm v) false = .ok (toString v)) ∧
    (∀ (name : Nat → String) (m : Bool),
      SystemZInstPrinter.printOperand name (.Reg 0) m = .ok "0") ∧
    (∀ (name : Nat → String) (n : Nat),
      SystemZInstPrinter.printOperand name (.Reg (n + 1)) false
        = .ok ("%" ++ name (n + 1)) ∧
      SystemZInstPrinter.printOperand name (.Reg (n + 1)) true
        = .ok ("<reg:" ++ "%" ++ name (n + 1) ++ ">")) := by
  refine ⟨by rfl, by rfl, by rfl, by rfl, ?_, ?_, ?_⟩
  · intro name v
    constructor
    · simp [SystemZInstPrinter.printOperand]
    · simp [SystemZInstPrinter.printOperand]
  · intro name m
    simp [SystemZInstPrinter.printOperand]
  · intro name n
    constructor
    · simp [SystemZInstPrinter.printOperand]
    · simp [SystemZInstPrinter.printOperand]
theorem completed_setTask (w : World) (T : TaskId) (t1 : Task) (i : TaskId) :
    (w.setTask T t1).completed i
      = if i = T ∧ T < w.Heap.length then some t1.Completed else w.completed i := by
  unfold World.completed
  rw [setTask_Heap, List.getElem?_set]
  by_cases hi : T = i
  · subst hi
    by_cases hlt : T < w.Heap.length
    · simp [hlt]
    · simp [hlt, List.getElem?_eq_none (Nat.le_of_not_lt hlt)]
  · have hi1 : ¬ i = T := fun h => hi h.symm
    simp [hi, hi1]

theorem completed_setTask_same {w : World} {T : TaskId} {t : Task} (t1 : Task)
    (ht : w.Heap[T]? = some t) (hc : t1.Completed = t.Completed) (i : TaskId) :
    (w.setTask T t1).completed i = w.completed i := by
  rw [completed_setTask]
  split
  · next h =>
    obtain ⟨rfl, _⟩ := h
    simp [World.completed, ht, hc]
  · rfl

theorem completed_concat (w : World) (new : Task) (i : TaskId) :
    World.completed { w with Heap := w.Heap ++ [new] } i
      = if i = w.Heap.length then some new.Completed else w.completed i := by
  unfold World.completed
  show ((w.Heap ++ [new])[i]?).map _ = _
  by_cases hi : i < w.Heap.length
  · rw [List.getElem?_append_left hi]
    simp [Nat.ne_of_lt hi]
  · by_cases he : i = w.Heap.length
    · subst he
      simp
    · have hlt : w.Heap.length < i :=
        Nat.lt_of_le_of_ne (Nat.le_of_not_lt hi) (fun h => he h.symm)
      have h1 : (w.Heap ++ [new])[i]? = none := by
        apply List.getElem?_eq_none
        rw [List.length_append, List.length_singleton]
        exact hlt
      have h2 : w.Heap[i]? = none := List.getElem?_eq_none (Nat.le_of_lt hlt)
      simp [h1, h2, he]

/-- The effect of one creation, advance or completion on a stack that is not
suspended. -/
theorem step_live {w w1 : World} {op : Op} (hz : w.Stack.SuspendRequests = 0)
    (hl : op.isLifecycle = true) (h : step w op = .ok w1) :
    w1.Stack.SuspendRequests = 0 ∧
    ((∃ tot name, op = .create tot name ∧ w1.Heap.length = w.Heap.length + 1 ∧
        w1.Stack.Tasks = w.Stack.Tasks ++ [w.Heap.length] ∧
        w1.Log = w.Log ++ [⟨.NewTask w.Heap.length, w.Stack.Tasks ++ [w.Heap.length]⟩] ∧
        ∀ i, w1.completed i = if i = w.Heap.length then some false else w.completed i) ∨
     (∃ T n s t, op = .advance T n s ∧ w.Heap[T]? = some t ∧
        w1.Heap.length = w.Heap.length ∧ w1.Stack.Tasks = w.Stack.Tasks ∧
        w1.Log = w.Log ++ [⟨.TaskAdvancement T t.StepName, w.Stack.Tasks⟩] ∧
        ∀ i, w1.completed i = w.completed i) ∨
     (∃ T, op = .complete T ∧ w.completed T = some true ∧ w1 = w) ∨
     (∃ T, op = .complete T ∧ w.completed T = some false ∧
        w.Stack.Tasks.getLast? = some T ∧ w1.Heap.length = w.Heap.length ∧
        w1.Stack.Tasks = w.Stack.Tasks.dropLast ∧
        w1.Log = w.Log ++ [⟨.TaskCompleted T, w.Stack.Tasks⟩] ∧
        ∀ i, w1.completed i = if i = T then some true else w.completed i)) := by
  cases op with
  | create tot name =>
    simp only [step] at h
    split at h
    · next id w2 hc =>
      injection h with h
      subst h
      obtain ⟨hid, hr⟩ := create_ok_inv hc
      subst hid
      rcases registerTask_ok_inv hr with ⟨hs, _⟩ | ⟨_, _, rfl⟩ | ⟨_, B, t, b, _, _, hb, _, rfl⟩
      · rw [show ({ w with Heap := w.Heap ++ [{ TotalSteps := tot, TaskName := name }] } :
          World).Stack = w.Stack from rfl, isSuspended_of_zero hz] at hs
        cases hs
      · refine ⟨hz, Or.inl ⟨tot, name, rfl, ?_, rfl, rfl, ?_⟩⟩
        · show (w.Heap ++ [_]).length = _
          simp
        · intro i
          exact completed_concat w _ i
      · refine ⟨hz, Or.inl ⟨tot, name, rfl, ?_, rfl, rfl, ?_⟩⟩
        · show ((w.Heap ++ [_]).set B _).length = _
          simp
        · intro i
          have h1 := completed_setTask_same (w := { w with Heap := w.Heap ++
            [{ TotalSteps := tot, TaskName := name }] }) { b with SubtaskCreated := true } hb rfl i
          exact h1.trans (completed_concat w _ i)
    · cases h
  | advance T n s =>
    obtain ⟨t0, ht0, hb, rfl⟩ := advance_ok_inv h
    refine ⟨by simpa using hz, Or.inr (Or.inl ⟨T, n, s, t0, rfl, ht0, ?_, ?_, ?_, ?_⟩)⟩
    · simp
    · simp
    · simp [TaskStack.advanceTask, TaskStack.isSuspended, World.setTask, hz,
        Progress.handleTaskAdvancement]
    · intro i
      have h1 := completed_setTask_same (t0.advanced n s) ht0 rfl i
      rw [← h1]
      simp [World.completed]
  | complete T =>
    obtain ⟨t0, ht0, hcase⟩ := complete_ok_inv h
    rcases hcase with ⟨hc, rfl⟩ | ⟨_, hp, _⟩ | ⟨hc, _, hl1, rfl⟩
    · exact ⟨hz, Or.inr (Or.inr (Or.inl ⟨T, rfl, by simp [World.completed, ht0, hc], rfl⟩))⟩
    · omega
    · refine ⟨hz, Or.inr (Or.inr (Or.inr ⟨T, rfl, by simp [World.completed, ht0, hc], hl1,
        ?_, rfl, rfl, ?_⟩))⟩
      · show (w.Heap.set T _).length = _
        simp
      · intro i
        have hlt : T < w.Heap.length := (List.getElem?_eq_some.mp ht0).1
        have h1 := completed_setTask w T { t0 with Completed := true } i
        simp only [hlt, and_true] at h1
        exact h1
  | setSubtaskCreated T => cases hl
  | suspendTracking => cases hl
  | resumeTracking => cases hl
theorem completed_lt {w : World} {T : TaskId} {b : Bool} (h : w.completed T = some b) :
    T < w.Heap.length := by
  unfold World.completed at h
  cases ht : w.Heap[T]? with
  | none => rw [ht] at h; cases h
  | some t => exact (List.getElem?_eq_some.mp ht).1

theorem stackIsLive_init : stackIsLive World.init := by
  refine ⟨rfl, List.Pairwise.nil, ?_⟩
  intro T
  constructor
  · intro h
    cases h
  · intro h
    have := completed_lt h
    exact absurd this (Nat.not_lt_zero _)

theorem stackIsLive_step (w : World) (op : Op) (w1 : World) (hl : op.isLifecycle = true)
    (hinv : stackIsLive w) (h : step w op = .ok w1) : stackIsLive w1 := by
  obtain ⟨hz, hsorted, hmem⟩ := hinv
  obtain ⟨hz1, hcase⟩ := step_live hz hl h
  rcases hcase with ⟨tot, name, _, _, hT, _, hC⟩ | ⟨T, n, s, t, _, _, _, hT, _, hC⟩ |
    ⟨T, _, _, rfl⟩ | ⟨T, _, hlive, hlast, _, hT, _, hC⟩
  · refine ⟨hz1, ?_, ?_⟩
    · rw [hT, List.pairwise_append]
      refine ⟨hsorted, List.pairwise_singleton _ _, ?_⟩
      intro a ha b hb
      rw [List.mem_singleton] at hb
      rw [hb]
      exact completed_lt ((hmem a).mp ha)
    · intro i
      rw [hT, hC, List.mem_append, List.mem_singleton]
      by_cases hi : i = w.Heap.length
      · simp [hi]
      · simp only [hi, if_false, or_false]
        exact hmem i
  · refine ⟨hz1, by rw [hT]; exact hsorted, ?_⟩
    intro i
    rw [hT, hC]
    exact hmem i
  · exact ⟨hz, hsorted, hmem⟩
  · have hsplit : w.Stack.Tasks.dropLast ++ [T] = w.Stack.Tasks :=
      List.dropLast_append_getLast? T hlast
    have hs2 : (w.Stack.Tasks.dropLast ++ [T]).Pairwise (fun a b => a < b) := by
      rw [hsplit]
      exact hsorted
    rw [List.pairwise_append] at hs2
    obtain ⟨hs3, _, hs4⟩ := hs2
    refine ⟨hz1, by rw [hT]; exact hs3, ?_⟩
    intro i
    rw [hT, hC]
    by_cases hi : i = T
    · subst hi
      simp only [if_true]
      constructor
      · intro hin
        exact absurd (hs4 i hin i (List.mem_singleton_self i)) (Nat.lt_irrefl i)
      · intro hc
        cases hc
    · simp only [hi, if_false]
      rw [← hmem i, ← hsplit, List.mem_append, List.mem_singleton]
      simp [hi]

/-- In a run of creations, advances and completions from a fresh thread the
invariant `stackIsLive` holds at the end. -/
theorem stackIsLive_run (ops : List Op) (w : World) (hops : ∀ op ∈ ops, op.isLifecycle = true)
    (hrun : run World.init ops = .ok w) : stackIsLive w :=
  run_invariant_of (fun op => op.isLifecycle = true) stackIsLive stackIsLive_step ops
    World.init w hops stackIsLive_init hrun

theorem liveTasks_of_stackIsLive {w : World} (h : stackIsLive w) :
    w.Stack.Tasks = w.liveTasks := by
  obtain ⟨_, hsorted, hmem⟩ := h
  have hs2 : w.liveTasks.Pairwise (fun a b => a < b) :=
    List.Pairwise.filter _ (List.pairwise_lt_range _)
  have hperm : w.Stack.Tasks.Perm w.liveTasks := by
    rw [List.perm_ext_iff_of_nodup hsorted.nodup hs2.nodup]
    intro a
    rw [hmem a]
    unfold World.liveTasks
    rw [List.mem_filter, List.mem_range]
    constructor
    · intro hc
      exact ⟨completed_lt hc, by simpa using hc⟩
    · intro hc
      simpa using hc.2
  exact List.eq_of_perm_of_sorted hperm hsorted hs2

/-- C22 (counterexample). A registered Task that completes while its stack is
suspended stays in `Tasks` with `completed() == true`, and a Task created while
the stack is suspended is live but not in `Tasks`. -/
theorem C22_completed_task_stays_when_suspended :
    (∃ w, run World.init completedWhileSuspendedScenario = .ok w ∧
      w.Stack.Tasks = [0] ∧ w.completed 0 = some true) ∧
    (∃ w, run World.init createdWhileSuspendedScenario = .ok w ∧
      w.Stack.Tasks = [] ∧ w.completed 0 = some false) :=
  ⟨⟨_, rfl, rfl, rfl⟩, ⟨_, rfl, rfl, rfl⟩⟩

theorem find_of_not_mem {l : List TaskId} {T : TaskId} (h : T ∉ l) :
    TaskStack.find l T = l.length := by
  induction l with
  | nil => rfl
  | cons x rest ih =>
    have hx : ¬ x = T := fun he => h (he ▸ List.mem_cons_self _ _)
    have hr : T ∉ rest := fun hm => h (List.mem_cons_of_mem _ hm)
    simp [TaskStack.find, hx, ih hr]

theorem find_of_mem {l : List TaskId} {T : TaskId} (h : T ∈ l) :
    TaskStack.find l T < l.length ∧ l[TaskStack.find l T]? = some T ∧
      ∀ j, j < TaskStack.find l T → l[j]? ≠ some T := by
  induction l with
  | nil => cases h
  | cons x rest ih =>
    by_cases hx : x = T
    · subst hx
      simp [TaskStack.find]
    · have hr : T ∈ rest := by
        rcases List.mem_cons.mp h with he | hm
        · exact absurd he.symm hx
        · exact hm
      obtain ⟨h1, h2, h3⟩ := ih hr
      simp only [TaskStack.find, hx, if_false, List.length_cons]
      refine ⟨Nat.succ_lt_succ h1, by simpa using h2, ?_⟩
      intro j hj
      cases j with
      | zero =>
        intro he
        simp at he
        exact hx he
      | succ j =>
        simpa using h3 j (Nat.lt_of_succ_lt_succ hj)

theorem find_of_nodup {l : List TaskId} (hn : l.Nodup) {k : Nat} {T : TaskId}
    (h : l[k]? = some T) : TaskStack.find l T = k := by
  induction l generalizing k with
  | nil => simp at h
  | cons x rest ih =>
    cases k with
    | zero =>
      simp at h
      simp [TaskStack.find, h]
    | succ k =>
      have hr : rest[k]? = some T := by simpa using h
      have hmem : T ∈ rest := List.getElem?_mem hr
      have hnx : x ∉ rest := (List.nodup_cons.mp hn).1
      have hx : ¬ x = T := fun he => hnx (he ▸ hmem)
      simp [TaskStack.find, hx, ih (List.nodup_cons.mp hn).2 hr]

theorem index_of_not_mem {w : World} {T : TaskId} (h : T ∉ w.Stack.Tasks) :
    Task.index w T = .error .notInStack := by
  simp [Task.index, find_of_not_mem h]

theorem index_of_mem {w : World} {T : TaskId} (h : T ∈ w.Stack.Tasks) :
    Task.index w T = .ok (TaskStack.find w.Stack.Tasks T) := by
  have hlt := (find_of_mem h).1
  simp [Task.index, Nat.ne_of_lt hlt]

/-- C25. The method `Task::index` returns the position of the first occurrence
of the Task in `Tasks`, and is a contract violation for a Task that is not in
the sequence (such as one created while the stack was suspended, or one
already unregistered). In a run of strictly nested Tasks with no suspension the
live Task at position `k` from the outermost (counting from 0) has index `k`,
and `Tasks[index()]` is that Task. -/
theorem C25_index_is_first_position (ops : List Op) (w : World)
    (hops : ∀ op ∈ ops, op.isLifecycle = true) (hrun : run World.init ops = .ok w) :
    (∀ (k : Nat) (T : TaskId), w.liveTasks[k]? = some T →
      Task.index w T = .ok k ∧ w.Stack.Tasks[k]? = some T) ∧
    (∀ (v : World) (T : TaskId), T ∈ v.Stack.Tasks →
      ∃ i, Task.index v T = .ok i ∧ v.Stack.Tasks[i]? = some T ∧
        ∀ j, j < i → v.Stack.Tasks[j]? ≠ some T) ∧
    (∀ (v : World) (T : TaskId), T ∉ v.Stack.Tasks →
      Task.index v T = .error .notInStack) ∧
    (∃ v, run World.init createdWhileSuspendedScenario = .ok v ∧
      Task.index v 0 = .error .notInStack) ∧
    (∃ v, run World.init createdAndDestroyedScenario = .ok v ∧
      Task.index v 0 = .error .notInStack) := by
  refine ⟨?_, ?_, ?_, ⟨_, rfl, rfl⟩, ⟨_, rfl, rfl⟩⟩
  · intro k T hk
    have hinv := stackIsLive_run ops w hops hrun
    rw [← liveTasks_of_stackIsLive hinv] at hk
    have hmem : T ∈ w.Stack.Tasks := List.getElem?_mem hk
    refine ⟨?_, hk⟩
    rw [index_of_mem hmem, find_of_nodup hinv.2.1.nodup hk]
  · intro v T hmem
    obtain ⟨_, h2, h3⟩ := find_of_mem hmem
    exact ⟨_, index_of_mem hmem, h2, h3⟩
  · intro v T hmem
    exact index_of_not_mem hmem

/-- C25 on three nested Tasks: the third live Task from the outermost (object
`2`) has index 2. -/
theorem C25_index_is_first_position_witness :
    (∀ op ∈ threeNestedScenario, op.isLifecycle = true) ∧
    ∃ w, run World.init threeNestedScenario = .ok w ∧
      w.liveTasks[2]? = some 2 ∧ Task.index w 2 = .ok 2 ∧ w.Stack.Tasks[2]? = some 2 :=
  ⟨by decide, _, rfl, rfl,
    (C25_index_is_first_position threeNestedScenario _ (by decide) rfl).1 2 2 rfl⟩
/-- One call records at most one notification. A new-task or completion
notification is about the last element of the copy of `Tasks` it carries; an
advancement notification carries `Tasks` as the call found it. -/
theorem step_log_top {w w1 : World} {op : Op} (h : step w op = .ok w1) :
    w1.Log = w.Log ∨
    ∃ n, w1.Log = w.Log ++ [n] ∧
      (n.event.isAdvancement = false → n.Tasks.getLast? = some n.event.task) ∧
      (n.event.isAdvancement = true → n.Tasks = w.Stack.Tasks ∧
        ∃ a b, op = .advance n.event.task a b) := by
  cases op with
  | create tot name =>
    simp only [step] at h
    split at h
    · next id w2 hc =>
      injection h with h
      subst h
      obtain ⟨_, hr⟩ := create_ok_inv hc
      rcases registerTask_ok_inv hr with ⟨_, rfl⟩ | ⟨_, _, rfl⟩ | ⟨_, B, t, b, _, _, _, _, rfl⟩
      · exact Or.inl rfl
      · refine Or.inr ⟨_, rfl, fun _ => ?_, fun hT => by cases hT⟩
        show (w.Stack.Tasks ++ [id]).getLast? = some id
        simp
      · refine Or.inr ⟨_, rfl, fun _ => ?_, fun hT => by cases hT⟩
        show (w.Stack.Tasks ++ [id]).getLast? = some id
        simp
    · cases h
  | advance T n s =>
    obtain ⟨t0, ht0, hb, rfl⟩ := advance_ok_inv h
    unfold TaskStack.advanceTask
    split
    · exact Or.inl rfl
    · exact Or.inr ⟨_, rfl, (fun hT => by cases hT), fun _ => ⟨rfl, n, s, rfl⟩⟩
  | complete T =>
    obtain ⟨t0, ht0, hcase⟩ := complete_ok_inv h
    rcases hcase with ⟨_, rfl⟩ | ⟨_, _, rfl⟩ | ⟨hc, _, hl, rfl⟩
    · exact Or.inl rfl
    · exact Or.inl rfl
    · exact Or.inr ⟨_, rfl, fun _ => hl, fun hT => by cases hT⟩
  | setSubtaskCreated T =>
    simp only [step, Task.setSubtaskCreated] at h
    split at h
    · cases h
    · injection h with h
      subst h
      exact Or.inl rfl
  | suspendTracking =>
    simp only [step] at h
    injection h with h
    subst h
    exact Or.inl rfl
  | resumeTracking =>
    simp only [step, TaskStack.resumeTracking] at h
    split at h
    · injection h with h
      subst h
      exact Or.inl rfl
    · cases h

theorem mem_deliver {P : Progress} {thread : Nat} {log : List Notification} {c : Callback}
    (h : c ∈ P.deliver thread log) :
    ∃ n ∈ log, c.event = n.event ∧ c.Tasks = n.Tasks ∧
      ∃ entry ∈ P.eligible thread, c.Listener = entry.Listener := by
  unfold Progress.deliver at h
  rw [List.mem_flatMap] at h
  obtain ⟨n, hn, hc⟩ := h
  unfold Progress.callbacks at hc
  rw [notify_eq, List.map_map, List.mem_map] at hc
  obtain ⟨entry, he, rfl⟩ := hc
  exact ⟨n, hn, rfl, rfl, entry, he, rfl⟩

/-- C21 (the code at the failing input). With one listener registered, the
call `advance` on a Task that has another Task above it makes the callback
`handleTaskAdvancement` with a Task that is not the last element of `Tasks`
(the stack is `[0, 1]` and the Task passed is `0`). The callbacks
`handleNewTask` and `handleTaskCompleted` do receive the last element, in every
run, for every registry and every thread. -/
theorem C21_advancement_callback_below_top :
    (∃ w, run World.init advanceBelowTopScenario = .ok w ∧
      (oneListener.deliver 0 w.Log).getLast? = some ⟨7, .TaskAdvancement 0 "", [0, 1]⟩ ∧
      Callback.taskIsLast ⟨7, .TaskAdvancement 0 "", [0, 1]⟩ = false) ∧
    (∀ (ops : List Op) (w : World) (P : Progress) (thread : Nat),
      run World.init ops = .ok w →
      ∀ c ∈ P.deliver thread w.Log, c.event.isAdvancement = false → c.taskIsLast = true) := by
  refine ⟨⟨_, rfl, by decide, by decide⟩, ?_⟩
  intro ops w P thread hrun c hc hadv
  have hinv : ∀ n ∈ w.Log, n.event.isAdvancement = false →
      n.Tasks.getLast? = some n.event.task := by
    refine run_invariant
      (fun v => ∀ n ∈ v.Log, n.event.isAdvancement = false →
        n.Tasks.getLast? = some n.event.task) ?_ ops World.init w ?_ hrun
    · intro v op v1 hv hstep
      rcases step_log_top hstep with hlog | ⟨m, hlog, hm, _⟩
      · rw [hlog]
        exact hv
      · intro n hn
        rw [hlog, List.mem_append, List.mem_singleton] at hn
        rcases hn with hn | rfl
        · exact hv n hn
        · exact hm
    · intro n hn
      cases hn
  obtain ⟨n, hn, he, ht, _⟩ := mem_deliver hc
  unfold Callback.taskIsLast
  rw [he, ht]
  rw [he] at hadv
  simpa using hinv n hn hadv
theorem eventsAbout_concat (T : TaskId) (log : List Notification) (n : Notification) :
    eventsAbout T (log ++ [n])
      = eventsAbout T log ++ (if n.event.task = T then [n.event] else []) := by
  unfold eventsAbout
  rw [List.map_append, List.filter_append]
  by_cases h : n.event.task = T
  · simp [h]
  · simp [h]

theorem completed_none_of_ge {w : World} {T : TaskId} (h : w.Heap.length ≤ T) :
    w.completed T = none := by
  unfold World.completed
  rw [List.getElem?_eq_none h]
  rfl

theorem eventsInOrder_init : eventsInOrder World.init := by
  refine ⟨stackIsLive_init, ?_, fun _ _ => rfl⟩
  intro T b h
  have := completed_lt h
  exact absurd this (Nat.not_lt_zero _)

theorem eventsInOrder_step (w : World) (op : Op) (w1 : World) (hl : op.isLifecycle = true)
    (htop : ∀ T n s, op = .advance T n s → w.Stack.Tasks.getLast? = some T)
    (hinv : eventsInOrder w) (h : step w op = .ok w1) : eventsInOrder w1 := by
  obtain ⟨hlive, hord, hnone⟩ := hinv
  have hlive1 := stackIsLive_step w op w1 hl hlive h
  obtain ⟨hz, _, hmem⟩ := hlive
  obtain ⟨_, hcase⟩ := step_live hz hl h
  refine ⟨hlive1, ?_⟩
  rcases hcase with ⟨tot, name, _, _, _, hL, hC⟩ | ⟨T0, n, s, t, hop, _, _, _, hL, hC⟩ |
    ⟨T0, _, _, rfl⟩ | ⟨T0, _, hc0, _, _, _, hL, hC⟩
  · have hnew : w.completed w.Heap.length = none := completed_none_of_ge (Nat.le_refl _)
    constructor
    · intro T b hb
      rw [hC] at hb
      rw [hL, eventsAbout_concat]
      by_cases hT : T = w.Heap.length
      · subst hT
        simp only [if_true] at hb
        injection hb with hb
        subst hb
        rw [hnone _ hnew]
        exact ⟨[], (fun e he => by cases he), by simp [Event.task]⟩
      · simp only [hT, if_false] at hb
        have hT1 : ¬ (Event.NewTask w.Heap.length).task = T := fun he => hT he.symm
        simp only [hT1, if_false, List.append_nil]
        exact hord T b hb
    · intro T hb
      rw [hC] at hb
      rw [hL, eventsAbout_concat]
      by_cases hT : T = w.Heap.length
      · simp [hT] at hb
      · simp only [hT, if_false] at hb
        have hT1 : ¬ (Event.NewTask w.Heap.length).task = T := fun he => hT he.symm
        simp only [hT1, if_false, List.append_nil]
        exact hnone T hb
  · have hlast := htop T0 n s hop
    have hc0 : w.completed T0 = some false :=
      (hmem T0).mp (List.mem_of_getLast?_eq_some hlast)
    constructor
    · intro T b hb
      rw [hC] at hb
      rw [hL, eventsAbout_concat]
      by_cases hT : T = T0
      · subst hT
        rw [hc0] at hb
        injection hb with hb
        subst hb
        obtain ⟨advs, hadvs, he⟩ := hord T false hc0
        refine ⟨advs ++ [.TaskAdvancement T t.StepName], ?_, ?_⟩
        · intro e hin
          rw [List.mem_append, List.mem_singleton] at hin
          rcases hin with hin | rfl
          · exact hadvs e hin
          · exact ⟨rfl, rfl⟩
        · rw [he]
          simp [Event.task]
      · have hT1 : ¬ (Event.TaskAdvancement T0 t.StepName).task = T := fun he => hT he.symm
        simp only [hT1, if_false, List.append_nil]
        exact hord T b hb
    · intro T hb
      rw [hC] at hb
      rw [hL, eventsAbout_concat]
      by_cases hT : T = T0
      · subst hT
        rw [hc0] at hb
        cases hb
      · have hT1 : ¬ (Event.TaskAdvancement T0 t.StepName).task = T := fun he => hT he.symm
        simp only [hT1, if_false, List.append_nil]
        exact hnone T hb
  · exact ⟨hord, hnone⟩
  · constructor
    · intro T b hb
      rw [hC] at hb
      rw [hL, eventsAbout_concat]
      by_cases hT : T = T0
      · subst hT
        simp only [if_true] at hb
        injection hb with hb
        subst hb
        obtain ⟨advs, hadvs, he⟩ := hord T false hc0
        refine ⟨advs, hadvs, ?_⟩
        rw [he]
        simp [Event.task]
      · simp only [hT, if_false] at hb
        have hT1 : ¬ (Event.TaskCompleted T0).task = T := fun he => hT he.symm
        simp only [hT1, if_false, List.append_nil]
        exact hord T b hb
    · intro T hb
      rw [hC] at hb
      rw [hL, eventsAbout_concat]
      by_cases hT : T = T0
      · simp [hT] at hb
      · simp only [hT, if_false] at hb
        have hT1 : ¬ (Event.TaskCompleted T0).task = T := fun he => hT he.symm
        simp only [hT1, if_false, List.append_nil]
        exact hnone T hb

theorem eventsInOrder_run (ops : List Op) :
    ∀ (w w2 : World), (∀ op ∈ ops, op.isLifecycle = true) → advancesOnTop w ops = true →
      eventsInOrder w → run w ops = .ok w2 → eventsInOrder w2 := by
  induction ops with
  | nil =>
    intro w w2 _ _ hP h
    simp only [run] at h
    injection h with h
    exact h ▸ hP
  | cons op rest ih =>
    intro w w2 hQ htop hP h
    simp only [run] at h
    simp only [advancesOnTop, Bool.and_eq_true] at htop
    obtain ⟨htop1, htop2⟩ := htop
    split at h
    · next w1 h1 =>
      rw [h1] at htop2
      refine ih w1 w2 (fun o ho => hQ o (List.mem_cons_of_mem _ ho)) htop2 ?_ h
      refine eventsInOrder_step w op w1 (hQ op (List.mem_cons_self _ _)) ?_ hP h1
      intro T n s hop
      subst hop
      simpa using htop1
    · cases h
theorem filter_listener_unique {l : List RegistryEntry} {entry : RegistryEntry}
    (hn : (l.map (fun e => e.Listener)).Nodup) (he : entry ∈ l) (f : RegistryEntry → Event) (x : Event)
    (hf : ∀ e, f e = x) :
    (l.filter (fun e => decide (e.Listener = entry.Listener))).map f = [x] := by
  induction l with
  | nil => cases he
  | cons e rest ih =>
    rw [List.map_cons, List.nodup_cons] at hn
    obtain ⟨hnot, hrest⟩ := hn
    by_cases hL : e.Listener = entry.Listener
    · have hnone : rest.filter (fun e => decide (e.Listener = entry.Listener)) = [] := by
        rw [List.filter_eq_nil_iff]
        intro a ha hd
        have hd1 : a.Listener = entry.Listener := by simpa using hd
        apply hnot
        rw [hL, ← hd1]
        exact List.mem_map_of_mem _ ha
      rw [List.filter_cons_of_pos (by simpa using hL), hnone]
      simp [hf]
    · have hin : entry ∈ rest := by
        rcases List.mem_cons.mp he with h1 | h1
        · exact absurd (by rw [h1]) hL
        · exact h1
      rw [List.filter_cons_of_neg (by simpa using hL)]
      exact ih hrest hin

/-- A listener registered once and eligible on the thread receives the recorded
events of the thread, each once and in order. -/
theorem received_eq {P : Progress} {thread : Nat} {entry : RegistryEntry}
    (hn : (P.Registry.map (fun e => e.Listener)).Nodup) (he : entry ∈ P.eligible thread)
    (log : List Notification) :
    P.received thread entry.Listener log = log.map (fun n => n.event) := by
  have hsub : ((P.eligible thread).map (fun e => e.Listener)).Nodup :=
    List.Nodup.sublist (List.Sublist.map _ (List.filter_sublist _)) hn
  unfold Progress.received Progress.deliver
  induction log with
  | nil => rfl
  | cons n rest ih =>
    rw [List.flatMap_cons, List.filter_append, List.map_append, ih, List.map_cons]
    have h1 : ((P.callbacks thread n).filter
        (fun c => decide (c.Listener = entry.Listener))).map (fun c => c.event) = [n.event] := by
      unfold Progress.callbacks
      rw [notify_eq, List.map_map, List.filter_map, List.map_map]
      exact filter_listener_unique hsub he _ n.event (fun _ => rfl)
    rw [h1]
    rfl

/-- A listener that is not eligible on the thread receives nothing from it. -/
theorem received_of_not_eligible {P : Progress} {thread : Nat} {L : Nat}
    (h : ∀ entry ∈ P.eligible thread, entry.Listener ≠ L) (log : List Notification) :
    P.received thread L log = [] := by
  unfold Progress.received
  rw [List.map_eq_nil_iff, List.filter_eq_nil_iff]
  intro c hc hd
  obtain ⟨_, _, _, _, entry, he, hL⟩ := mem_deliver hc
  have hd1 : c.Listener = L := by simpa using hd
  exact h entry he (hL ▸ hd1)

/-- C23 (counterexample). A Task that completes while its stack is suspended
has a new-task event and, though completed, no completion event; a Task created
while the stack is suspended and advanced after tracking resumes has an
advancement event and no new-task event before it. -/
theorem C23_events_missing_under_suspension :
    (∃ w, run World.init completedWhileSuspendedScenario = .ok w ∧
      w.completed 0 = some true ∧
      (oneListener.received 0 7 w.Log).filter (fun e => decide (e.task = 0))
        = [.NewTask 0]) ∧
    (∃ w, run World.init advanceUnregisteredScenario = .ok w ∧
      (oneListener.received 0 7 w.Log).filter (fun e => decide (e.task = 0))
        = [.TaskAdvancement 0 ""]) :=
  ⟨⟨_, rfl, rfl, by decide⟩, ⟨_, rfl, by decide⟩⟩

/-- C23 (amended). In every run from a fresh thread made of Task creations,
advances and completions with no suspension, in which `advance` is only called
on the Task on top of the stack, the events about a Task that each eligible
listener (registered once) has received are, in this order: one new-task event,
then advancement events, then one completion event exactly when the Task has
completed. A Task yet to be created has no event. -/
theorem C23_events_in_lifecycle_order (ops : List Op) (w : World) (P : Progress)
    (thread : Nat)
    (hops : ∀ op ∈ ops, op.isLifecycle = true)
    (htop : advancesOnTop World.init ops = true)
    (hrun : run World.init ops = .ok w)
    (hreg : (P.Registry.map (fun e => e.Listener)).Nodup) :
    ∀ entry ∈ P.eligible thread,
      (∀ (T : TaskId) (b : Bool), w.completed T = some b →
        lifecycleOrder T b
          ((P.received thread entry.Listener w.Log).filter (fun e => decide (e.task = T)))) ∧
      (∀ T : TaskId, w.completed T = none →
        (P.received thread entry.Listener w.Log).filter (fun e => decide (e.task = T)) = []) := by
  intro entry he
  obtain ⟨_, hord, hnone⟩ := eventsInOrder_run ops World.init w hops htop eventsInOrder_init hrun
  rw [received_eq hreg he]
  exact ⟨hord, hnone⟩

/-- C23 (amended) on the first five calls of the scenario "build", for the
nested Task (object `1`), which has been created, advanced and destroyed. -/
theorem C23_events_in_lifecycle_order_witness :
    (∀ op ∈ buildScenario.take 5, op.isLifecycle = true) ∧
    advancesOnTop World.init (buildScenario.take 5) = true ∧
    (oneListener.Registry.map (fun e => e.Listener)).Nodup ∧
    ∃ w, run World.init (buildScenario.take 5) = .ok w ∧ w.completed 1 = some true ∧
      lifecycleOrder 1 true
        ((oneListener.received 0 7 w.Log).filter (fun e => decide (e.task = 1))) :=
  ⟨by decide, by decide, by decide, _, rfl, rfl,
    ((C23_events_in_lifecycle_order (buildScenario.take 5) _ oneListener 0 (by decide)
      (by decide) rfl (by decide)) ⟨false, 7⟩ (by decide)).1 1 true rfl⟩
theorem step_log_drop {w w1 : World} {op : Op} (h : step w op = .ok w1) :
    w1.Log = w.Log ++ w1.Log.drop w.Log.length := by
  rcases step_log h with hl | ⟨n, hl, _⟩
  · rw [hl, List.drop_length, List.append_nil]
  · rw [hl, List.drop_left]

theorem deliver_append (P : Progress) (thread : Nat) (a b : List Notification) :
    P.deliver thread (a ++ b) = P.deliver thread a ++ P.deliver thread b := by
  unfold Progress.deliver
  exact List.flatMap_append _ _ _

theorem filter_tagged_same (thread : Nat) (l : List Callback) :
    (l.map (fun c => (thread, c))).filter (fun c => decide (c.1 = thread))
      = l.map (fun c => (thread, c)) := by
  rw [List.filter_eq_self]
  intro a ha
  rw [List.mem_map] at ha
  obtain ⟨c, _, rfl⟩ := ha
  simp

theorem filter_tagged_other {thread other : Nat} (hne : thread ≠ other) (l : List Callback) :
    (l.map (fun c => (thread, c))).filter (fun c => decide (c.1 = other)) = [] := by
  rw [List.filter_eq_nil_iff]
  intro a ha
  rw [List.mem_map] at ha
  obtain ⟨c, _, rfl⟩ := ha
  simpa using hne

theorem exec_inv {p p1 : Process} {onPrimary : Bool} {op : Op}
    (h : p.exec onPrimary op = .ok p1) :
    p1.Report = p.Report ∧ p1.WorkerThread = p.WorkerThread ∧
    ((onPrimary = true ∧ p1.Worker = p.Worker ∧ step p.Primary op = .ok p1.Primary ∧
        p1.Calls = p.Calls ++ p.newCalls p.Report.MainThreadID p.Primary p1.Primary) ∨
     (onPrimary = false ∧ p1.Primary = p.Primary ∧ step p.Worker op = .ok p1.Worker ∧
        p1.Calls = p.Calls ++ p.newCalls p.WorkerThread p.Worker p1.Worker)) := by
  unfold Process.exec at h
  split at h
  · next hp =>
    split at h
    · next w1 hs =>
      injection h with h
      subst h
      exact ⟨rfl, rfl, Or.inl ⟨hp, rfl, hs, rfl⟩⟩
    · cases h
  · next hp =>
    split at h
    · next w1 hs =>
      injection h with h
      subst h
      exact ⟨rfl, rfl, Or.inr ⟨by simpa using hp, rfl, hs, rfl⟩⟩
    · cases h

theorem perThread_exec {p p1 : Process} {onPrimary : Bool} {op : Op}
    (hne : p.WorkerThread ≠ p.Report.MainThreadID) (hinv : p.perThread)
    (h : p.exec onPrimary op = .ok p1) : p1.perThread := by
  obtain ⟨hP, hW, hall⟩ := hinv
  obtain ⟨hR, hT, hcase⟩ := exec_inv h
  unfold Process.perThread
  rw [hR, hT]
  rcases hcase with ⟨_, hw, hs, hc⟩ | ⟨_, hw, hs, hc⟩
  · rw [hc, hw, List.filter_append, List.filter_append, hP, hW]
    unfold Process.newCalls
    rw [filter_tagged_same, filter_tagged_other (fun he => hne he.symm), List.append_nil]
    refine ⟨?_, rfl, ?_⟩
    · conv => rhs; rw [step_log_drop hs, deliver_append, List.map_append]
    · intro c hcm
      rw [List.mem_append] at hcm
      rcases hcm with hcm | hcm
      · exact hall c hcm
      · rw [List.mem_map] at hcm
        obtain ⟨_, _, rfl⟩ := hcm
        exact Or.inl rfl
  · rw [hc, hw, List.filter_append, List.filter_append, hP, hW]
    unfold Process.newCalls
    rw [filter_tagged_same, filter_tagged_other hne, List.append_nil]
    refine ⟨rfl, ?_, ?_⟩
    · conv => rhs; rw [step_log_drop hs, deliver_append, List.map_append]
    · intro c hcm
      rw [List.mem_append] at hcm
      rcases hcm with hcm | hcm
      · exact hall c hcm
      · rw [List.mem_map] at hcm
        obtain ⟨_, _, rfl⟩ := hcm
        exact Or.inr rfl

theorem perThread_schedule (sched : List (Bool × Op)) :
    ∀ (p p2 : Process), p.WorkerThread ≠ p.Report.MainThreadID → p.perThread →
      p.schedule sched = .ok p2 →
      p2.perThread ∧ p2.Report = p.Report ∧ p2.WorkerThread = p.WorkerThread := by
  induction sched with
  | nil =>
    intro p p2 _ hinv h
    simp only [Process.schedule] at h
    injection h with h
    subst h
    exact ⟨hinv, rfl, rfl⟩
  | cons c rest ih =>
    intro p p2 hne hinv h
    simp only [Process.schedule] at h
    split at h
    · next p1 h1 =>
      obtain ⟨hR, hT, _⟩ := exec_inv h1
      have hne1 : p1.WorkerThread ≠ p1.Report.MainThreadID := by rw [hR, hT]; exact hne
      obtain ⟨h2, h3, h4⟩ := ih p1 p2 hne1 (perThread_exec hne hinv h1) h
      exact ⟨h2, h3.trans hR, h4.trans hT⟩
    · cases h
theorem receivedFrom_primary {p : Process} (h : p.perThread) (L : Nat) :
    p.receivedFrom p.Report.MainThreadID L
      = p.Report.received p.Report.MainThreadID L p.Primary.Log := by
  unfold Process.receivedFrom Progress.received
  rw [h.1, List.filter_map, List.map_map]
  rfl

theorem receivedFrom_worker {p : Process} (h : p.perThread) (L : Nat) :
    p.receivedFrom p.WorkerThread L = p.Report.received p.WorkerThread L p.Worker.Log := by
  unfold Process.receivedFrom Progress.received
  rw [h.2.1, List.filter_map, List.map_map]
  rfl

theorem filter_two_tags {a b : Nat} (q : Nat × Callback → Bool) (l : List (Nat × Callback))
    (hall : ∀ c ∈ l, c.1 = a ∨ c.1 = b)
    (hnone : (l.filter (fun c => decide (c.1 = b))).filter q = []) :
    l.filter q = (l.filter (fun c => decide (c.1 = a))).filter q := by
  induction l with
  | nil => rfl
  | cons c rest ih =>
    have hall1 : ∀ c ∈ rest, c.1 = a ∨ c.1 = b := fun d hd => hall d (List.mem_cons_of_mem _ hd)
    by_cases hb : c.1 = b
    · rw [List.filter_cons_of_pos (by simpa using hb)] at hnone
      by_cases hq : q c = true
      · rw [List.filter_cons_of_pos hq] at hnone
        cases hnone
      · rw [List.filter_cons_of_neg hq] at hnone
        rw [List.filter_cons_of_neg hq, ih hall1 hnone]
        by_cases ha : c.1 = a
        · rw [List.filter_cons_of_pos (by simpa using ha), List.filter_cons_of_neg hq]
        · rw [List.filter_cons_of_neg (by simpa using ha)]
    · rw [List.filter_cons_of_neg (by simpa using hb)] at hnone
      have ha : c.1 = a := by
        rcases hall c (List.mem_cons_self _ _) with h1 | h1
        · exact h1
        · exact absurd h1 hb
      rw [List.filter_cons_of_pos (p := fun c : Nat × Callback => decide (c.1 = a))
        (by simpa using ha)]
      by_cases hq : q c = true
      · rw [List.filter_cons_of_pos hq, List.filter_cons_of_pos hq, ih hall1 hnone]
      · rw [List.filter_cons_of_neg hq, List.filter_cons_of_neg hq, ih hall1 hnone]

/-- Each thread's world after an interleaving is the world its own calls, run
alone in their order, lead to. -/
theorem schedule_worlds (sched : List (Bool × Op)) :
    ∀ (p p2 : Process), p.schedule sched = .ok p2 →
      run p.Primary (callsOf true sched) = .ok p2.Primary ∧
      run p.Worker (callsOf false sched) = .ok p2.Worker := by
  induction sched with
  | nil =>
    intro p p2 h
    simp only [Process.schedule] at h
    injection h with h
    subst h
    exact ⟨rfl, rfl⟩
  | cons c rest ih =>
    intro p p2 h
    simp only [Process.schedule] at h
    split at h
    · next p1 h1 =>
      obtain ⟨h2, h3⟩ := ih p1 p2 h
      obtain ⟨_, _, hcase⟩ := exec_inv h1
      rcases hcase with ⟨hc, hw, hs, _⟩ | ⟨hc, hw, hs, _⟩
      · constructor
        · have : callsOf true (c :: rest) = c.2 :: callsOf true rest := by
            simp [callsOf, hc]
          rw [this]
          simp only [run, hs]
          exact h2
        · have : callsOf false (c :: rest) = callsOf false rest := by
            simp [callsOf, hc]
          rw [this, ← hw]
          exact h3
      · constructor
        · have : callsOf true (c :: rest) = callsOf true rest := by
            simp [callsOf, hc]
          rw [this, ← hw]
          exact h2
        · have : callsOf false (c :: rest) = c.2 :: callsOf false rest := by
            simp [callsOf, hc]
          rw [this]
          simp only [run, hs]
          exact h3
    · cases h

theorem eligible_primary (P : Progress) : P.eligible P.MainThreadID = P.Registry := by
  simp [Progress.eligible, Progress.isMainThread]

theorem mem_eligible_other {P : Progress} {thread : Nat} (hne : thread ≠ P.MainThreadID)
    (entry : RegistryEntry) :
    entry ∈ P.eligible thread ↔ entry ∈ P.Registry ∧ entry.AllThreads = true := by
  have h1 : (P.MainThreadID == thread) = false := by
    simpa using fun he : P.MainThreadID = thread => hne he.symm
  simp [Progress.eligible, Progress.isMainThread, h1]
theorem keepsTasks_refl (v : World) : v.keepsTasks v :=
  fun _ t ht => ⟨t, ht, rfl, rfl, rfl⟩

theorem keepsTasks_trans {a b c : World} (h1 : a.keepsTasks b) (h2 : b.keepsTasks c) :
    a.keepsTasks c := by
  intro i t ht
  obtain ⟨t1, ht1, e1, e2, e3⟩ := h1 i t ht
  obtain ⟨t2, ht2, f1, f2, f3⟩ := h2 i t1 ht1
  exact ⟨t2, ht2, f1.trans e1, f2.trans e2, f3.trans e3⟩

theorem create_keeps {w w1 : World} {tot : Option Int} {name : String} {id : TaskId}
    (h : Task.create w tot name = .ok (id, w1)) : w.keepsTasks w1 := by
  obtain ⟨_, hr⟩ := create_ok_inv h
  intro i t ht
  have hlt : i < w.Heap.length := (List.getElem?_eq_some.mp ht).1
  have h0 : (w.Heap ++ [({ TotalSteps := tot, TaskName := name } : Task)])[i]? = some t := by
    rw [List.getElem?_append_left hlt]
    exact ht
  rcases registerTask_cell hr i with hc | ⟨t0, ht0, hc⟩
  · exact ⟨t, hc.trans h0, rfl, rfl, rfl⟩
  · have : t0 = t := by
      have := ht0.symm.trans h0
      injection this
    subst this
    exact ⟨_, hc, rfl, rfl, rfl⟩

/-- The destructor of a live Task on top of the stack, or under suspension:
the stack loses the Task when it is not suspended, the log is untouched when it
is, and every other object is as before. -/
theorem destroy_child {v : World} {T : TaskId} {t : Task} {L : List TaskId}
    (ht : v.Heap[T]? = some t) (hc : t.Completed = false)
    (htop : v.Stack.SuspendRequests = 0 → v.Stack.Tasks = L ++ [T])
    (hsus : 0 < v.Stack.SuspendRequests → v.Stack.Tasks = L) :
    ∃ v1, Task.destroy v T = .ok v1 ∧
      v1.Stack.SuspendRequests = v.Stack.SuspendRequests ∧ v1.Stack.Tasks = L ∧
      (0 < v.Stack.SuspendRequests → v1.Log = v.Log) ∧
      ∀ (i : TaskId) (ti : Task), i ≠ T → v.Heap[i]? = some ti → v1.Heap[i]? = some ti := by
  obtain ⟨v1, h1, h2⟩ := destroy_live ht hc (by
    intro hz
    rw [htop hz]
    simp)
  refine ⟨v1, h1, h2, ?_⟩
  obtain ⟨t0, ht0, hcase⟩ := complete_ok_inv h1
  rcases hcase with ⟨hc0, _⟩ | ⟨_, hp, rfl⟩ | ⟨_, hz, _, rfl⟩
  · rw [ht] at ht0
    injection ht0 with ht0
    rw [← ht0, hc] at hc0
    cases hc0
  · refine ⟨hsus hp, fun _ => rfl, ?_⟩
    intro i ti hi hti
    rw [setTask_Heap, List.getElem?_set_ne (fun he => hi he.symm)]
    exact hti
  · refine ⟨?_, fun hp => ?_, ?_⟩
    · show (v.Stack.Tasks).dropLast = L
      rw [htop hz]
      simp
    · omega
    · intro i ti hi hti
      show (v.Heap.set T _)[i]? = some ti
      rw [List.getElem?_set_ne (fun he => hi he.symm)]
      exact hti

/-- The children of an iteration are created and destroyed without a
violation and leave the stack as they found it; under suspension they leave no
notification. -/
theorem runChildren_spec (c : Children) :
    ∀ v : World,
      (v.Stack.SuspendRequests = 0 →
        ∀ B, v.Stack.Tasks.getLast? = some B → B < v.Heap.length) →
      ∃ v1, runChildren v c = .ok v1 ∧ v1.Stack = v.Stack ∧
        (0 < v.Stack.SuspendRequests → v1.Log = v.Log) ∧ v.keepsTasks v1 := by
  induction c with
  | done =>
    intro v _
    exact ⟨v, rfl, rfl, fun _ => rfl, keepsTasks_refl v⟩
  | node tot name inner next ih1 ih2 =>
    intro v hvalid
    obtain ⟨w1, hc⟩ := create_succeeds v tot name hvalid
    obtain ⟨hcnt, htasks0, htasksP⟩ := create_stack hc
    obtain ⟨t, ht, _, _, _, hlive⟩ := create_fresh hc
    have hk1 := create_keeps hc
    have hvalid1 : w1.Stack.SuspendRequests = 0 →
        ∀ B, w1.Stack.Tasks.getLast? = some B → B < w1.Heap.length := by
      intro hz B hB
      rw [htasks0 (hcnt ▸ hz)] at hB
      simp at hB
      rw [← hB]
      exact (List.getElem?_eq_some.mp ht).1
    obtain ⟨w2, hr1, hs2, hl2, hk2⟩ := ih1 w1 hvalid1
    obtain ⟨t2, ht2, _, _, hlive2⟩ := hk2 _ t ht
    have hcnt2 : w2.Stack.SuspendRequests = v.Stack.SuspendRequests := by rw [hs2, hcnt]
    obtain ⟨w3, hd, hcnt3, htasks3, hl3, hcells3⟩ := destroy_child (L := v.Stack.Tasks) ht2
      (hlive2.trans hlive)
      (by
        intro hz
        rw [hs2]
        exact htasks0 (hcnt2 ▸ hz))
      (by
        intro hp
        rw [hs2]
        exact (htasksP (hcnt2 ▸ hp)).1)
    have hstack3 : w3.Stack = v.Stack := by
      have e1 : w3.Stack.SuspendRequests = v.Stack.SuspendRequests := hcnt3.trans hcnt2
      cases hw3 : w3.Stack with
      | mk a b =>
        cases hv : v.Stack with
        | mk a1 b1 =>
          rw [hw3, hv] at e1
          rw [hw3] at htasks3
          rw [hv] at htasks3
          simp only at e1 htasks3
          rw [e1, htasks3]
    have hk3 : v.keepsTasks w3 := by
      intro i ti hti
      obtain ⟨ta, hta, e1, e2, e3⟩ := keepsTasks_trans hk1 hk2 i ti hti
      have hne : i ≠ v.Heap.length := Nat.ne_of_lt (List.getElem?_eq_some.mp hti).1
      exact ⟨ta, hcells3 i ta hne hta, e1, e2, e3⟩
    have hvalid3 : w3.Stack.SuspendRequests = 0 →
        ∀ B, w3.Stack.Tasks.getLast? = some B → B < w3.Heap.length := by
      intro hz B hB
      rw [hstack3] at hz hB
      have hlt := hvalid hz B hB
      obtain ⟨tb, htb, _⟩ := hk3 B (v.Heap[B]) (List.getElem?_eq_getElem hlt)
      exact (List.getElem?_eq_some.mp htb).1
    obtain ⟨w4, hr4, hs4, hl4, hk4⟩ := ih2 w3 hvalid3
    refine ⟨w4, ?_, hs4.trans hstack3, ?_, keepsTasks_trans hk3 hk4⟩
    · simp only [runChildren, hc, hr1, hd]
      exact hr4
    · intro hp
      have hp1 : 0 < w1.Stack.SuspendRequests := hcnt ▸ hp
      have hp2 : 0 < w2.Stack.SuspendRequests := hcnt2 ▸ hp
      have hp3 : 0 < w3.Stack.SuspendRequests := by rw [hstack3]; exact hp
      rw [hl4 hp3, hl3 hp2, hl2 hp1]
      exact (htasksP hp).2
theorem drive_append {V : Type} [DecidableEq V] (a b : List ((V × String × Bool) × Children)) :
    ∀ (v : World) (S S1 : TaskOnSet V) (v1 : World),
      TaskOnSet.drive v S a = .ok (S1, v1) →
      TaskOnSet.drive v S (a ++ b) = TaskOnSet.drive v1 S1 b := by
  induction a with
  | nil =>
    intro v S S1 v1 h
    simp only [TaskOnSet.drive] at h
    injection h with h
    injection h with h1 h2
    subst h1 h2
    rfl
  | cons it rest ih =>
    intro v S S1 v1 h
    simp only [TaskOnSet.drive, List.cons_append] at h ⊢
    split at h
    · cases h
    · next S2 w2 hadv =>
      split at h
      · cases h
      · next w3 hch =>
        exact ih w3 S2 S1 v1 h

theorem memberCalls_append {V : Type} [DecidableEq V] (Predicted : List V)
    (a b : List (V × String × Bool)) :
    memberCalls Predicted (a ++ b) = memberCalls Predicted a + memberCalls Predicted b := by
  simp [memberCalls, List.countP_append]

/-- The loop over a `TaskOnSet` that is the top of its stack, with the stack
otherwise not suspended, runs without a violation when the elements presented
that are expected fit in the total; it leaves `Tasks` as it was and the base
Task live. -/
theorem drive_spec {V : Type} [DecidableEq V] (its : List ((V × String × Bool) × Children)) :
    ∀ (S : TaskOnSet V) (v : World) (t : Task) (Ts : List TaskId),
      v.Heap[S.This]? = some t → t.Completed = false →
      v.Stack.SuspendRequests = 0 + (if S.Suspended then 1 else 0) →
      v.Stack.Tasks = Ts ++ [S.This] →
      (∀ Total, t.TotalSteps = some Total →
        t.StepIndex + memberCalls S.Predicted (its.map (fun it => it.1)) < Total) →
      ∃ S1 v1 t1, TaskOnSet.drive v S its = .ok (S1, v1) ∧
        S1.This = S.This ∧ S1.Predicted = S.Predicted ∧
        v1.Heap[S.This]? = some t1 ∧ t1.Completed = false ∧ t1.TotalSteps = t.TotalSteps ∧
        t1.StepIndex = t.StepIndex + memberCalls S.Predicted (its.map (fun it => it.1)) ∧
        v1.Stack.SuspendRequests = 0 + (if S1.Suspended then 1 else 0) ∧
        v1.Stack.Tasks = Ts ++ [S.This] := by
  induction its with
  | nil =>
    intro S v t Ts ht hlive hc hT _
    exact ⟨S, v, t, rfl, rfl, rfl, ht, hlive, rfl, by simp [memberCalls], hc, hT⟩
  | cons it rest ih =>
    intro S v t Ts ht hlive hc hT hb
    have hmem : memberCalls S.Predicted ((it :: rest).map (fun it => it.1))
        = (if it.1.1 ∈ S.Predicted then 1 else 0)
          + memberCalls S.Predicted (rest.map (fun it => it.1)) := by
      rw [List.map_cons, memberCalls_cons]
    obtain ⟨S1, w1, h1⟩ := taskOnSet_advance_succeeds v S it.1.1 it.1.2.1 it.1.2.2 ht hc
      (by
        intro he Total htot
        have := hb Total htot
        rw [hmem, if_pos he] at this
        push_cast at this
        have hnn : (0 : Int) ≤ (memberCalls S.Predicted (rest.map (fun it => it.1)) : Int) :=
          Int.natCast_nonneg _
        omega)
    obtain ⟨hThis, hPred, hT1, _, _, t1, ht1, hidx, htot1, hlive1⟩ :=
      taskOnSet_advance_cell h1 ht
    obtain ⟨hc1, _, _⟩ := taskOnSet_advance_counter h1 ht hc (by decide)
    have hvalid1 : w1.Stack.SuspendRequests = 0 →
        ∀ B, w1.Stack.Tasks.getLast? = some B → B < w1.Heap.length := by
      intro _ B hB
      rw [hT1, hT] at hB
      simp at hB
      rw [← hB]
      exact (List.getElem?_eq_some.mp ht1).1
    obtain ⟨w2, hr, hs2, _, hk2⟩ := runChildren_spec it.2 w1 hvalid1
    obtain ⟨t2, ht2, hidx2, htot2, hlive2⟩ := hk2 _ t1 ht1
    obtain ⟨S', v', t', h', e1, e2, e3, e4, e5, e6, e7, e8⟩ := ih S1 w2 t2 Ts
      (by rw [hThis]; exact ht2) (hlive2.trans (hlive1.trans hlive))
      (by rw [hs2]; exact hc1) (by rw [hs2, hT1, hT, hThis])
      (by
        intro Total htot
        rw [htot2, htot1] at htot
        have := hb Total htot
        rw [hmem] at this
        rw [hidx2, hidx, hPred]
        split at this <;> rename_i he <;> simp only [he, if_true, if_false] <;>
          push_cast at this ⊢ <;> omega)
    refine ⟨S', v', t', ?_, e1.trans hThis, e2.trans hPred, by rw [← hThis]; exact e3, e4,
      e5.trans (htot2.trans htot1), ?_, e7, by rw [← hThis]; exact e8⟩
    · simp only [TaskOnSet.drive, h1, hr]
      exact h'
    · rw [e6, hidx2, hidx, hmem, hPred]
      split <;> push_cast <;> omega
/-- C26. A `TaskOnSet` is constructed on a stack that is not suspended and
driven by the loop that, for each element of an input sequence, calls `advance`
and then creates and destroys strictly nested child Tasks. When at most
`totalSteps()` of the calls present an expected element, the loop and the
destruction of the `TaskOnSet` end without a violation, and afterwards `Tasks`
and the suspend counter are as before the construction. In an iteration on an
unexpected element the stack is suspended, and the children created there leave
`Tasks` and the recorded notifications untouched: under suspension each
construction of a Task, and each tree of children as a whole, keeps both. -/
theorem C26_taskOnSet_loop_with_children {V : Type} [DecidableEq V] (w w1 : World)
    (elems : List V) (name : String) (S : TaskOnSet V)
    (its : List ((V × String × Bool) × Children))
    (hz : w.Stack.SuspendRequests = 0)
    (hc : TaskOnSet.create w elems name = .ok (S, w1))
    (hfit : memberCalls S.Predicted (its.map (fun it => it.1)) ≤ S.Predicted.length) :
    (∃ S2 w2 S3 w3, TaskOnSet.drive w1 S its = .ok (S2, w2) ∧
      TaskOnSet.destroy w2 S2 = .ok (S3, w3) ∧
      w3.Stack.Tasks = w.Stack.Tasks ∧
      w3.Stack.SuspendRequests = w.Stack.SuspendRequests) ∧
    (∀ pre it post, its = pre ++ it :: post → it.1.1 ∉ S.Predicted →
      ∃ S1 v1 S2 v2 v3, TaskOnSet.drive w1 S pre = .ok (S1, v1) ∧
        TaskOnSet.advance v1 S1 it.1.1 it.1.2.1 it.1.2.2 = .ok (S2, v2) ∧
        v2.Log = v1.Log ∧ 0 < v2.Stack.SuspendRequests ∧
        runChildren v2 it.2 = .ok v3 ∧ v3.Stack.Tasks = v2.Stack.Tasks ∧ v3.Log = v2.Log) ∧
    (∀ (v : World) (c : Children), 0 < v.Stack.SuspendRequests →
      ∃ v1, runChildren v c = .ok v1 ∧ v1.Stack = v.Stack ∧ v1.Log = v.Log) ∧
    (∀ (v : World) (tot : Option Int) (child : String), 0 < v.Stack.SuspendRequests →
      ∃ v1, Task.create v tot child = .ok (v.Heap.length, v1) ∧
        v1.Stack.Tasks = v.Stack.Tasks ∧ v1.Log = v.Log) := by
  obtain ⟨hs, _, _, _, _, ⟨t, ht, hidx, htot, hcomp⟩, hcnt, hpush, _⟩ := taskOnSet_create_fresh hc
  have hc0 : w1.Stack.SuspendRequests = 0 + (if S.Suspended then 1 else 0) := by
    rw [hcnt, hs, hz]
    rfl
  have hT1 := hpush hz
  have hsusp : ∀ (v : World) (c : Children), 0 < v.Stack.SuspendRequests →
      ∃ v1, runChildren v c = .ok v1 ∧ v1.Stack = v.Stack ∧ v1.Log = v.Log := by
    intro v c hp
    obtain ⟨v1, h1, h2, h3, _⟩ := runChildren_spec c v (by
      intro h0
      omega)
    exact ⟨v1, h1, h2, h3 hp⟩
  refine ⟨?_, ?_, hsusp, ?_⟩
  · obtain ⟨S2, w2, t2, hd, hThis, _, ht2, hlive2, _, _, hcnt2, hT2⟩ :=
      drive_spec its S w1 t w.Stack.Tasks ht hcomp hc0 hT1 (by
        intro Total hT
        rw [htot] at hT
        injection hT with hT
        rw [hidx, ← hT]
        have : (memberCalls S.Predicted (its.map (fun it => it.1)) : Int)
            ≤ (S.Predicted.length : Int) := Int.ofNat_le.mpr hfit
        omega)
    cases hs2 : S2.Suspended with
    | true =>
      rw [hs2] at hcnt2
      simp only [if_true] at hcnt2
      have hres : TaskStack.resumeTracking w2
          = .ok { w2 with Stack := { w2.Stack with
              SuspendRequests := w2.Stack.SuspendRequests - 1 } } := by
        simp [TaskStack.resumeTracking,
          isSuspended_of_pos (show 0 < w2.Stack.SuspendRequests by omega)]
      obtain ⟨v1, hv, hv1, hv2, _⟩ := destroy_child
        (v := { w2 with Stack := { w2.Stack with
              SuspendRequests := w2.Stack.SuspendRequests - 1 } })
        (T := S2.This) (t := t2) (L := w.Stack.Tasks) (by rw [hThis]; exact ht2) hlive2
        (by
          intro _
          rw [hThis]
          exact hT2)
        (by
          intro hp
          have hp1 : 0 < w2.Stack.SuspendRequests - 1 := hp
          omega)
      refine ⟨S2, w2, { S2 with TrackingCalls := S2.TrackingCalls ++ [.resumeTracking] }, v1,
        hd, ?_, hv2, ?_⟩
      · simp only [TaskOnSet.destroy, hs2, if_true, hres, hv]
      · rw [hv1, hz]
        show w2.Stack.SuspendRequests - 1 = 0
        omega
    | false =>
      rw [hs2] at hcnt2
      simp only [Bool.false_eq_true, if_false, Nat.add_zero] at hcnt2
      obtain ⟨v1, hv, hv1, hv2, _⟩ := destroy_child (v := w2) (T := S2.This) (t := t2)
        (L := w.Stack.Tasks) (by rw [hThis]; exact ht2) hlive2
        (by
          intro _
          rw [hThis]
          exact hT2)
        (by
          intro hp
          omega)
      refine ⟨S2, w2, S2, v1, hd, ?_, hv2, ?_⟩
      · simp only [TaskOnSet.destroy, hs2, Bool.false_eq_true, if_false, hv]
      · rw [hv1, hcnt2, hz]
  · intro pre it post hsplit hnot
    have hle : memberCalls S.Predicted (pre.map (fun it => it.1))
        ≤ memberCalls S.Predicted (its.map (fun it => it.1)) := by
      rw [hsplit, List.map_append, memberCalls_append]
      exact Nat.le_add_right _ _
    obtain ⟨S1, v1, t1, hd, hThis, hPred, ht1, _, _, _, hcnt1, _⟩ :=
      drive_spec pre S w1 t w.Stack.Tasks ht hcomp hc0 hT1 (by
        intro Total hT
        rw [htot] at hT
        injection hT with hT
        rw [hidx, ← hT]
        have : (memberCalls S.Predicted (pre.map (fun it => it.1)) : Int)
            ≤ (S.Predicted.length : Int) := Int.ofNat_le.mpr (Nat.le_trans hle hfit)
        omega)
    have hnot1 : it.1.1 ∉ S1.Predicted := by rw [hPred]; exact hnot
    have ht1' : v1.Heap[S1.This]? = some t1 := by rw [hThis]; exact ht1
    obtain ⟨S2, v2, h2⟩ := taskOnSet_advance_succeeds v1 S1 it.1.1 it.1.2.1 it.1.2.2 ht1' hcnt1
      (fun he => absurd he hnot1)
    obtain ⟨_, _, _, hsus2, _⟩ := taskOnSet_advance_cell h2 ht1'
    obtain ⟨hcnt2, _, hlog2⟩ := taskOnSet_advance_counter h2 ht1' hcnt1 (by decide)
    have hpos : 0 < v2.Stack.SuspendRequests := by
      rw [hcnt2, hsus2]
      simp [hnot1]
    obtain ⟨v3, h3, hs3, hl3⟩ := hsusp v2 it.2 hpos
    exact ⟨S1, v1, S2, v2, v3, hd, h2, hlog2 (Or.inr hnot1), hpos, h3, by rw [hs3], hl3⟩
  · intro v tot child hp
    obtain ⟨v1, h1⟩ := create_succeeds v tot child (by
      intro h0
      omega)
    obtain ⟨_, _, h2⟩ := create_stack h1
    exact ⟨v1, h1, (h2 hp).1, (h2 hp).2⟩

/-- C26 on a `TaskOnSet` over the set `1, 2` on a fresh thread, driven over the
elements `1, 9, 2` with children in each iteration. -/
theorem C26_taskOnSet_loop_with_children_witness :
    World.init.Stack.SuspendRequests = 0 ∧
    ∃ (S : TaskOnSet Nat) (w1 : World),
      TaskOnSet.create World.init [1, 2] "set" = .ok (S, w1) ∧
      memberCalls S.Predicted (loopIterations.map (fun it => it.1)) ≤ S.Predicted.length ∧
      ∃ S2 w2 S3 w3, TaskOnSet.drive w1 S loopIterations = .ok (S2, w2) ∧
        TaskOnSet.destroy w2 S2 = .ok (S3, w3) ∧
        w3.Stack.Tasks = World.init.Stack.Tasks ∧
        w3.Stack.SuspendRequests = World.init.Stack.SuspendRequests :=
  ⟨rfl, ⟨0, [2, 1], false, []⟩,
    ⟨[{ TotalSteps := some 2, TaskName := "set" }], { Tasks := [0] }, [⟨.NewTask 0, [0]⟩]⟩,
    by rfl, by decide,
    (C26_taskOnSet_loop_with_children World.init
      ⟨[{ TotalSteps := some 2, TaskName := "set" }], { Tasks := [0] }, [⟨.NewTask 0, [0]⟩]⟩
      [1, 2] "set" ⟨0, [2, 1], false, []⟩ loopIterations rfl (by rfl) (by decide)).1⟩
theorem createCalls_concat (pre : List Op) (op : Op) :
    createCalls (pre ++ [op]) = createCalls pre + (if op.isCreate then 1 else 0) := by
  unfold createCalls
  rw [List.countP_append]
  cases h : op.isCreate <;> simp [h]

theorem expectedEventsFrom_concat (a : List Op) :
    ∀ (pre : List Op) (op : Op),
      expectedEventsFrom pre (a ++ [op])
        = expectedEventsFrom pre a ++ (expectedEvent (pre ++ a) op).toList := by
  induction a with
  | nil =>
    intro pre op
    simp [expectedEventsFrom]
  | cons x rest ih =>
    intro pre op
    show (expectedEvent pre x).toList ++ expectedEventsFrom (pre ++ [x]) (rest ++ [op])
      = ((expectedEvent pre x).toList ++ expectedEventsFrom (pre ++ [x]) rest)
        ++ (expectedEvent (pre ++ x :: rest) op).toList
    rw [ih, List.append_assoc, List.append_assoc, List.singleton_append]

theorem expectedEvents_concat (pre : List Op) (op : Op) :
    expectedEvents (pre ++ [op]) = expectedEvents pre ++ (expectedEvent pre op).toList := by
  unfold expectedEvents
  rw [expectedEventsFrom_concat]
  rfl

theorem callsTracked_init : callsTracked [] World.init := by
  refine ⟨stackIsLive_init, rfl, ?_, ?_, rfl⟩
  · intro T h
    cases h
  · intro T
    have : ¬ T < createCalls [] := Nat.not_lt_zero T
    rw [if_neg this]
    exact completed_none_of_ge (Nat.zero_le T)

theorem callsTracked_step {pre : List Op} {w w1 : World} {op : Op}
    (hop : op.touchesSuspension = false) (hinv : callsTracked pre w)
    (h : step w op = .ok w1) : callsTracked (pre ++ [op]) w1 := by
  obtain ⟨hlive, hlen, hmemlt, hcomp, hlog⟩ := hinv
  have hz := hlive.1
  cases hl : op.isLifecycle with
  | false =>
    cases op with
    | create tot name => cases hl
    | advance T n s => cases hl
    | complete T => cases hl
    | suspendTracking => cases hop
    | resumeTracking => cases hop
    | setSubtaskCreated T0 =>
      simp only [step, Task.setSubtaskCreated] at h
      split at h
      · cases h
      · next t0 ht0 =>
        injection h with h
        subst h
        have hsame : ∀ i, (w.setTask T0 { t0 with SubtaskCreated := true }).completed i
            = w.completed i := completed_setTask_same _ ht0 rfl
        have hcc : createCalls (pre ++ [Op.setSubtaskCreated T0]) = createCalls pre := by
          rw [createCalls_concat]
          rfl
        have hmem : ∀ T : TaskId, Op.complete T ∈ pre ++ [Op.setSubtaskCreated T0]
            ↔ Op.complete T ∈ pre := by
          intro T
          simp
        refine ⟨⟨hz, hlive.2.1, ?_⟩, ?_, ?_, ?_, ?_⟩
        · intro T
          rw [hsame]
          exact hlive.2.2 T
        · rw [hcc]
          simpa using hlen
        · intro T hT
          rw [hcc]
          exact hmemlt T ((hmem T).mp hT)
        · intro T
          rw [hsame, hcc, hcomp T]
          simp only [hmem T]
        · rw [expectedEvents_concat]
          simpa [expectedEvent] using hlog
  | true =>
    have hlive1 := stackIsLive_step w op w1 hl hlive h
    obtain ⟨_, hcase⟩ := step_live hz hl h
    refine ⟨hlive1, ?_⟩
    rcases hcase with ⟨tot, name, rfl, hH, _, hL, hC⟩ | ⟨T0, n, s, t, rfl, _, hH, _, hL, hC⟩ |
      ⟨T0, rfl, hc0, rfl⟩ | ⟨T0, rfl, hc0, _, hH, _, hL, hC⟩
    · have hcc : createCalls (pre ++ [Op.create tot name]) = createCalls pre + 1 := by
        rw [createCalls_concat]
        rfl
      have hmem : ∀ T : TaskId, Op.complete T ∈ pre ++ [Op.create tot name]
          ↔ Op.complete T ∈ pre := by
        intro T
        simp
      refine ⟨by rw [hH, hlen, hcc], ?_, ?_, ?_⟩
      · intro T hT
        rw [hcc]
        exact Nat.lt_succ_of_lt (hmemlt T ((hmem T).mp hT))
      · intro T
        rw [hC, hcc, hlen]
        by_cases hT : T = createCalls pre
        · subst hT
          have hnot : ¬ Op.complete (createCalls pre) ∈ pre :=
            fun hin => Nat.lt_irrefl _ (hmemlt _ hin)
          simp [hmem, hnot]
        · rw [if_neg hT, hcomp T]
          by_cases hlt : T < createCalls pre
          · simp [hlt, Nat.lt_succ_of_lt hlt, hmem]
          · have hlt1 : ¬ T < createCalls pre + 1 := by
              intro h1
              rcases Nat.lt_succ_iff_lt_or_eq.mp h1 with h2 | h2
              · exact hlt h2
              · exact hT h2
            simp [hlt, hlt1]
      · rw [hL, List.map_append, hlog, expectedEvents_concat, hlen]
        rfl
    · have hcc : createCalls (pre ++ [Op.advance T0 n s]) = createCalls pre := by
        rw [createCalls_concat]
        rfl
      have hmem : ∀ T : TaskId, Op.complete T ∈ pre ++ [Op.advance T0 n s]
          ↔ Op.complete T ∈ pre := by
        intro T
        simp
      refine ⟨by rw [hH, hlen, hcc], ?_, ?_, ?_⟩
      · intro T hT
        rw [hcc]
        exact hmemlt T ((hmem T).mp hT)
      · intro T
        rw [hC, hcc, hcomp T]
        simp only [hmem T]
      · rw [hL, List.map_append, hlog, expectedEvents_concat]
        rfl
    · have hcT := hcomp T0
      rw [hc0] at hcT
      have hlt : T0 < createCalls pre := by
        by_contra hn
        rw [if_neg hn] at hcT
        cases hcT
      rw [if_pos hlt] at hcT
      have hin : Op.complete T0 ∈ pre := by
        injection hcT with hcT
        exact of_decide_eq_true hcT.symm
      have hcc : createCalls (pre ++ [Op.complete T0]) = createCalls pre := by
        rw [createCalls_concat]
        rfl
      have hmem : ∀ T : TaskId, Op.complete T ∈ pre ++ [Op.complete T0]
          ↔ Op.complete T ∈ pre := by
        intro T
        rw [List.mem_append, List.mem_singleton]
        constructor
        · rintro (h1 | h1)
          · exact h1
          · rw [h1]
            exact hin
        · exact Or.inl
      refine ⟨by rw [hlen, hcc], ?_, ?_, ?_⟩
      · intro T hT
        rw [hcc]
        exact hmemlt T ((hmem T).mp hT)
      · intro T
        rw [hcc, hcomp T]
        simp only [hmem T]
      · rw [hlog, expectedEvents_concat]
        simp [expectedEvent, hin]
    · have hcT := hcomp T0
      rw [hc0] at hcT
      have hlt : T0 < createCalls pre := by
        by_contra hn
        rw [if_neg hn] at hcT
        cases hcT
      rw [if_pos hlt] at hcT
      have hnot : ¬ Op.complete T0 ∈ pre := by
        injection hcT with hcT
        exact of_decide_eq_false hcT.symm
      have hcc : createCalls (pre ++ [Op.complete T0]) = createCalls pre := by
        rw [createCalls_concat]
        rfl
      have hmem : ∀ T : TaskId, Op.complete T ∈ pre ++ [Op.complete T0]
          ↔ (Op.complete T ∈ pre ∨ T = T0) := by
        intro T
        rw [List.mem_append, List.mem_singleton]
        constructor
        · rintro (h1 | h1)
          · exact Or.inl h1
          · injection h1 with h1
            exact Or.inr h1
        · rintro (h1 | h1)
          · exact Or.inl h1
          · exact Or.inr (by rw [h1])
      refine ⟨by rw [hH, hlen, hcc], ?_, ?_, ?_⟩
      · intro T hT
        rw [hcc]
        rcases (hmem T).mp hT with h1 | h1
        · exact hmemlt T h1
        · rw [h1]
          exact hlt
      · intro T
        rw [hC, hcc]
        by_cases hT : T = T0
        · subst hT
          simp [hlt, hmem]
        · rw [if_neg hT, hcomp T]
          simp only [hmem T, hT, or_false]
      · rw [hL, List.map_append, hlog, expectedEvents_concat]
        simp [expectedEvent, hnot, Event.unnamed]

/-- In a run with no suspension that starts where the calls `pre` lead, the
world tracks the calls made. -/
theorem callsTracked_run (ops : List Op) :
    ∀ (pre : List Op) (w w2 : World), (∀ op ∈ ops, op.touchesSuspension = false) →
      callsTracked pre w → run w ops = .ok w2 → callsTracked (pre ++ ops) w2 := by
  induction ops with
  | nil =>
    intro pre w w2 _ hP h
    simp only [run] at h
    injection h with h
    rw [List.append_nil]
    exact h ▸ hP
  | cons op rest ih =>
    intro pre w w2 hQ hP h
    simp only [run] at h
    split at h
    · next w1 h1 =>
      have := ih (pre ++ [op]) w1 w2 (fun o ho => hQ o (List.mem_cons_of_mem _ ho))
        (callsTracked_step (hQ op (List.mem_cons_self _ _)) hP h1) h
      simpa using this
    · cases h

theorem tasks_of_callsTracked {pre : List Op} {w : World} (h : callsTracked pre w) :
    w.Stack.Tasks = startedNotCompleted pre := by
  obtain ⟨hlive, hlen, _, hcomp, _⟩ := h
  rw [liveTasks_of_stackIsLive hlive]
  unfold World.liveTasks startedNotCompleted
  rw [hlen]
  apply List.filter_congr
  intro T hT
  rw [List.mem_range] at hT
  rw [hcomp T, if_pos hT]
  by_cases hin : Op.complete T ∈ pre
  · simp [hin]
  · simp [hin]

/-- A run of calls with no suspension from a fresh thread: the stack holds the
Tasks started and not completed, and the recorded events are the expected
ones. -/
theorem run_tracked (ops : List Op) (w : World)
    (hops : ∀ op ∈ ops, op.touchesSuspension = false) (hrun : run World.init ops = .ok w) :
    w.Stack.Tasks = startedNotCompleted ops ∧
    w.Log.map (fun n => n.event.unnamed) = expectedEvents ops := by
  have h := callsTracked_run ops [] World.init w hops callsTracked_init hrun
  rw [List.nil_append] at h
  exact ⟨tasks_of_callsTracked h, h.2.2.2.2⟩
theorem touchesSuspension_of_isLifecycle {op : Op} (h : op.isLifecycle = true) :
    op.touchesSuspension = false := by
  cases op <;> first | rfl | cases h

/-- C6. In every run from a fresh thread made of Task creations, advances and
completions (destructions) and no suspension, after each call the suspend
counter is zero and the size of `Tasks` is the number of Tasks created on the
thread and not yet completed: the number of objects whose `completed()` is
false, which is the number of Tasks that the calls made so far have constructed
and on which none of them has called `complete`. -/
theorem C6_stack_size_is_live_count (ops : List Op) (w : World)
    (hops : ∀ op ∈ ops, op.touchesSuspension = false)
    (hrun : run World.init ops = .ok w) :
    ∀ k, ∃ wk, run World.init (ops.take k) = .ok wk ∧
      wk.Stack.SuspendRequests = 0 ∧ wk.Stack.Tasks.length = liveCount wk ∧
      wk.Stack.Tasks.length = (startedNotCompleted (ops.take k)).length := by
  intro k
  obtain ⟨wk, hk⟩ := run_take hrun k
  have hops1 : ∀ op ∈ ops.take k, op.touchesSuspension = false :=
    fun op ho => hops op (List.mem_of_mem_take ho)
  have h1 := run_invariant_of (fun op => op.touchesSuspension = false)
    (fun v => v.Stack.SuspendRequests = 0 ∧ v.Stack.Tasks.length = liveCount v)
    sizeIsLive_step (ops.take k) World.init wk hops1 ⟨rfl, rfl⟩ hk
  have h2 := (run_tracked (ops.take k) wk hops1 hk).1
  exact ⟨wk, hk, h1.1, h1.2, by rw [h2]⟩

/-- C6 on the end-to-end scenario: after its fourth call two Tasks have been
started and none completed, and the stack has size 2; at its end the nested Task
has been destroyed, and the stack has size 1. -/
theorem C6_stack_size_is_live_count_witness :
    (∀ op ∈ buildScenario, op.touchesSuspension = false) ∧
    (∃ wk, run World.init (buildScenario.take 4) = .ok wk ∧
      wk.Stack.SuspendRequests = 0 ∧ wk.Stack.Tasks.length = liveCount wk ∧
      wk.Stack.Tasks.length = (startedNotCompleted (buildScenario.take 4)).length) ∧
    (startedNotCompleted (buildScenario.take 4)).length = 2 ∧
    (∃ wk, run World.init (buildScenario.take 6) = .ok wk ∧
      wk.Stack.SuspendRequests = 0 ∧ wk.Stack.Tasks.length = liveCount wk ∧
      wk.Stack.Tasks.length = (startedNotCompleted (buildScenario.take 6)).length) ∧
    (startedNotCompleted (buildScenario.take 6)).length = 1 :=
  ⟨by decide, C6_stack_size_is_live_count buildScenario _ (by decide) rfl 4, by decide,
   C6_stack_size_is_live_count buildScenario _ (by decide) rfl 6, by decide⟩

/-- C22 (amended). In every run from a fresh thread made of Task creations,
advances and completions (destructions) with no suspension, after each call
`Tasks` holds exactly the Tasks that the calls made so far have started and not
completed, once each and in the order of their creation (outermost first); these
are the objects whose `completed()` is false. While the stack is suspended
`Tasks` is frozen: the construction of a Task succeeds and leaves `Tasks` as it
was, and so does the call `complete()` on any Task, which leaves the Task
completed. -/
theorem C22_stack_holds_the_live_tasks (ops : List Op) (w : World)
    (hops : ∀ op ∈ ops, op.isLifecycle = true)
    (hrun : run World.init ops = .ok w) :
    (∀ k, ∃ wk, run World.init (ops.take k) = .ok wk ∧
      wk.Stack.Tasks = startedNotCompleted (ops.take k) ∧
      wk.Stack.Tasks = wk.liveTasks ∧
      wk.Stack.Tasks.Pairwise (fun a b => a < b) ∧
      ∀ T, T ∈ wk.Stack.Tasks ↔ wk.completed T = some false) ∧
    (∀ v : World, 0 < v.Stack.SuspendRequests →
      (∀ (tot : Option Int) (name : String),
        ∃ v1, Task.create v tot name = .ok (v.Heap.length, v1) ∧
          v1.Stack.Tasks = v.Stack.Tasks ∧ v1.completed v.Heap.length = some false) ∧
      (∀ (T : TaskId) (t : Task), v.Heap[T]? = some t →
        ∃ v1, Task.complete v T = .ok v1 ∧
          v1.Stack.Tasks = v.Stack.Tasks ∧ v1.completed T = some true)) := by
  constructor
  · intro k
    obtain ⟨wk, hk⟩ := run_take hrun k
    have hops1 : ∀ op ∈ ops.take k, op.isLifecycle = true :=
      fun op ho => hops op (List.mem_of_mem_take ho)
    have hinv := stackIsLive_run (ops.take k) wk hops1 hk
    have h2 := (run_tracked (ops.take k) wk
      (fun op ho => touchesSuspension_of_isLifecycle (hops1 op ho)) hk).1
    exact ⟨wk, hk, h2, liveTasks_of_stackIsLive hinv, hinv.2.1, hinv.2.2⟩
  · intro v hp
    constructor
    · intro tot name
      obtain ⟨v1, h1⟩ := create_succeeds v tot name (by
        intro h0
        omega)
      obtain ⟨_, _, h2⟩ := create_stack h1
      obtain ⟨t, ht, _, _, _, hc⟩ := create_fresh h1
      exact ⟨v1, h1, (h2 hp).1, by simp [World.completed, ht, hc]⟩
    · intro T t ht
      cases hc : t.Completed with
      | true =>
        exact ⟨v, complete_of_completed ht hc, rfl, by simp [World.completed, ht, hc]⟩
      | false =>
        refine ⟨v.setTask T { t with Completed := true }, ?_, rfl, ?_⟩
        · rw [complete_of_live ht hc]
          exact unregisterTask_suspended T hp
        · have := getElem?_set_self_of_some { t with Completed := true } ht
          simp [World.completed, this]

/-- C22 (amended) on the scenario "build": after the nested Task is destroyed
the stack holds the outer Task (object `0`) alone; and on a stack `[0]`
suspended once, completing the Task leaves it in `Tasks`. -/
theorem C22_stack_holds_the_live_tasks_witness :
    (∀ op ∈ buildScenario, op.isLifecycle = true) ∧
    (∃ wk, run World.init (buildScenario.take 5) = .ok wk ∧
      wk.Stack.Tasks = startedNotCompleted (buildScenario.take 5) ∧
      wk.Stack.Tasks = wk.liveTasks ∧
      wk.Stack.Tasks.Pairwise (fun a b => a < b) ∧
      ∀ T, T ∈ wk.Stack.Tasks ↔ wk.completed T = some false) ∧
    startedNotCompleted (buildScenario.take 5) = [0] ∧
    startedNotCompleted (buildScenario.take 3) = [0, 1] ∧
    (∃ v1, Task.complete
        ⟨[{ TotalSteps := none, TaskName := "t" }], { SuspendRequests := 1, Tasks := [0] }, []⟩ 0
          = .ok v1 ∧
      v1.Stack.Tasks = [0] ∧ v1.completed 0 = some true) :=
  ⟨by decide, (C22_stack_holds_the_live_tasks buildScenario _ (by decide) rfl).1 5,
    by decide, by decide,
    ((C22_stack_holds_the_live_tasks buildScenario _ (by decide) rfl).2
      ⟨[{ TotalSteps := none, TaskName := "t" }], { SuspendRequests := 1, Tasks := [0] }, []⟩
      (by decide)).2 0 _ rfl⟩
/-- C10. On a non-suspended stack whose top, if any, is an existing object,
constructing a Task succeeds: the new Task is appended as the last element of
`Tasks` (the earlier elements are unchanged, in the same order), the previous
top, if there was one, has `subtaskCreated()` set and no other earlier object is
modified, and exactly one new-task notification is recorded, made when `Tasks`
already ends with the new Task. Consequently, in every run of Task creations,
advances and completions from a fresh thread, `subtaskCreated()` of a Task is
true exactly when a Task has been registered directly on top of it since its
last advance (since its creation if it never advanced), where the recorded
notifications are those the calls made should raise: one new-task notification
for each construction and one advancement for each `advance`, in call order.
The call `advance` on a Task clears its `subtaskCreated()` and, on a stack that
is not suspended, records one advancement notification. -/
theorem C10_create_registers_and_marks_parent :
    (∀ (w : World) (tot : Option Int) (name : String), w.Stack.SuspendRequests = 0 →
      (∀ B, w.Stack.Tasks.getLast? = some B → B < w.Heap.length) →
      ∃ w1, Task.create w tot name = .ok (w.Heap.length, w1) ∧
        w1.Stack.Tasks = w.Stack.Tasks ++ [w.Heap.length] ∧
        w1.Stack.SuspendRequests = 0 ∧
        w1.Log = w.Log ++ [⟨.NewTask w.Heap.length, w.Stack.Tasks ++ [w.Heap.length]⟩] ∧
        w1.Heap[w.Heap.length]? = some { TotalSteps := tot, TaskName := name } ∧
        w1.Heap.length = w.Heap.length + 1 ∧
        (∀ B b, w.Stack.Tasks.getLast? = some B → w.Heap[B]? = some b →
          w1.Heap[B]? = some { b with SubtaskCreated := true }) ∧
        (∀ i, i < w.Heap.length → w.Stack.Tasks.getLast? ≠ some i →
          w1.Heap[i]? = w.Heap[i]?)) ∧
    (∀ (ops : List Op) (w : World), (∀ op ∈ ops, op.isLifecycle = true) →
      run World.init ops = .ok w →
      ∀ (T : TaskId) (t : Task), w.Heap[T]? = some t →
        t.SubtaskCreated = nestedSinceLastAdvance T w.Log) ∧
    (∀ (ops : List Op) (w : World), (∀ op ∈ ops, op.isLifecycle = true) →
      run World.init ops = .ok w →
      w.Log.map (fun n => n.event.unnamed) = expectedEvents ops) ∧
    (∀ (w w1 : World) (T : TaskId) (n : String) (s : Bool),
      Task.advance w T n s = .ok w1 →
      ∃ t t1, w.Heap[T]? = some t ∧ w1.Heap[T]? = some t1 ∧ t1.SubtaskCreated = false ∧
        (w.Stack.SuspendRequests = 0 →
          w1.Log = w.Log ++ [⟨.TaskAdvancement T t.StepName, w.Stack.Tasks⟩])) := by
  refine ⟨?_, ?_, ?_, ?_⟩
  · intro w tot name hz hvalid
    have hnewcell : (w.Heap ++ [({ TotalSteps := tot, TaskName := name } : Task)])[w.Heap.length]?
        = some { TotalSteps := tot, TaskName := name } := List.getElem?_concat_length _ _
    cases hl : w.Stack.Tasks.getLast? with
    | none =>
      have hreg := registerTask_empty
        (w := { w with Heap := w.Heap ++ [{ TotalSteps := tot, TaskName := name }] })
        w.Heap.length hz hl
      refine ⟨Progress.handleNewTask
        (World.pushTask { w with Heap := w.Heap ++ [{ TotalSteps := tot, TaskName := name }] }
          w.Heap.length) w.Heap.length,
        by simp only [Task.create, hreg], rfl, hz, rfl, hnewcell, ?_, ?_, ?_⟩
      · show (w.Heap ++ [({ TotalSteps := tot, TaskName := name } : Task)]).length = _
        simp
      · intro B b hB
        cases hB
      · intro i hi _
        exact List.getElem?_append_left hi
    | some B =>
      have hBlt : B < w.Heap.length := hvalid B hl
      have hb : w.Heap[B]? = some w.Heap[B] := List.getElem?_eq_getElem hBlt
      have hb1 : (w.Heap ++ [({ TotalSteps := tot, TaskName := name } : Task)])[B]?
          = some w.Heap[B] := by
        rw [List.getElem?_append_left hBlt]
        exact hb
      have hreg := registerTask_nested
        (w := { w with Heap := w.Heap ++ [{ TotalSteps := tot, TaskName := name }] })
        (T := w.Heap.length) (B := B) hz hl hnewcell hb1 rfl
      refine ⟨Progress.handleNewTask
        (World.pushTask
          (World.setTask { w with Heap := w.Heap ++ [{ TotalSteps := tot, TaskName := name }] }
            B { w.Heap[B] with SubtaskCreated := true })
          w.Heap.length) w.Heap.length,
        by simp only [Task.create, hreg], rfl, hz, rfl, ?_, ?_, ?_, ?_⟩
      · show ((w.Heap ++ [({ TotalSteps := tot, TaskName := name } : Task)]).set B
          { w.Heap[B] with SubtaskCreated := true })[w.Heap.length]? = _
        rw [List.getElem?_set_ne (Nat.ne_of_lt hBlt)]
        exact hnewcell
      · show ((w.Heap ++ [({ TotalSteps := tot, TaskName := name } : Task)]).set B
          { w.Heap[B] with SubtaskCreated := true }).length = _
        simp
      · intro B1 b1 hB1 hb1'
        cases hB1
        rw [hb] at hb1'
        cases hb1'
        exact getElem?_set_self_of_some _ hb1
      · intro i hi hne
        have hBi : B ≠ i := fun he => hne (by rw [he])
        show ((w.Heap ++ [({ TotalSteps := tot, TaskName := name } : Task)]).set B
          { w.Heap[B] with SubtaskCreated := true })[i]? = _
        rw [List.getElem?_set_ne hBi]
        exact List.getElem?_append_left hi
  · intro ops w hops hrun
    have hinit : flagsMatchLog World.init := by
      refine ⟨rfl, ?_, ?_, ?_⟩
      · intro i hi
        cases hi
      · intro n hn
        cases hn
      · intro T t ht
        simp [World.init] at ht
    exact (run_invariant_of (fun op => op.isLifecycle = true) flagsMatchLog
      flagsMatchLog_step ops World.init w hops hinit hrun).2.2.2
  · intro ops w hops hrun
    exact (run_tracked ops w
      (fun op ho => touchesSuspension_of_isLifecycle (hops op ho)) hrun).2
  · intro w w1 T n s h
    obtain ⟨t, ht, _, rfl⟩ := advance_ok_inv h
    refine ⟨t, t.advanced n s, ht, ?_, rfl, ?_⟩
    · rw [advanceTask_Heap, setTask_Heap]
      exact getElem?_set_self_of_some _ ht
    · intro hz
      simp [TaskStack.advanceTask, TaskStack.isSuspended, World.setTask, hz,
        Progress.handleTaskAdvancement]

/-- C10 on the thread of one Task "parent": creating "child" pushes it, marks the
parent and records one new-task notification. After the run create, advance,
create the flag of the parent is set, as the log says; after the run create,
create, complete, advance the flag of the parent, set by the second call, is
clear again. -/
theorem C10_create_registers_and_marks_parent_witness :
    (∃ w1, Task.create
        ⟨[{ TotalSteps := none, TaskName := "parent" }], { Tasks := [0] }, [⟨.NewTask 0, [0]⟩]⟩
        none "child" = .ok (1, w1) ∧
      w1.Stack.Tasks = [0] ++ [1] ∧
      w1.Log = [⟨.NewTask 0, [0]⟩] ++ [⟨.NewTask 1, [0] ++ [1]⟩]) ∧
    (∃ w t, run World.init
        [.create none "parent", .advance 0 "s" false, .create none "child"] = .ok w ∧
      w.Heap[0]? = some t ∧ t.SubtaskCreated = true ∧
      t.SubtaskCreated = nestedSinceLastAdvance 0 w.Log) ∧
    (∃ w t, run World.init
        [.create none "parent", .create none "child", .complete 1] = .ok w ∧
      w.Heap[0]? = some t ∧ t.SubtaskCreated = true ∧
      t.SubtaskCreated = nestedSinceLastAdvance 0 w.Log) ∧
    (∃ w t, run World.init
        [.create none "parent", .create none "child", .complete 1, .advance 0 "s" false]
          = .ok w ∧
      w.Heap[0]? = some t ∧ t.SubtaskCreated = false ∧
      t.SubtaskCreated = nestedSinceLastAdvance 0 w.Log) := by
  refine ⟨?_, ?_, ?_, ?_⟩
  · obtain ⟨w1, h1, h2, _, h3, _⟩ := C10_create_registers_and_marks_parent.1
      ⟨[{ TotalSteps := none, TaskName := "parent" }], { Tasks := [0] }, [⟨.NewTask 0, [0]⟩]⟩
      none "child" rfl (by
        intro B hB
        cases hB
        decide)
    exact ⟨w1, h1, h2, h3⟩
  · exact ⟨_, _, rfl, rfl, rfl, C10_create_registers_and_marks_parent.2.1
      [.create none "parent", .advance 0 "s" false, .create none "child"] _
      (by decide) rfl 0 _ rfl⟩
  · exact ⟨_, _, rfl, rfl, rfl, C10_create_registers_and_marks_parent.2.1
      [.create none "parent", .create none "child", .complete 1] _
      (by decide) rfl 0 _ rfl⟩
  · exact ⟨_, _, rfl, rfl, rfl, C10_create_registers_and_marks_parent.2.1
      [.create none "parent", .create none "child", .complete 1, .advance 0 "s" false] _
      (by decide) rfl 0 _ rfl⟩
/-- C24. Two threads, the primary one and a worker, each with its own stack and
Tasks, make their calls in any interleaving (one call at a time) that ends
without a violation, with listeners registered once each. Then each thread's
world is the one its own calls lead to when run alone; every listener receives
from the primary thread the events of the primary thread's Tasks, in that
thread's order; from the worker a listener tagged all-threads receives the
worker's events in the worker's order and a primary-thread-only listener
receives nothing, so that all the callbacks of a primary-thread-only listener
are the primary thread's events. When no call suspends or resumes tracking, the
events of a thread are those its calls should raise, in call order: one new-task
event for each construction, one advancement event for each `advance`, one
completion event for the first `complete` of each Task. -/
theorem C24_two_threads_routing (P : Progress) (W : Nat) (sched : List (Bool × Op))
    (p : Process) (hW : W ≠ P.MainThreadID)
    (hreg : (P.Registry.map (fun e => e.Listener)).Nodup)
    (hrun : Process.schedule { Report := P, WorkerThread := W } sched = .ok p) :
    run World.init (callsOf true sched) = .ok p.Primary ∧
    run World.init (callsOf false sched) = .ok p.Worker ∧
    (∀ entry ∈ P.Registry,
      p.receivedFrom P.MainThreadID entry.Listener = p.Primary.Log.map (fun n => n.event) ∧
      p.receivedFrom W entry.Listener
        = (if entry.AllThreads then p.Worker.Log.map (fun n => n.event) else []) ∧
      (entry.AllThreads = false →
        p.receivedBy entry.Listener
          = p.Primary.Log.map (fun n => (P.MainThreadID, n.event)))) ∧
    ((∀ c ∈ sched, c.2.touchesSuspension = false) →
      ∀ entry ∈ P.Registry,
        (p.receivedFrom P.MainThreadID entry.Listener).map Event.unnamed
          = expectedEvents (callsOf true sched) ∧
        (p.receivedFrom W entry.Listener).map Event.unnamed
          = (if entry.AllThreads then expectedEvents (callsOf false sched) else [])) := by
  have hinit : Process.perThread { Report := P, WorkerThread := W } :=
    ⟨rfl, rfl, fun c hc => by cases hc⟩
  obtain ⟨hinv, hR, hT⟩ := perThread_schedule sched _ p hW hinit hrun
  have hR1 : p.Report = P := hR
  have hT1 : p.WorkerThread = W := hT
  obtain ⟨hw1, hw2⟩ := schedule_worlds sched _ p hrun
  have hroute : ∀ entry ∈ P.Registry,
      p.receivedFrom P.MainThreadID entry.Listener = p.Primary.Log.map (fun n => n.event) ∧
      p.receivedFrom W entry.Listener
        = (if entry.AllThreads then p.Worker.Log.map (fun n => n.event) else []) ∧
      (entry.AllThreads = false →
        p.receivedBy entry.Listener
          = p.Primary.Log.map (fun n => (P.MainThreadID, n.event))) := ?_
  · refine ⟨hw1, hw2, hroute, ?_⟩
    intro hsched entry he
    have hcalls : ∀ (b : Bool), ∀ op ∈ callsOf b sched, op.touchesSuspension = false := by
      intro b op hop
      unfold callsOf at hop
      rw [List.mem_map] at hop
      obtain ⟨c, hc, rfl⟩ := hop
      exact hsched c (List.mem_of_mem_filter hc)
    have hP := (run_tracked _ p.Primary (hcalls true) hw1).2
    have hWk := (run_tracked _ p.Worker (hcalls false) hw2).2
    obtain ⟨h1, h2, _⟩ := hroute entry he
    rw [h1, h2, List.map_map]
    refine ⟨hP, ?_⟩
    cases entry.AllThreads with
    | true =>
      simp only [if_true, List.map_map]
      exact hWk
    | false => rfl
  intro entry he
  have heP : entry ∈ P.eligible P.MainThreadID := by rw [eligible_primary]; exact he
  have hfromP : p.receivedFrom P.MainThreadID entry.Listener
      = p.Primary.Log.map (fun n => n.event) := by
    have h1 := receivedFrom_primary hinv entry.Listener
    rw [hR1] at h1
    rw [h1]
    exact received_eq hreg heP _
  have hnone : entry.AllThreads = false →
      P.received W entry.Listener p.Worker.Log = [] := by
    intro hall
    apply received_of_not_eligible
    intro e hel hL
    obtain ⟨hmem, hall1⟩ := (mem_eligible_other hW e).mp hel
    have heq : e = entry := List.inj_on_of_nodup_map hreg hmem he hL
    rw [heq, hall] at hall1
    cases hall1
  have hfromW : p.receivedFrom W entry.Listener
      = (if entry.AllThreads then p.Worker.Log.map (fun n => n.event) else []) := by
    have h1 := receivedFrom_worker hinv entry.Listener
    rw [hR1, hT1] at h1
    rw [h1]
    cases hall : entry.AllThreads with
    | true =>
      simp only [if_true]
      exact received_eq hreg ((mem_eligible_other hW entry).mpr ⟨he, hall⟩) _
    | false =>
      simp only [Bool.false_eq_true, if_false]
      exact hnone hall
  refine ⟨hfromP, hfromW, ?_⟩
  intro hall
  obtain ⟨hcP, hcW, hcall⟩ := hinv
  rw [hR1] at hcP hcW hcall
  rw [hT1] at hcW hcall
  have hWnone : (p.Calls.filter (fun c => decide (c.1 = W))).filter
      (fun c => decide (c.2.Listener = entry.Listener)) = [] := by
    have h2 := hnone hall
    unfold Progress.received at h2
    rw [List.map_eq_nil_iff] at h2
    rw [hcW, List.filter_map]
    have hcomp : ((fun c : Nat × Callback => decide (c.2.Listener = entry.Listener)) ∘
        fun c => (W, c)) = (fun c : Callback => decide (c.Listener = entry.Listener)) := rfl
    rw [hcomp, h2]
    rfl
  unfold Process.receivedBy
  rw [filter_two_tags _ p.Calls hcall hWnone, hcP, List.filter_map, List.map_map]
  have h3 := received_eq hreg heP p.Primary.Log
  unfold Progress.received at h3
  have h4 : (List.map ((fun c : Nat × Callback => (c.1, c.2.event)) ∘
        fun c => (P.MainThreadID, c))
      (List.filter ((fun c : Nat × Callback => decide (c.2.Listener = entry.Listener)) ∘
        fun c => (P.MainThreadID, c)) (P.deliver P.MainThreadID p.Primary.Log)))
      = (List.map (fun c => c.event)
          (List.filter (fun c => decide (c.Listener = entry.Listener))
            (P.deliver P.MainThreadID p.Primary.Log))).map (fun e => (P.MainThreadID, e)) := by
    rw [List.map_map]
    rfl
  rw [h4, h3, List.map_map]
  rfl

/-- C24 on an interleaving of a primary thread (thread `0`) and a worker
(thread `1`) that each create, advance and complete one Task, with a
primary-thread-only listener at address `7` and an all-threads listener at
address `8`: the first receives the three events of the primary thread, the
second the events of both threads as the interleaving produces them. -/
theorem C24_two_threads_routing_witness :
    (1 : Nat) ≠ twoListeners.MainThreadID ∧
    (twoListeners.Registry.map (fun e => e.Listener)).Nodup ∧
    (∀ c ∈ twoThreadsSchedule, c.2.touchesSuspension = false) ∧
    ∃ p, Process.schedule { Report := twoListeners, WorkerThread := 1 } twoThreadsSchedule
        = .ok p ∧
      p.receivedBy 7
        = [(0, .NewTask 0), (0, .TaskAdvancement 0 ""), (0, .TaskCompleted 0)] ∧
      p.receivedBy 8
        = [(0, .NewTask 0), (1, .NewTask 0), (1, .TaskAdvancement 0 ""),
           (0, .TaskAdvancement 0 ""), (1, .TaskCompleted 0), (0, .TaskCompleted 0)] ∧
      p.receivedFrom 1 7 = [] ∧
      p.receivedBy 7
        = p.Primary.Log.map (fun n => (twoListeners.MainThreadID, n.event)) ∧
      (p.receivedFrom 1 8).map Event.unnamed
        = [.NewTask 0, .TaskAdvancement 0 "", .TaskCompleted 0] :=
  ⟨by decide, by decide, by decide, _, rfl, by decide, by decide,
    ((C24_two_threads_routing twoListeners 1 twoThreadsSchedule _ (by decide) (by decide)
      rfl).2.2.1 ⟨false, 7⟩ (by decide)).2.1,
    ((C24_two_threads_routing twoListeners 1 twoThreadsSchedule _ (by decide) (by decide)
      rfl).2.2.1 ⟨false, 7⟩ (by decide)).2.2 rfl,
    ((C24_two_threads_routing twoListeners 1 twoThreadsSchedule _ (by decide) (by decide)
      rfl).2.2.2 (by decide) ⟨true, 8⟩ (by decide)).2⟩

end llvm
